import Mathlib

/-!
# LegionCommunityServer: DB2Meta record layout and the vmap4 extractor

A shallow embedding of `src/common/DataStores/DB2Meta.cpp` and of
`src/tools/vmap4_extractor/vmapexport.cpp`, followed by theorems about them.

Conventions of the embedding:
* `uint32` values are natural numbers reduced modulo `2^32` after every addition;
  `int32` values are integers;
* an aborting path (`ASSERT(false, ..)`, `ABORT_MSG`, an out-of-bounds array read)
  is the result `none`;
* C arrays reached through a pointer are lists, read with `xs[i]?`.
-/

namespace DB2

/-- Modulus of `uint32` arithmetic. -/
def UINT32_MOD : Nat := 4294967296

/-- Column type tags of `DBCFormer` as branched on in DB2Meta.cpp. The enumeration itself is
declared in a header outside the sources; a tag that is none of the seven handled ones is
`FT_UNSUPPORTED`, carrying its character code. -/
inductive DBCFormer where
  | FT_STRING
  | FT_STRING_NOT_LOCALIZED
  | FT_FLOAT
  | FT_INT
  | FT_BYTE
  | FT_SHORT
  | FT_LONG
  | FT_UNSUPPORTED (code : Nat)
  deriving DecidableEq, Repr

open DBCFormer

/-- The two platform-dependent widths used by DB2Meta.cpp: `sizeof(LocalizedString)` and
`sizeof(char*)`. Both types are declared outside the sources, so the widths are parameters. -/
structure Platform where
  sizeofLocalizedString : Nat
  sizeofCharPtr : Nat
  deriving DecidableEq, Repr

/-- A 64-bit platform with twelve locale slots per localized string. -/
def lp64 : Platform := ⟨96, 8⟩

/-- The data members of `DB2Meta`, in the order of the constructor's member list. -/
structure DB2Meta where
  IndexField : Int
  ParentIndexField : Int
  FieldCount : Nat
  LayoutHash : Nat
  Types : List DBCFormer
  ArraySizes : List Nat
  deriving DecidableEq, Repr

/-- The `switch (Types[i])` of the three layout functions: the number of bytes one array element
of the column adds, or `none` for the `default:` branch, which aborts. -/
def typeWidth (P : Platform) : DBCFormer → Option Nat
  | FT_BYTE => some 1
  | FT_SHORT => some 2
  | FT_FLOAT => some 4
  | FT_INT => some 4
  | FT_LONG => some 8
  | FT_STRING => some P.sizeofLocalizedString
  | FT_STRING_NOT_LOCALIZED => some P.sizeofCharPtr
  | FT_UNSUPPORTED _ => none

/-- The inner loop `for (uint8 j = 0; j < ArraySizes[i]; ++j) switch (Types[i]) ..`: `n` is the
number of iterations left, `size` the running `uint32` accumulator. -/
def arrayLoop (P : Platform) (t : DBCFormer) : Nat → Nat → Option Nat
  | 0, size => some size
  | n + 1, size =>
    match typeWidth P t with
    | some w => arrayLoop P t n ((size + w) % UINT32_MOD)
    | none => none

/-- The outer loop `for (i = ..; i < bound; ++i)` shared by `GetRecordSize`,
`GetIndexFieldOffset` and `GetParentIndexFieldOffset`: `n` is `bound - i`. -/
def fieldLoop (P : Platform) (m : DB2Meta) : Nat → Nat → Nat → Option Nat
  | 0, _, size => some size
  | n + 1, i, size =>
    match m.Types[i]?, m.ArraySizes[i]? with
    | some t, some a =>
      match arrayLoop P t a size with
      | some size1 => fieldLoop P m n (i + 1) size1
      | none => none
    | _, _ => none

/-- Source: `DB2Meta::HasIndexFieldInData`. -/
def HasIndexFieldInData (m : DB2Meta) : Bool :=
  m.IndexField != -1

/-- Source: `DB2Meta::GetRecordSize`. -/
def GetRecordSize (P : Platform) (m : DB2Meta) : Option Nat :=
  match fieldLoop P m m.FieldCount 0 0 with
  | some size => if !HasIndexFieldInData m then some ((size + 4) % UINT32_MOD) else some size
  | none => none

/-- Source: `DB2Meta::GetIndexFieldOffset`. -/
def GetIndexFieldOffset (P : Platform) (m : DB2Meta) : Option Nat :=
  if m.IndexField = -1 then some 0
  else fieldLoop P m m.IndexField.toNat 0 0

/-- Conversion of a `uint32` value to `int32` (two's complement). -/
def toInt32 (n : Nat) : Int :=
  if n % UINT32_MOD < 2147483648 then (n % UINT32_MOD : Nat) else (n % UINT32_MOD : Nat) - 4294967296

/-- Source: `DB2Meta::GetParentIndexFieldOffset`. -/
def GetParentIndexFieldOffset (P : Platform) (m : DB2Meta) : Option Int :=
  if m.ParentIndexField = -1 then some (-1)
  else
    match fieldLoop P m m.ParentIndexField.toNat 0 (if !HasIndexFieldInData m then 4 else 0) with
    | some offset => some (toInt32 offset)
    | none => none

/-- The tag is one of the seven handled by the `switch`. -/
def isSupported : DBCFormer → Bool
  | FT_UNSUPPORTED _ => false
  | _ => true

/-- Every column of the schema has one of the seven handled types. -/
def supportedTypes (m : DB2Meta) : Prop :=
  ∀ t ∈ m.Types, isSupported t = true

instance (m : DB2Meta) : Decidable (supportedTypes m) := by
  unfold supportedTypes; infer_instance

/-- The arrays `Types` and `ArraySizes` have exactly `FieldCount` entries, each array size being a
`uint8`. -/
def wellFormed (m : DB2Meta) : Prop :=
  m.Types.length = m.FieldCount ∧ m.ArraySizes.length = m.FieldCount ∧ ∀ a ∈ m.ArraySizes, a < 256

instance (m : DB2Meta) : Decidable (wellFormed m) := by
  unfold wellFormed; infer_instance

/-- Type widths as the specification lists them: byte 1, short 2, int 4, float 4, long 8,
localized string `sizeof(LocalizedString)`, plain string `sizeof(char*)`. -/
def specWidth (P : Platform) : DBCFormer → Nat
  | FT_BYTE => 1
  | FT_SHORT => 2
  | FT_INT => 4
  | FT_FLOAT => 4
  | FT_LONG => 8
  | FT_STRING => P.sizeofLocalizedString
  | FT_STRING_NOT_LOCALIZED => P.sizeofCharPtr
  | FT_UNSUPPORTED _ => 0

/-- Bytes contributed by column `i` according to the specification: array length times type
width (0 outside the arrays). -/
def fieldBytes (P : Platform) (m : DB2Meta) (i : Nat) : Nat :=
  m.ArraySizes.getD i 0 * specWidth P (m.Types.getD i FT_BYTE)

/-- Exact (unbounded) sum of the byte contributions of the columns `i < k`. -/
def bytesBefore (P : Platform) (m : DB2Meta) (k : Nat) : Nat :=
  ((List.range k).map (fieldBytes P m)).sum

/-- Record size as the specification states it: the sum over all `FieldCount` columns of array
length times type width, plus 4 exactly when the index is not embedded (`IndexField == -1`). -/
def specRecordSize (P : Platform) (m : DB2Meta) : Nat :=
  bytesBefore P m m.FieldCount + (if m.IndexField = -1 then 4 else 0)

/-- Sum of the byte contributions of the `n` columns starting at column `i`. -/
def bytesRange (P : Platform) (m : DB2Meta) (i n : Nat) : Nat :=
  ((List.range' i n).map (fieldBytes P m)).sum

/-- The columns `i .. i + n - 1` can all be read and have a handled type. -/
def readable (m : DB2Meta) (i n : Nat) : Prop :=
  ∀ j, i ≤ j → j < i + n →
    ∃ t a, m.Types[j]? = some t ∧ m.ArraySizes[j]? = some a ∧ isSupported t = true

/-- The schema `m` with its index column moved to position `k`. -/
def withIndexField (m : DB2Meta) (k : Int) : DB2Meta :=
  ⟨k, m.ParentIndexField, m.FieldCount, m.LayoutHash, m.Types, m.ArraySizes⟩

/-- The schema of the example: columns int x1, short x2, byte x1, index embedded at column 0. -/
def exampleMeta : DB2Meta := ⟨0, -1, 3, 0, [FT_INT, FT_SHORT, FT_BYTE], [1, 2, 1]⟩

/-- A schema of `n` columns, each an array of 255 eight-byte values, index embedded at
column 0. -/
def uniformMeta (n : Nat) : DB2Meta :=
  ⟨0, -1, n, 0, List.replicate n FT_LONG, List.replicate n 255⟩

/-- A schema of 2105377 columns, each an array of 255 eight-byte values. Its exact record size
4294969080 exceeds the `uint32` range. -/
def wideMeta : DB2Meta := uniformMeta 2105377

/-- The schema `m` with its parent index column moved to position `p`. -/
def withParentIndexField (m : DB2Meta) (p : Int) : DB2Meta :=
  ⟨m.IndexField, p, m.FieldCount, m.LayoutHash, m.Types, m.ArraySizes⟩

/-- Parent index offset as the specification states it: the sum over the columns before the
parent index column of array length times type width, plus 4 exactly when the index is not
embedded (`IndexField == -1`). -/
def specParentOffset (P : Platform) (m : DB2Meta) : Nat :=
  bytesBefore P m m.ParentIndexField.toNat + (if m.IndexField = -1 then 4 else 0)

/-- Both platform widths are at least one byte, as every `sizeof` is. -/
def Platform.positive (P : Platform) : Prop :=
  0 < P.sizeofLocalizedString ∧ 0 < P.sizeofCharPtr

instance (P : Platform) : Decidable P.positive := by
  unfold Platform.positive; infer_instance

/-- Array length of column `i` (0 outside the array). -/
def arrayLength (m : DB2Meta) (i : Nat) : Nat := m.ArraySizes.getD i 0

/-- A schema of 1052690 columns, each an array of 255 eight-byte values. The columns before
column 1052689 take 2147485560 bytes, more than the largest `int32`. -/
def halfWideMeta : DB2Meta := uniformMeta 1052690

end DB2

/-! ## vmapexport.cpp: the extractor state and its operations -/

namespace VMapExport

/-! ### ObjectIdAllocator: `uniqueObjectIds` and `GenerateUniqueObjectId` -/

/-- A key `std::pair<uint32, uint16>`: client id and client doodad id. -/
abbrev ObjectKey := Nat × Nat

/-- The global `std::map<std::pair<uint32, uint16>, uint32> uniqueObjectIds`, as the list of its
entries in order of insertion. Only `find`, `size` and insertion of an absent key are used, so
the key order of the map plays no role. -/
abbrev UniqueObjectIds := List (ObjectKey × Nat)

/-- Lookup of a key in `uniqueObjectIds`. -/
def idFind : UniqueObjectIds → ObjectKey → Option Nat
  | [], _ => none
  | (k1, v) :: t, k => if k = k1 then some v else idFind t k

/-- Source: `GenerateUniqueObjectId`. `emplace(key, size() + 1)` inserts only when the key is
absent; the mapped value is a `uint32`, so `size() + 1` is stored modulo `2^32`. The result is
the new map and the returned id (`.first->second`). -/
def GenerateUniqueObjectId (uniqueObjectIds : UniqueObjectIds) (clientId clientDoodadId : Nat) :
    UniqueObjectIds × Nat :=
  match idFind uniqueObjectIds (clientId, clientDoodadId) with
  | some id => (uniqueObjectIds, id)
  | none =>
    (uniqueObjectIds ++ [((clientId, clientDoodadId), (uniqueObjectIds.length + 1) % 4294967296)],
      (uniqueObjectIds.length + 1) % 4294967296)

/-- The allocator after a sequence of calls, one per key of the list, in order. -/
def allocAfter : UniqueObjectIds → List ObjectKey → UniqueObjectIds
  | ids, [] => ids
  | ids, k :: ks => allocAfter (GenerateUniqueObjectId ids k.1 k.2).1 ks

/-- The id returned by the call that follows the calls `pre`, all starting from the empty
allocator. -/
def idReturned (pre : List ObjectKey) (k : ObjectKey) : Nat :=
  (GenerateUniqueObjectId (allocAfter [] pre) k.1 k.2).2

/-- Number of distinct keys in a sequence of calls. -/
def distinctKeys (ks : List ObjectKey) : Nat := ks.dedup.length

/-- The keys `(0, 0), (1, 0), .., (n - 1, 0)`. -/
def firstKeys (n : Nat) : List ObjectKey := (List.range n).map (fun i => (i, 0))

/-! ### MapRegistry: `map_ids`, `maps_that_are_parents` and their construction in `main` -/

/-- Source: `struct map_info`. The name is a C string held in `char name[64]`, one `Char` per
`char`. -/
structure map_info where
  name : String
  parent_id : Int
  deriving DecidableEq, Repr

/-- The global `std::map<uint32, map_info> map_ids`: entries in increasing key order. -/
abbrev MapIds := List (Nat × map_info)

/-- Source: `map_ids.find(k)`. -/
def mapFind : MapIds → Nat → Option map_info
  | [], _ => none
  | (k1, v) :: t, k => if k = k1 then some v else mapFind t k

/-- Assignment through `map_ids[k]`: the entry of `k` becomes `v`, inserted at its place in key
order when `k` is absent. -/
def mapSet (k : Nat) (v : map_info) : MapIds → MapIds
  | [] => [(k, v)]
  | (k1, v1) :: t =>
    if k < k1 then (k, v) :: (k1, v1) :: t
    else if k = k1 then (k, v) :: t
    else (k1, v1) :: mapSet k v t

/-- The keys of `map_ids` are strictly increasing (the invariant of `std::map`). -/
def sortedKeys (ids : MapIds) : Prop := (ids.map Prod.fst).Pairwise (fun a b => a < b)

instance (ids : MapIds) : Decidable (sortedKeys ids) := by
  unfold sortedKeys; infer_instance

/-- Insertion into the `std::unordered_set<uint32> maps_that_are_parents`. -/
def setInsert (a : Nat) (s : List Nat) : List Nat :=
  if a ∈ s then s else a :: s

/-- Conversion `int16(v)` of a `uint16` value. -/
def toInt16 (v : Nat) : Int :=
  if v % 65536 < 32768 then ((v % 65536 : Nat) : Int) else ((v % 65536 : Nat) : Int) - 65536

/-- The fields of a Map.db2 record that `main` reads. -/
structure MapRecord where
  Id : Nat
  Directory : String
  ParentMapID : Nat
  CosmeticParentMapID : Nat
  deriving DecidableEq, Repr

/-- Source: `DB2RecordCopy` as used by `main`. -/
structure DB2RecordCopy where
  NewRowId : Nat
  SourceRowId : Nat
  deriving DecidableEq, Repr

/-- The two registry globals. -/
structure Registry where
  map_ids : MapIds
  maps_that_are_parents : List Nat
  deriving DecidableEq, Repr

/-- Parent id of a primary row: `int16(ParentMapID)`, replaced by `int16(CosmeticParentMapID)`
when negative. -/
def recordParent (r : MapRecord) : Int :=
  if toInt16 r.ParentMapID < 0 then toInt16 r.CosmeticParentMapID else toInt16 r.ParentMapID

/-- Body of the first loop of the Map.db2 block of `main`, for one record; `none` is the
`exit(1)` taken when the map name does not fit `char name[64]`. -/
def loadRecord (g : Registry) (r : MapRecord) : Option Registry :=
  if 64 ≤ r.Directory.length then none
  else
    some ⟨mapSet r.Id ⟨r.Directory, recordParent r⟩ g.map_ids,
      if 0 ≤ recordParent r then setInsert (recordParent r).toNat g.maps_that_are_parents
      else g.maps_that_are_parents⟩

/-- The first loop of the Map.db2 block of `main`, over all records. -/
def loadRecords : Registry → List MapRecord → Option Registry
  | g, [] => some g
  | g, r :: rs =>
    match loadRecord g r with
    | some g1 => loadRecords g1 rs
    | none => none

/-- Body of the record-copy loop of `main`, for one copy row. -/
def applyCopy (ids : MapIds) (copy : DB2RecordCopy) : MapIds :=
  match mapFind ids copy.SourceRowId with
  | some src => mapSet copy.NewRowId ⟨src.name, src.parent_id⟩ ids
  | none => ids

/-- The record-copy loop of `main`, over all copy rows in table order. -/
def applyCopies (ids : MapIds) (copies : List DB2RecordCopy) : MapIds :=
  copies.foldl applyCopy ids

/-- The registry as `main` has it when it calls `ParsMapFiles`: primary rows, then copy rows. -/
def buildRegistry (rows : List MapRecord) (copies : List DB2RecordCopy) : Option Registry :=
  match loadRecords ⟨[], []⟩ rows with
  | some g => some ⟨applyCopies g.map_ids copies, g.maps_that_are_parents⟩
  | none => none

/-- The two primary rows of the end-to-end example; parent -1 is the `uint16` value 65535 in
both parent columns. -/
def exampleRows : List MapRecord :=
  [⟨0, "Azeroth", 65535, 65535⟩, ⟨1, "Kalimdor", 65535, 65535⟩]

/-- The copy row of the end-to-end example: source 0, new 2. -/
def exampleCopies : List DB2RecordCopy := [⟨2, 0⟩]

/-- No copy row writes to an id that an earlier copy row of the list read from. -/
def copiesOrdered (copies : List DB2RecordCopy) : Prop :=
  copies.Pairwise (fun c d => d.NewRowId ≠ c.SourceRowId)

instance (copies : List DB2RecordCopy) : Decidable (copiesOrdered copies) := by
  unfold copiesOrdered; infer_instance

/-- Two primary rows 0 "A" and 1 "B", both without parent. -/
def chainRows : List MapRecord := [⟨0, "A", 65535, 65535⟩, ⟨1, "B", 65535, 65535⟩]

/-- Two copy rows in table order: (source 1, new 2), then (source 0, new 1). The second writes
the id that the first reads. -/
def chainCopies : List DB2RecordCopy := [⟨2, 1⟩, ⟨1, 0⟩]

/-! ### StorageNegotiator: the locale probing loop of `main` -/

/-- What the locale loop of `main` reads from its surroundings. `TOTAL_LOCALES` and `LOCALE_none`
are declared in a header outside the sources, the entries of `WowLocaleToCascLocaleFlags` are
`CASC_LOCALE_*` constants of the storage library; `OpenCascStorage i` tells whether opening the
storage for locale `i` succeeds and `GetBuildNumber i` is the build number the storage opened for
locale `i` reports. -/
structure LocaleEnv where
  TOTAL_LOCALES : Nat
  LOCALE_none : Nat
  WowLocaleToCascLocaleFlags : List Nat
  installedLocalesMask : Nat
  OpenCascStorage : Nat → Bool
  GetBuildNumber : Nat → Nat

/-- The variables the loop writes: `FirstLocale` and the global handle `CascStorage` (`none` is
the empty handle, `some i` the storage opened for locale `i`). -/
structure ProbeState where
  FirstLocale : Int
  CascStorage : Option Nat
  deriving DecidableEq, Repr

/-- The loop `for (int i = 0; i < TOTAL_LOCALES; ++i)` of `main`; `n` is `TOTAL_LOCALES - i`.
A read outside the flag table is `none`. -/
def probeLoop (env : LocaleEnv) : Nat → Nat → ProbeState → Option ProbeState
  | 0, _, st => some st
  | n + 1, i, st =>
    if i = env.LOCALE_none then probeLoop env n (i + 1) st
    else
      match env.WowLocaleToCascLocaleFlags[i]? with
      | none => none
      | some flags =>
        if env.installedLocalesMask &&& flags = 0 then probeLoop env n (i + 1) st
        else if !env.OpenCascStorage i then probeLoop env n (i + 1) ⟨st.FirstLocale, none⟩
        else if env.GetBuildNumber i = 0 then probeLoop env n (i + 1) ⟨i, none⟩
        else some ⟨i, some i⟩

/-- How `main` continues after the locale loop. -/
inductive StartupResult where
  | exit (status : Nat)
  | extraction (FirstLocale : Int) (CascStorage : Option Nat)
  deriving DecidableEq, Repr

/-- The locale loop of `main` followed by `if (FirstLocale == -1) return 1;`. -/
def probeLocales (env : LocaleEnv) : Option StartupResult :=
  match probeLoop env env.TOTAL_LOCALES 0 ⟨-1, none⟩ with
  | none => none
  | some st =>
    if st.FirstLocale = -1 then some (StartupResult.exit 1)
    else some (StartupResult.extraction st.FirstLocale st.CascStorage)

/-- Locale `i` is a candidate: not the placeholder, and present in the installed-locales mask. -/
def candidateLocale (env : LocaleEnv) (i : Nat) : Bool :=
  i != env.LOCALE_none && (env.installedLocalesMask &&& env.WowLocaleToCascLocaleFlags.getD i 0) != 0

/-- No candidate locale yields a usable storage: each one either fails to open or opens and
reports build number 0. -/
def noUsableLocale (env : LocaleEnv) : Prop :=
  ∀ i, i < env.TOTAL_LOCALES → candidateLocale env i = true →
    env.OpenCascStorage i = false ∨ env.GetBuildNumber i = 0

instance (env : LocaleEnv) : Decidable (noUsableLocale env) := by
  unfold noUsableLocale; infer_instance

/-- The flag table of vmapexport.cpp with the values of the `CASC_LOCALE_*` constants:
enUS|enGB, koKR, frFR, deDE, zhCN, zhTW, esES, esMX, ruRU, 0, ptBR|ptPT, itIT. -/
def cascFlagTable : List Nat :=
  [0x202, 0x4, 0x10, 0x20, 0x40, 0x100, 0x80, 0x1000, 0x2000, 0, 0x14000, 0x8000]

/-- A client with the single locale enUS installed whose storage opens and reports build
number 0. -/
def buildZeroEnv : LocaleEnv :=
  ⟨12, 9, cascFlagTable, 0x2, fun _ => true, fun _ => 0⟩

/-! ### BuildingExtractor: `ExtractSingleWmo` -/

/-- Source: `isdigit` on a `char`. -/
def isdigit (c : Char) : Bool := c.isDigit

/-- Source: `strrchr(s, c)`: the part of `s` that starts at the last occurrence of `c`. -/
def strrchr : List Char → Char → Option (List Char)
  | [], _ => none
  | a :: t, c =>
    match strrchr t c with
    | some r => some r
    | none => if a = c then some (a :: t) else none

/-- The value of `p` after the block "Select root wmo files": `memcpy(cpy, rchr, 4)` copies the
four bytes that start at the last underscore, running over the terminating NUL into the bytes
`beyond` that follow it in memory when the name ends early; `p` counts the digits among them. -/
def fragmentDigits (plain_name : List Char) (beyond : List Char) : Nat :=
  match strrchr plain_name (Char.ofNat 95) with
  | none => 0
  | some rchr => ((rchr ++ Char.ofNat 0 :: beyond).take 4).countP isdigit

/-- The doodad data of a building, as far as `ExtractSingleWmo` uses it: the name index of each
spawn, and the reference set. -/
structure WMODoodadData where
  Spawns : List Nat
  References : List Nat
  deriving DecidableEq, Repr

/-- What opening and converting one group file gives: the value returned by
`ConvertToVMAPGroupWmo`, the bytes it appends to the output, and the group doodad references. -/
structure WMOGroup where
  nVertices : Int
  written : List Nat
  DoodadReferences : List Nat
  deriving DecidableEq, Repr

/-- What an opened root gives: the bytes `ConvertToVMAPRootWmo` writes, the doodad data, the
valid doodad names, and for each entry of `groupFileDataIDs` the group it opens (`none` when
`fgroup.open` fails). -/
structure WMORoot where
  header : List Nat
  DoodadData : WMODoodadData
  ValidDoodadNames : List Nat
  groups : List (Option WMOGroup)
  deriving DecidableEq, Repr

/-- The loop `for (uint16 groupReference : fgroup.DoodadReferences)`. -/
def addReferences (ValidDoodadNames : List Nat) : List Nat → WMODoodadData → WMODoodadData
  | [], doodads => doodads
  | groupReference :: rest, doodads =>
    if doodads.Spawns.length ≤ groupReference then addReferences ValidDoodadNames rest doodads
    else
      match doodads.Spawns[groupReference]? with
      | none => addReferences ValidDoodadNames rest doodads
      | some doodadNameIndex =>
        if doodadNameIndex ∈ ValidDoodadNames then
          addReferences ValidDoodadNames rest
            ⟨doodads.Spawns, setInsert groupReference doodads.References⟩
        else addReferences ValidDoodadNames rest doodads

/-- The variables of the group loop: the output written so far, `Wmo_nVertices`, the doodad data
stored under the plain name, and `file_ok`. -/
structure GroupLoopState where
  output : List Nat
  Wmo_nVertices : Int
  doodads : WMODoodadData
  file_ok : Bool
  deriving DecidableEq, Repr

/-- The loop over `froot.groupFileDataIDs`; a group that does not open clears `file_ok` and
leaves the loop. -/
def groupLoop (ValidDoodadNames : List Nat) : List (Option WMOGroup) → GroupLoopState →
    GroupLoopState
  | [], s => s
  | none :: _, s => ⟨s.output, s.Wmo_nVertices, s.doodads, false⟩
  | some fgroup :: rest, s =>
    groupLoop ValidDoodadNames rest
      ⟨s.output ++ fgroup.written, s.Wmo_nVertices + fgroup.nVertices,
        addReferences ValidDoodadNames fgroup.DoodadReferences s.doodads, s.file_ok⟩

/-- The four bytes `fwrite(&Wmo_nVertices, sizeof(int), 1, output)` writes (little endian). -/
def intBytes (n : Int) : List Nat :=
  [(n % 4294967296).toNat % 256, (n % 4294967296).toNat / 256 % 256,
    (n % 4294967296).toNat / 65536 % 256, (n % 4294967296).toNat / 16777216 % 256]

/-- Writing `bytes` at position `pos` of a file (`fseek` then `fwrite`). -/
def writeAt (content : List Nat) (pos : Nat) (bytes : List Nat) : List Nat :=
  (content ++ List.replicate (pos - content.length) 0).take pos ++ bytes ++
    content.drop (pos + bytes.length)

/-- The output directory `./Buildings` (file name and content) and the global `WmoDoodads`. -/
structure ExtractState where
  files : List (String × List Nat)
  WmoDoodads : List (String × WMODoodadData)
  deriving DecidableEq, Repr

/-- Source: `FileExists` applied to a file of the output directory. -/
def FileExists (files : List (String × List Nat)) (name : String) : Bool :=
  files.any (fun f => f.1 == name)

/-- Replace or add the entry of `name` in a name-keyed table. -/
def tableSet {α : Type} (name : String) (v : α) : List (String × α) → List (String × α)
  | [] => [(name, v)]
  | (n1, v1) :: t => if n1 = name then (name, v) :: t else (n1, v1) :: tableSet name v t

/-- Entry of `name` in a name-keyed table. -/
def tableFind {α : Type} : List (String × α) → String → Option α
  | [], _ => none
  | (n1, v1) :: t, name => if n1 = name then some v1 else tableFind t name

/-- What `ExtractSingleWmo` reads from its surroundings: `plainName` is `GetPlainName` followed
by `FixNameCase` and `FixNameSpaces` (defined outside the sources), `beyond` the bytes that
follow the name in memory, `openRoot` the outcome of `froot.open()` for the original name, and
`canWrite` whether `fopen(szLocalFile, "wb")` succeeds. -/
structure ExtractEnv where
  plainName : String → String
  beyond : List Char
  openRoot : String → Option WMORoot
  canWrite : String → Bool

/-- The `return` statement at which a call of `ExtractSingleWmo` ends. -/
inductive WmoReturn where
  | fileExists
  | threeDigits
  | rootNotOpened
  | outputNotOpened
  | done
  deriving DecidableEq, Repr

/-- Result of a call: the returned `bool`, the `return` taken, and the globals afterwards. -/
structure ExtractResult where
  value : Bool
  exitPoint : WmoReturn
  state : ExtractState
  deriving DecidableEq, Repr

/-- Source: `ExtractSingleWmo`. -/
def ExtractSingleWmo (env : ExtractEnv) (st : ExtractState) (fname : String) : ExtractResult :=
  if FileExists st.files (env.plainName fname) then ⟨true, WmoReturn.fileExists, st⟩
  else if fragmentDigits (env.plainName fname).data env.beyond = 3 then
    ⟨true, WmoReturn.threeDigits, st⟩
  else
    match env.openRoot fname with
    | none => ⟨true, WmoReturn.rootNotOpened, st⟩
    | some froot =>
      if !env.canWrite (env.plainName fname) then ⟨false, WmoReturn.outputNotOpened, st⟩
      else
        let s := groupLoop froot.ValidDoodadNames froot.groups
          ⟨froot.header, 0, froot.DoodadData, true⟩
        let written := writeAt s.output 8 (intBytes s.Wmo_nVertices)
        ⟨true, WmoReturn.done,
          ⟨if s.file_ok then tableSet (env.plainName fname) written st.files
            else st.files.filter (fun f => f.1 != env.plainName fname),
            tableSet (env.plainName fname) s.doodads st.WmoDoodads⟩⟩

/-- The last underscore-delimited segment of a name: the characters after the last underscore. -/
def lastSegment (name : List Char) : List Char :=
  (name.reverse.takeWhile (fun c => c != Char.ofNat 95)).reverse

/-- The skip rule as the specification words it: the name contains an underscore and the 4
characters of its last underscore-delimited segment contain exactly 3 digits. -/
def specSkipRule (name : List Char) : Prop :=
  Char.ofNat 95 ∈ name ∧ ((lastSegment name).take 4).countP isdigit = 3

instance (name : List Char) : Decidable (specSkipRule name) := by
  unfold specSkipRule; infer_instance

/-- The skip rule of the code: the name contains an underscore and the first three characters
after its last underscore exist and are all digits. -/
def threeDigitsFollow (name : List Char) : Prop :=
  Char.ofNat 95 ∈ name ∧ 3 ≤ (lastSegment name).length ∧
    ((lastSegment name).take 3).all isdigit = true

instance (name : List Char) : Decidable (threeDigitsFollow name) := by
  unfold threeDigitsFollow; infer_instance

/-- Surroundings in which names are already plain, no root opens and nothing can be written. -/
def bareEnv : ExtractEnv := ⟨fun s => s, [], fun _ => none, fun _ => false⟩

/-- The doodad references of all groups, in root order. -/
def allGroupReferences (groups : List (Option WMOGroup)) : List Nat :=
  groups.flatMap (fun g => match g with | some fgroup => fgroup.DoodadReferences | none => [])

/-- The condition under which the reference loop adds `r`: it is within the spawn list and the
name index of spawn `r` is a valid doodad name. -/
def acceptedReference (froot : WMORoot) (r : Nat) : Prop :=
  r < froot.DoodadData.Spawns.length ∧
    ∃ nameIndex, froot.DoodadData.Spawns[r]? = some nameIndex ∧ nameIndex ∈ froot.ValidDoodadNames

/-- A root with three spawns (name indices 10, 20, 30), valid doodad names 10 and 30, and two
groups that open, referring to spawns 0, 1, 5 and 2, 0. -/
def sampleRoot : WMORoot :=
  ⟨[86, 77, 65, 80, 0, 0, 0, 0, 0, 0, 0, 0], ⟨[10, 20, 30], []⟩, [10, 30],
    [some ⟨4, [1, 2], [0, 1, 5]⟩, some ⟨3, [3], [2, 0]⟩]⟩

/-- Surroundings in which names are already plain, every original name opens `sampleRoot` and
the output can be written. -/
def sampleEnv : ExtractEnv := ⟨fun s => s, [], fun _ => some sampleRoot, fun _ => true⟩

/-! ### TileExtractor: `ParsMapFiles` -/

/-- What `ParsMapFiles` reads from the archive. `wdtInit mapId` is the result of
`WDTFile::init(mapId)` on the world-definition file named after `map_ids[mapId].name`,
`hasADT mapId x y` tells whether `GetMap(x, y)` on the handle of `mapId` returns a tile, and
`adtInit mapId x y map_num originalMapId` is the result of `ADTFile::init(map_num,
originalMapId)` on that tile. -/
structure TileEnv where
  wdtInit : Nat → Bool
  hasADT : Nat → Nat → Nat → Bool
  adtInit : Nat → Nat → Nat → Nat → Nat → Bool

/-- A call made in the tile loops while the map `cur` is being processed, on the handle of the
map itself (`viaParent = false`) or on the handle of its parent (`viaParent = true`):
`GetMap(x, y)` with whether a tile was returned, or `ADT->init(map_num, originalMapId)` with its
result. -/
inductive TileEvent where
  | GetMap (cur : Nat) (viaParent : Bool) (x y : Nat) (found : Bool)
  | init (cur : Nat) (viaParent : Bool) (x y : Nat) (map_num originalMapId : Nat)
      (success : Bool)
  deriving DecidableEq, Repr

/-- The map that was being processed when the call was made. -/
def TileEvent.cur : TileEvent → Nat
  | TileEvent.GetMap cur _ _ _ _ => cur
  | TileEvent.init cur _ _ _ _ _ _ => cur

/-- State of `ParsMapFiles`: the global `map_ids`, the keys of the local cache `wdts`, the calls
of `WDTFile::init` made so far with their results, and the tile calls made so far. -/
structure ParsState where
  map_ids : MapIds
  wdts : List Nat
  inits : List (Nat × Bool)
  tiles : List TileEvent
  deriving DecidableEq, Repr

/-- Source: the lambda `getWDT` of `ParsMapFiles`. The result tells whether a handle is
returned. For an id that is not cached, `map_ids[mapId]` adds a value-initialised entry (empty
name, parent 0) when the id is absent, `init` is called, and on failure the cache entry is
erased again. -/
def getWDT (env : TileEnv) (st : ParsState) (mapId : Nat) : ParsState × Bool :=
  if mapId ∈ st.wdts then (st, true)
  else if env.wdtInit mapId then
    (⟨(match mapFind st.map_ids mapId with
        | some _ => st.map_ids
        | none => mapSet mapId ⟨"", 0⟩ st.map_ids),
      mapId :: st.wdts, st.inits ++ [(mapId, true)], st.tiles⟩, true)
  else
    (⟨(match mapFind st.map_ids mapId with
        | some _ => st.map_ids
        | none => mapSet mapId ⟨"", 0⟩ st.map_ids),
      st.wdts, st.inits ++ [(mapId, false)], st.tiles⟩, false)

/-- Body of the loop over `y` in `ParsMapFiles`, for the map `cur` with a handle; `parentWDT`
tells whether `parentWDT` is non-null, `parent` is the parent id. -/
def tileStep (env : TileEnv) (cur parent : Nat) (parentWDT : Bool) (x y : Nat) :
    List TileEvent :=
  [TileEvent.GetMap cur false x y (env.hasADT cur x y)] ++
  (if env.hasADT cur x y then
    [TileEvent.init cur false x y cur cur (env.adtInit cur x y cur cur)] else []) ++
  (if !(env.hasADT cur x y && env.adtInit cur x y cur cur) && parentWDT then
    [TileEvent.GetMap cur true x y (env.hasADT parent x y)] ++
    (if env.hasADT parent x y then
      [TileEvent.init cur true x y cur parent (env.adtInit parent x y cur parent)] else [])
  else [])

/-- The two loops `for x < 64`, `for y < 64`. -/
def tileGrid (env : TileEnv) (cur parent : Nat) (parentWDT : Bool) : List TileEvent :=
  (List.range 64).flatMap (fun x =>
    (List.range 64).flatMap (fun y => tileStep env cur parent parentWDT x y))

/-- Body of the loop over `map_ids` in `ParsMapFiles`, for the entry `(k, info)`. -/
def processMap (env : TileEnv) (st : ParsState) (k : Nat) (info : map_info) : ParsState :=
  if (getWDT env st k).2 then
    if 0 ≤ info.parent_id then
      ⟨(getWDT env (getWDT env st k).1 info.parent_id.toNat).1.map_ids,
        (getWDT env (getWDT env st k).1 info.parent_id.toNat).1.wdts,
        (getWDT env (getWDT env st k).1 info.parent_id.toNat).1.inits,
        (getWDT env (getWDT env st k).1 info.parent_id.toNat).1.tiles ++
          tileGrid env k info.parent_id.toNat
            (getWDT env (getWDT env st k).1 info.parent_id.toNat).2⟩
    else
      ⟨(getWDT env st k).1.map_ids, (getWDT env st k).1.wdts, (getWDT env st k).1.inits,
        (getWDT env st k).1.tiles ++ tileGrid env k 0 false⟩
  else (getWDT env st k).1

/-- The loop `for (auto itr = map_ids.begin(); itr != map_ids.end(); ++itr)`. The iterator is
represented by the least key `lo` it may still visit: the entry it points to is the first one
with key at least `lo`, and `++itr` after the entry of key `k` gives `k + 1`. Entries that
`getWDT` adds to `map_ids` behind the iterator are never visited, entries it adds ahead are.
`fuel` bounds the number of iterations. -/
def parsLoop (env : TileEnv) : Nat → Nat → ParsState → ParsState
  | 0, _, st => st
  | fuel + 1, lo, st =>
    match st.map_ids.find? (fun e => decide (lo ≤ e.1)) with
    | none => st
    | some (k, info) => parsLoop env fuel (k + 1) (processMap env st k info)

/-- Source: `ParsMapFiles`, started on the registry `ids`. Every iteration either visits an
entry of `ids` or an entry added for the parent of one, so `2 * ids.length + 1` iterations are
enough (`parsLoop_fuel`). -/
def ParsMapFiles (env : TileEnv) (ids : MapIds) : ParsState :=
  parsLoop env (2 * ids.length + 1) 0 ⟨ids, [], [], []⟩

/-- The sequence of `getWDT` calls for the ids of a list, in order. -/
def getWDTs (env : TileEnv) (st : ParsState) (mapIds : List Nat) : ParsState :=
  mapIds.foldl (fun s mapId => (getWDT env s mapId).1) st

/-- Iteration weight of an entry: an entry with a positive parent id can make `getWDT` add
one entry ahead of the iterator. -/
def entryWeight (e : Nat × map_info) : Nat := if 0 < e.2.parent_id then 2 else 1

/-- Total weight of the entries the iterator at `lo` may still visit. -/
def weightFrom (lo : Nat) (ids : MapIds) : Nat :=
  ((ids.filter (fun e => decide (lo ≤ e.1))).map entryWeight).sum

/-- Every cached handle belongs to a map whose world definition loads. -/
def cacheSound (env : TileEnv) (st : ParsState) : Prop :=
  ∀ w ∈ st.wdts, env.wdtInit w = true

/-- The tile calls made while the map `k` was being processed. -/
def eventsOf (k : Nat) (tr : List TileEvent) : List TileEvent :=
  tr.filter (fun e => e.cur == k)

/-- The tile calls of the iteration for the entry `(k, info)`. -/
def mapTiles (env : TileEnv) (k : Nat) (info : map_info) : List TileEvent :=
  if env.wdtInit k then
    if 0 ≤ info.parent_id then
      tileGrid env k info.parent_id.toNat (env.wdtInit info.parent_id.toNat)
    else tileGrid env k 0 false
  else []

/-- Three maps: 0 without parent, 1 and 2 with parent 0. -/
def threeMaps : MapIds := [(0, ⟨"m0", -1⟩), (1, ⟨"m1", 0⟩), (2, ⟨"m2", 0⟩)]

/-- An archive in which the world definition of map 0 does not load, those of the other maps
load, and no map has any tile. -/
def parentMissingEnv : TileEnv := ⟨fun mapId => mapId != 0, fun _ _ _ => false, fun _ _ _ _ _ => false⟩

/-- Two maps: 0 without parent, 1 with parent 0. -/
def childMaps : MapIds := [(0, ⟨"parent", -1⟩), (1, ⟨"child", 0⟩)]

/-- An archive in which both world definitions load, map 0 has the single tile (5,5), map 1 has
no tile, and every conversion succeeds. -/
def fallbackEnv : TileEnv :=
  ⟨fun _ => true, fun mapId x y => mapId == 0 && x == 5 && y == 5, fun _ _ _ _ _ => true⟩

/-- The successful `init` calls recorded so far are those of the cached handles, each one
once. -/
def initsMatch (wdts : List Nat) (inits : List (Nat × Bool)) : Prop :=
  (inits.filter (fun e => e.2)).map Prod.fst = wdts.reverse ∧ wdts.Nodup

/-! ### MapRegistry: parent ids -/

/-- The 16 bits of a `uint16` value read as a signed integer. -/
def signed16 (v : Nat) : Int := if v < 32768 then (v : Int) else (v : Int) - 65536

/-- Parent id of a primary row as the specification states it: the primary parent field read as
signed 16-bit when that is non-negative, otherwise the cosmetic parent field read likewise. -/
def specParent (r : MapRecord) : Int :=
  if 0 ≤ signed16 r.ParentMapID then signed16 r.ParentMapID
  else signed16 r.CosmeticParentMapID

/-- The two parent columns of the record hold `uint16` values. -/
def uint16Fields (r : MapRecord) : Prop := r.ParentMapID < 65536 ∧ r.CosmeticParentMapID < 65536

instance (r : MapRecord) : Decidable (uint16Fields r) := by
  unfold uint16Fields; infer_instance

/-- No registry entry is ever overwritten: the primary row ids are pairwise distinct and no copy
row has the id of a primary row as its new row id. -/
def noOverwrite (rows : List MapRecord) (copies : List DB2RecordCopy) : Prop :=
  (rows.map (fun r => r.Id)).Nodup ∧ ∀ c ∈ copies, ∀ r ∈ rows, c.NewRowId ≠ r.Id

instance (rows : List MapRecord) (copies : List DB2RecordCopy) :
    Decidable (noOverwrite rows copies) := by
  unfold noOverwrite; infer_instance

/-- Two primary rows: 0 "A" with parent 5, and 1 "B" without parent. -/
def overwrittenRows : List MapRecord := [⟨0, "A", 5, 65535⟩, ⟨1, "B", 65535, 65535⟩]

/-- One copy row whose new row id is the id of the primary row 0: (source 1, new 0). -/
def overwritingCopies : List DB2RecordCopy := [⟨0, 1⟩]

/-- Three primary rows: parent 3; primary parent absent with cosmetic parent 4; parent 0 with
cosmetic parent 9. -/
def parentRows : List MapRecord :=
  [⟨10, "a", 3, 65535⟩, ⟨11, "b", 65535, 4⟩, ⟨12, "c", 0, 9⟩]

/-- Every non-negative parent id of an entry of `ids` is in the set `parents`. -/
def parentsCover (ids : MapIds) (parents : List Nat) : Prop :=
  ∀ k info, mapFind ids k = some info → 0 ≤ info.parent_id → info.parent_id.toNat ∈ parents

/-- The id `p` is the non-negative parent id of some entry of `ids`. -/
def isParentOfEntry (ids : MapIds) (p : Nat) : Prop :=
  ∃ k info, mapFind ids k = some info ∧ 0 ≤ info.parent_id ∧ info.parent_id.toNat = p

/-- One primary row: map 1 "m1" with parent 7. No row has id 7. -/
def orphanRows : List MapRecord := [⟨1, "m1", 7, 65535⟩]

/-- The registry `main` builds from `orphanRows`. -/
def orphanMaps : MapIds := [(1, ⟨"m1", 7⟩)]

/-- An archive in which only the world definition of map 1 loads, and no map has any tile. -/
def onlyMapOneEnv : TileEnv :=
  ⟨fun mapId => mapId == 1, fun _ _ _ => false, fun _ _ _ _ _ => false⟩

/-- An archive in which only the world definition of map 0 loads; every tile exists and every
conversion succeeds. -/
def childFailsEnv : TileEnv :=
  ⟨fun mapId => mapId == 0, fun _ _ _ => true, fun _ _ _ _ _ => true⟩

/-! ### BuildingExtractor: the output file -/

/-- Number of files of the output directory that have the given name. -/
def fileCount (files : List (String × List Nat)) (name : String) : Nat :=
  (files.filter (fun f => f.1 == name)).length

/-- The bytes appended by the group conversions, over all groups in root order. -/
def allGroupWritten (groups : List (Option WMOGroup)) : List Nat :=
  groups.flatMap (fun g => match g with | some fgroup => fgroup.written | none => [])

/-- Sum of the vertex counts returned by the group conversions, over all groups. -/
def totalVertices (groups : List (Option WMOGroup)) : Int :=
  (groups.map (fun g => match g with | some fgroup => fgroup.nVertices | none => 0)).sum

/-- The signed 32-bit integer held by four little-endian bytes. -/
def decodeInt32 (bytes : List Nat) : Int :=
  if bytes.getD 0 0 + 256 * bytes.getD 1 0 + 65536 * bytes.getD 2 0 + 16777216 * bytes.getD 3 0
      < 2147483648 then
    ((bytes.getD 0 0 + 256 * bytes.getD 1 0 + 65536 * bytes.getD 2 0 +
      16777216 * bytes.getD 3 0 : Nat) : Int)
  else
    ((bytes.getD 0 0 + 256 * bytes.getD 1 0 + 65536 * bytes.getD 2 0 +
      16777216 * bytes.getD 3 0 : Nat) : Int) - 4294967296

/-- The start state of the group loop for an opened root. -/
def groupLoopStart (froot : WMORoot) : GroupLoopState :=
  ⟨froot.header, 0, froot.DoodadData, true⟩

/-- A root like `sampleRoot` whose second of three groups does not open. -/
def brokenRoot : WMORoot :=
  ⟨[86, 77, 65, 80, 0, 0, 0, 0, 0, 0, 0, 0], ⟨[10, 20, 30], []⟩, [10, 30],
    [some ⟨4, [1, 2], [0, 1, 5]⟩, none, some ⟨3, [3], [2, 0]⟩]⟩

/-- Surroundings in which names are already plain, every original name opens `brokenRoot` and
the output can be written. -/
def brokenEnv : ExtractEnv := ⟨fun s => s, [], fun _ => some brokenRoot, fun _ => true⟩

/-! ### `main` -/

/-- What `main` gets from outside: the results of `processArgv` and `RetardCheck`, whether one of
the marker paths `dir` / `dir_bin` exists (`!stat(..) || !stat(..)`), the value `scanf` returns,
the return value of `mkdir(szWorkDirWmo)` and the `errno` it leaves (with the constant
`EEXIST`), the locale environment, and the outcome of loading Map.db2 (`none`: `db2.Load`
throws; otherwise the primary rows and the copy rows). -/
structure MainEnv where
  processArgv : Bool
  RetardCheck : Bool
  dirtyWorkDir : Bool
  scanfResult : Int
  mkdirResult : Int
  errno : Int
  EEXIST : Int
  locales : LocaleEnv
  mapDb2 : Option (List MapRecord × List DB2RecordCopy)

/-- The steps of `main` after the locale loop that are recorded, in the order they are taken:
the call `ExtractGameobjectModels()`, the load of Map.db2 with the two registry loops, the call
`ParsMapFiles()`, the message "ERROR: Extract ... Work NOT complete." with `getchar()`, and the
message "Work complete. No errors.". -/
inductive MainStep where
  | ExtractGameobjectModels
  | ReadMapDb2
  | ParsMapFiles
  | reportNotComplete
  | reportComplete
  deriving DecidableEq, Repr

/-- The recorded steps and the exit status of the process (`return` value of `main`, or the
argument of `exit`). -/
structure MainResult where
  steps : List MainStep
  status : Int
  deriving DecidableEq, Repr

/-- The value of `success` after `if (mkdir(szWorkDirWmo, 0711)) success = (errno == EEXIST);`,
starting from `bool success = true`. -/
def mkdirSuccess (env : MainEnv) : Bool :=
  if env.mkdirResult ≠ 0 then decide (env.errno = env.EEXIST) else true

/-- Source: `main`. `none` is a read outside the locale flag table. -/
def main (env : MainEnv) : Option MainResult :=
  if !env.processArgv then some ⟨[], 1⟩
  else if !env.RetardCheck then some ⟨[], 1⟩
  else if env.dirtyWorkDir then some ⟨[], env.scanfResult⟩
  else
    match probeLocales env.locales with
    | none => none
    | some (StartupResult.exit status) => some ⟨[], status⟩
    | some (StartupResult.extraction _ _) =>
      if mkdirSuccess env then
        match env.mapDb2 with
        | none => some ⟨[MainStep.ExtractGameobjectModels, MainStep.ReadMapDb2], 1⟩
        | some (rows, copies) =>
          match buildRegistry rows copies with
          | none => some ⟨[MainStep.ExtractGameobjectModels, MainStep.ReadMapDb2], 1⟩
          | some _ =>
            some ⟨[MainStep.ExtractGameobjectModels, MainStep.ReadMapDb2,
              MainStep.ParsMapFiles, MainStep.reportComplete], 0⟩
      else
        some ⟨[MainStep.ExtractGameobjectModels, MainStep.reportNotComplete,
          MainStep.reportComplete], 0⟩

/-- A client with the single locale enUS installed whose storage opens and reports build
26972. -/
def usableLocaleEnv : LocaleEnv :=
  ⟨12, 9, cascFlagTable, 0x2, fun _ => true, fun _ => 26972⟩

/-- A run in which `mkdir` of the building-output directory fails with `EACCES` (13, while
`EEXIST` is 17): the arguments are accepted, the work directory is not polluted, a locale is
usable and Map.db2 would load the rows of the end-to-end example. -/
def mkdirFailsEnv : MainEnv :=
  ⟨true, true, false, 1, -1, 13, 17, usableLocaleEnv, some (exampleRows, exampleCopies)⟩

end VMapExport

/-! ## DB2Meta: record size and index offset -/

namespace DB2

open DBCFormer

theorem typeWidth_supported (P : Platform) (t : DBCFormer) (h : isSupported t = true) :
    typeWidth P t = some (specWidth P t) := by
  cases t <;> simp_all [typeWidth, specWidth, isSupported]

theorem arrayLoop_eq (P : Platform) (t : DBCFormer) (w : Nat) (hw : typeWidth P t = some w) :
    ∀ n size, size < UINT32_MOD →
      arrayLoop P t n size = some ((size + n * w) % UINT32_MOD)
  | 0, size, h => by simp [arrayLoop, Nat.mod_eq_of_lt h]
  | n + 1, size, _ => by
    have hlt : (size + w) % UINT32_MOD < UINT32_MOD := Nat.mod_lt _ (by decide)
    simp only [arrayLoop, hw]
    rw [arrayLoop_eq P t w hw n _ hlt, Nat.succ_mul]
    congr 1
    generalize n * w = k
    unfold UINT32_MOD
    omega

theorem bytesRange_succ (P : Platform) (m : DB2Meta) (i n : Nat) :
    bytesRange P m i (n + 1) = fieldBytes P m i + bytesRange P m (i + 1) n := by
  simp [bytesRange, List.range'_succ]

theorem bytesBefore_eq_bytesRange (P : Platform) (m : DB2Meta) (k : Nat) :
    bytesBefore P m k = bytesRange P m 0 k := by
  simp [bytesBefore, bytesRange, List.range_eq_range']

theorem bytesBefore_succ (P : Platform) (m : DB2Meta) (k : Nat) :
    bytesBefore P m (k + 1) = bytesBefore P m k + fieldBytes P m k := by
  simp [bytesBefore, List.range_succ]

theorem bytesBefore_mono (P : Platform) (m : DB2Meta) {j k : Nat} (h : j ≤ k) :
    bytesBefore P m j ≤ bytesBefore P m k := by
  induction k with
  | zero => simp_all
  | succ k ih =>
    rcases Nat.lt_or_ge j (k + 1) with hlt | hge
    · have := ih (Nat.lt_succ_iff.mp hlt)
      rw [bytesBefore_succ]; omega
    · have : j = k + 1 := by omega
      subst this; exact le_refl _

theorem fieldLoop_eq (P : Platform) (m : DB2Meta) :
    ∀ n i size, size < UINT32_MOD → readable m i n →
      fieldLoop P m n i size = some ((size + bytesRange P m i n) % UINT32_MOD)
  | 0, i, size, h, _ => by simp [fieldLoop, bytesRange, Nat.mod_eq_of_lt h]
  | n + 1, i, size, _, hr => by
    obtain ⟨t, a, ht, ha, hs⟩ := hr i (le_refl _) (by omega)
    have hw := typeWidth_supported P t hs
    have hlt : (size + a * specWidth P t) % UINT32_MOD < UINT32_MOD := Nat.mod_lt _ (by decide)
    have hr1 : readable m (i + 1) n := fun j h1 h2 => hr j (by omega) (by omega)
    have hfb : fieldBytes P m i = a * specWidth P t := by
      simp [fieldBytes, List.getD, ht, ha]
    simp only [fieldLoop, ht, ha, arrayLoop_eq P t _ hw a size ‹_›]
    rw [fieldLoop_eq P m n (i + 1) _ hlt hr1, bytesRange_succ, hfb]
    congr 1
    generalize a * specWidth P t = x
    generalize bytesRange P m (i + 1) n = y
    unfold UINT32_MOD
    omega

theorem readable_of_wellFormed (m : DB2Meta) (hwf : wellFormed m) (hs : supportedTypes m)
    (k : Nat) (hk : k ≤ m.FieldCount) : readable m 0 k := by
  intro j _ hj
  obtain ⟨h1, h2, _⟩ := hwf
  have hj1 : j < m.Types.length := by omega
  have hj2 : j < m.ArraySizes.length := by omega
  refine ⟨m.Types[j], m.ArraySizes[j], List.getElem?_eq_getElem hj1, List.getElem?_eq_getElem hj2, ?_⟩
  exact hs _ (List.getElem_mem hj1)

theorem fieldLoop_wellFormed (P : Platform) (m : DB2Meta) (hwf : wellFormed m)
    (hs : supportedTypes m) (k : Nat) (hk : k ≤ m.FieldCount) (size : Nat)
    (hsize : size < UINT32_MOD) :
    fieldLoop P m k 0 size = some ((size + bytesBefore P m k) % UINT32_MOD) := by
  rw [fieldLoop_eq P m k 0 size hsize (readable_of_wellFormed m hwf hs k hk),
    bytesBefore_eq_bytesRange]

theorem GetRecordSize_mod (P : Platform) (m : DB2Meta) (hwf : wellFormed m)
    (hs : supportedTypes m) :
    GetRecordSize P m = some (specRecordSize P m % UINT32_MOD) := by
  have h := fieldLoop_wellFormed P m hwf hs m.FieldCount (le_refl _) 0 (by decide)
  unfold GetRecordSize specRecordSize HasIndexFieldInData
  rw [h]
  by_cases hi : m.IndexField = -1
  · simp only [hi, bne_self_eq_false, Bool.not_false, if_true, Nat.zero_add]
    congr 1
    unfold UINT32_MOD
    omega
  · have hb : (m.IndexField != -1) = true := by simpa using hi
    simp [hb, hi]

theorem GetIndexFieldOffset_mod (P : Platform) (m : DB2Meta) (hwf : wellFormed m)
    (hs : supportedTypes m) (k : Nat) (hk : k ≤ m.FieldCount) :
    GetIndexFieldOffset P (withIndexField m k) = some (bytesBefore P m k % UINT32_MOD) := by
  have hwf1 : wellFormed (withIndexField m k) := hwf
  have hs1 : supportedTypes (withIndexField m k) := hs
  have h := fieldLoop_wellFormed P (withIndexField m k) hwf1 hs1 k hk 0 (by decide)
  have hne : ((k : Int) = -1) = False := by
    apply eq_false; omega
  simp only [GetIndexFieldOffset, withIndexField, hne, if_false, Int.toNat_ofNat] at h ⊢
  rw [h, Nat.zero_add]
  rfl

theorem uniformMeta_wellFormed (n : Nat) : wellFormed (uniformMeta n) := by
  refine ⟨by simp [uniformMeta], by simp [uniformMeta], ?_⟩
  intro a ha
  have := List.eq_of_mem_replicate ha
  omega

theorem uniformMeta_supported (n : Nat) : supportedTypes (uniformMeta n) := by
  intro t ht
  rw [List.eq_of_mem_replicate ht]
  rfl

theorem uniformMeta_bytesBefore (P : Platform) (n : Nat) :
    ∀ k, k ≤ n → bytesBefore P (uniformMeta n) k = k * 2040
  | 0, _ => by simp [bytesBefore]
  | k + 1, h => by
    have hk : k < n := h
    rw [bytesBefore_succ, uniformMeta_bytesBefore P n k (by omega)]
    have : fieldBytes P (uniformMeta n) k = 2040 := by
      simp [fieldBytes, uniformMeta, List.getD, List.getElem?_replicate, hk, specWidth]
    omega

theorem uniformMeta_specRecordSize (P : Platform) (n : Nat) :
    specRecordSize P (uniformMeta n) = n * 2040 := by
  have h := uniformMeta_bytesBefore P n n (le_refl _)
  have h2 : ((uniformMeta n).IndexField = -1) = False := by
    apply eq_false
    show ¬ ((0 : Int) = -1)
    decide
  have h1 : (uniformMeta n).FieldCount = n := rfl
  simp only [specRecordSize]
  rw [h1, h]
  simp only [h2, if_false, Nat.add_zero]

theorem uniformMeta_GetRecordSize (P : Platform) (n : Nat) :
    GetRecordSize P (uniformMeta n) = some (n * 2040 % 4294967296) := by
  rw [GetRecordSize_mod P _ (uniformMeta_wellFormed n) (uniformMeta_supported n),
    uniformMeta_specRecordSize]
  rfl

theorem uniformMeta_GetIndexFieldOffset (P : Platform) (n k : Nat) (hk : k ≤ n) :
    GetIndexFieldOffset P (withIndexField (uniformMeta n) k) = some (k * 2040 % 4294967296) := by
  rw [GetIndexFieldOffset_mod P _ (uniformMeta_wellFormed n) (uniformMeta_supported n) k hk,
    uniformMeta_bytesBefore P n k hk]
  rfl

/-- C1 (as stated, refuted): on the schema `wideMeta` (2105377 columns of 255 eight-byte values,
all of a supported type) `GetRecordSize` returns 1784, whereas the sum over all columns of array
length times type width is 4294969080: the `uint32` accumulator has wrapped. -/
theorem GetRecordSize_wraps_on_wideMeta :
    wellFormed wideMeta ∧ supportedTypes wideMeta ∧
    specRecordSize lp64 wideMeta = 4294969080 ∧
    GetRecordSize lp64 wideMeta = some 1784 ∧
    GetRecordSize lp64 wideMeta ≠ some (specRecordSize lp64 wideMeta) := by
  have hsum : specRecordSize lp64 wideMeta = 4294969080 :=
    (uniformMeta_specRecordSize lp64 2105377).trans (by norm_num)
  have hval : GetRecordSize lp64 wideMeta = some 1784 :=
    (uniformMeta_GetRecordSize lp64 2105377).trans (by norm_num)
  refine ⟨uniformMeta_wellFormed 2105377, uniformMeta_supported 2105377, hsum, hval, ?_⟩
  rw [hval, hsum]
  exact fun h => absurd (Option.some.inj h) (by norm_num)

/-- C1 (amended): for every schema whose columns all have a supported type, `GetRecordSize`
returns the sum over all `FieldCount` columns of array length times type width, plus 4 exactly
when `IndexField == -1`, reduced modulo `2^32`; whenever that total is below `2^32` the value
returned is the total itself. -/
theorem GetRecordSize_eq_specRecordSize (P : Platform) (m : DB2Meta) (hwf : wellFormed m)
    (hs : supportedTypes m) :
    GetRecordSize P m = some (specRecordSize P m % 4294967296) ∧
    (specRecordSize P m < 4294967296 → GetRecordSize P m = some (specRecordSize P m)) := by
  have h := GetRecordSize_mod P m hwf hs
  refine ⟨h, fun hlt => ?_⟩
  rw [h]
  exact congrArg some (Nat.mod_eq_of_lt hlt)

/-- C1 (example): columns int x1, short x2, byte x1 with the index embedded give a record size
of 9. -/
theorem GetRecordSize_eq_specRecordSize_witness :
    wellFormed exampleMeta ∧ supportedTypes exampleMeta ∧
    specRecordSize lp64 exampleMeta = 9 ∧
    GetRecordSize lp64 exampleMeta = some 9 :=
  ⟨by decide, by decide, by decide,
    (GetRecordSize_eq_specRecordSize lp64 exampleMeta (by decide) (by decide)).2 (by decide)⟩

/-- C4 (as stated, refuted): on `wideMeta` the index offset at column 2105376 is 4294967040 and
at column 2105377 it is 1784, so the offset is neither the sum of the preceding columns
(4294969080) nor non-decreasing in the index position. -/
theorem GetIndexFieldOffset_wraps_on_wideMeta :
    wellFormed wideMeta ∧ supportedTypes wideMeta ∧ 2105377 ≤ wideMeta.FieldCount ∧
    bytesBefore lp64 wideMeta 2105377 = 4294969080 ∧
    GetIndexFieldOffset lp64 (withIndexField wideMeta 2105376) = some 4294967040 ∧
    GetIndexFieldOffset lp64 (withIndexField wideMeta 2105377) = some 1784 :=
  ⟨uniformMeta_wellFormed 2105377, uniformMeta_supported 2105377, le_refl _,
    (uniformMeta_bytesBefore lp64 2105377 2105377 (le_refl _)).trans (by norm_num),
    (uniformMeta_GetIndexFieldOffset lp64 2105377 2105376 (by norm_num)).trans (by norm_num),
    (uniformMeta_GetIndexFieldOffset lp64 2105377 2105377 (le_refl _)).trans (by norm_num)⟩

/-- C4 (amended): for every schema with supported column types and an embedded index at position
`k <= FieldCount`, `GetIndexFieldOffset` equals the sum over the columns `i < k` of array length
times type width, reduced modulo `2^32`; it is 0 for `k = 0`; and whenever the sum for `k` is
below `2^32`, the offset at `k` is that sum and the offset at every position `j <= k` is the sum
for `j`, which is at most the offset at `k`. -/
theorem GetIndexFieldOffset_eq_bytesBefore (P : Platform) (m : DB2Meta) (hwf : wellFormed m)
    (hs : supportedTypes m) (k : Nat) (hk : k ≤ m.FieldCount) :
    GetIndexFieldOffset P (withIndexField m k) = some (bytesBefore P m k % 4294967296) ∧
    GetIndexFieldOffset P (withIndexField m 0) = some 0 ∧
    (bytesBefore P m k < 4294967296 →
      GetIndexFieldOffset P (withIndexField m k) = some (bytesBefore P m k) ∧
      ∀ j, j ≤ k →
        GetIndexFieldOffset P (withIndexField m j) = some (bytesBefore P m j) ∧
        bytesBefore P m j ≤ bytesBefore P m k) := by
  have hmod : ∀ j, j ≤ k → bytesBefore P m k < 4294967296 →
      GetIndexFieldOffset P (withIndexField m j) = some (bytesBefore P m j) := by
    intro j hj hlt
    rw [GetIndexFieldOffset_mod P m hwf hs j (le_trans hj hk)]
    exact congrArg some (Nat.mod_eq_of_lt (lt_of_le_of_lt (bytesBefore_mono P m hj) hlt))
  refine ⟨GetIndexFieldOffset_mod P m hwf hs k hk, ?_, fun hlt => ⟨hmod k (le_refl _) hlt, ?_⟩⟩
  · have h0 := GetIndexFieldOffset_mod P m hwf hs 0 (Nat.zero_le _)
    simpa [bytesBefore] using h0
  · intro j hj
    exact ⟨hmod j hj hlt, bytesBefore_mono P m hj⟩

/-- C4 (example): in the schema int x1, short x2, byte x1 the offsets of an index at positions
0, 1, 2, 3 are 0, 4, 8, 9. -/
theorem GetIndexFieldOffset_eq_bytesBefore_witness :
    wellFormed exampleMeta ∧ supportedTypes exampleMeta ∧
    GetIndexFieldOffset lp64 (withIndexField exampleMeta 3) = some 9 ∧
    GetIndexFieldOffset lp64 (withIndexField exampleMeta 2) = some 8 ∧
    GetIndexFieldOffset lp64 (withIndexField exampleMeta 0) = some 0 :=
  have h := GetIndexFieldOffset_eq_bytesBefore lp64 exampleMeta (by decide) (by decide) 3
    (by decide)
  ⟨by decide, by decide, (h.2.2 (by decide)).1, ((h.2.2 (by decide)).2 2 (by decide)).1, h.2.1⟩

/-! ## DB2Meta: parent index offset and offsets inside the record -/

theorem toInt32_of_lt (n : Nat) (h : n < 2147483648) : toInt32 n = (n : Int) := by
  have h1 : n % 4294967296 = n := Nat.mod_eq_of_lt (by omega)
  unfold toInt32 UINT32_MOD
  rw [h1, if_pos h]

theorem toInt32_mod (n : Nat) : toInt32 (n % 4294967296) = toInt32 n := by
  unfold toInt32 UINT32_MOD
  rw [Nat.mod_mod]

theorem toInt32_of_ge (n : Nat) (h1 : 2147483648 ≤ n) (h2 : n < 4294967296) :
    toInt32 n = (n : Int) - 4294967296 := by
  have h3 : n % 4294967296 = n := Nat.mod_eq_of_lt h2
  have h4 : ¬ (n < 2147483648) := by omega
  unfold toInt32 UINT32_MOD
  rw [h3, if_neg h4]

theorem GetParentIndexFieldOffset_mod (P : Platform) (m : DB2Meta) (hwf : wellFormed m)
    (hs : supportedTypes m) (hp : m.ParentIndexField ≠ -1)
    (hle : m.ParentIndexField.toNat ≤ m.FieldCount) :
    GetParentIndexFieldOffset P m = some (toInt32 (specParentOffset P m)) := by
  have hsz : (if !HasIndexFieldInData m then 4 else 0) < UINT32_MOD := by
    split_ifs <;> decide
  have h := fieldLoop_wellFormed P m hwf hs m.ParentIndexField.toNat hle _ hsz
  unfold GetParentIndexFieldOffset
  rw [if_neg hp, h]
  simp only
  have e : (if !HasIndexFieldInData m then 4 else 0) + bytesBefore P m m.ParentIndexField.toNat =
      specParentOffset P m := by
    unfold specParentOffset HasIndexFieldInData
    by_cases hi : m.IndexField = -1
    · simp [hi, Nat.add_comm]
    · have hb : (m.IndexField != -1) = true := by simpa using hi
      simp [hb, hi]
  rw [e]
  exact congrArg some (toInt32_mod _)

theorem bytesBefore_withParentIndexField (P : Platform) (m : DB2Meta) (p : Int) (k : Nat) :
    bytesBefore P (withParentIndexField m p) k = bytesBefore P m k := rfl

theorem bytesBefore_withIndexField (P : Platform) (m : DB2Meta) (i : Int) (k : Nat) :
    bytesBefore P (withIndexField m i) k = bytesBefore P m k := rfl

theorem uniformMeta_parentOffset (P : Platform) (n p : Nat) (hp : p ≤ n) :
    GetParentIndexFieldOffset P (withParentIndexField (uniformMeta n) p) =
      some (toInt32 (p * 2040)) := by
  have hwf : wellFormed (withParentIndexField (uniformMeta n) p) := uniformMeta_wellFormed n
  have hs : supportedTypes (withParentIndexField (uniformMeta n) p) := uniformMeta_supported n
  have hne : (withParentIndexField (uniformMeta n) p).ParentIndexField ≠ -1 := by
    show (p : Int) ≠ -1
    omega
  have hle : (withParentIndexField (uniformMeta n) p).ParentIndexField.toNat ≤
      (withParentIndexField (uniformMeta n) p).FieldCount := by
    show (p : Int).toNat ≤ n
    simpa using hp
  rw [GetParentIndexFieldOffset_mod P _ hwf hs hne hle]
  have e : specParentOffset P (withParentIndexField (uniformMeta n) p) = p * 2040 := by
    show bytesBefore P (uniformMeta n) (p : Int).toNat + (if (0 : Int) = -1 then 4 else 0) =
      p * 2040
    rw [Int.toNat_ofNat, uniformMeta_bytesBefore P n p hp]
    simp
  rw [e]

theorem uniformMeta_withIndex_recordSize (P : Platform) (n k : Nat) :
    GetRecordSize P (withIndexField (uniformMeta n) k) = some (n * 2040 % 4294967296) := by
  have hwf : wellFormed (withIndexField (uniformMeta n) k) := uniformMeta_wellFormed n
  have hs : supportedTypes (withIndexField (uniformMeta n) k) := uniformMeta_supported n
  rw [GetRecordSize_mod P _ hwf hs]
  have e : specRecordSize P (withIndexField (uniformMeta n) k) = n * 2040 := by
    have hne : ¬ ((k : Int) = -1) := by omega
    show bytesBefore P (uniformMeta n) n + (if (k : Int) = -1 then 4 else 0) = n * 2040
    rw [uniformMeta_bytesBefore P n n (le_refl _), if_neg hne, Nat.add_zero]
  rw [e]
  rfl

theorem uniformMeta_arrayLength (n k : Nat) (hk : k < n) : arrayLength (uniformMeta n) k = 255 := by
  simp [arrayLength, uniformMeta, List.getD, List.getElem?_replicate, hk]

theorem uniformMeta_parent_sum (P : Platform) (n p : Nat) (hp : p ≤ n) :
    specParentOffset P (withParentIndexField (uniformMeta n) p) = p * 2040 := by
  show bytesBefore P (uniformMeta n) (p : Int).toNat + (if (0 : Int) = -1 then 4 else 0) =
    p * 2040
  rw [Int.toNat_ofNat, uniformMeta_bytesBefore P n p hp]
  simp

/-- C17 (as stated, refuted): on `halfWideMeta` (1052690 columns of 255 eight-byte values, index
embedded) with the parent index at column 1052689, the sum over the preceding columns is
2147485560, but `GetParentIndexFieldOffset` returns -2147481736: the `uint32` offset is
converted to `int32` on return. -/
theorem GetParentIndexFieldOffset_negative_on_halfWideMeta :
    wellFormed halfWideMeta ∧ supportedTypes halfWideMeta ∧
    1052689 < halfWideMeta.FieldCount ∧
    specParentOffset lp64 (withParentIndexField halfWideMeta 1052689) = 2147485560 ∧
    GetParentIndexFieldOffset lp64 (withParentIndexField halfWideMeta 1052689) =
      some (-2147481736) :=
  ⟨uniformMeta_wellFormed 1052690, uniformMeta_supported 1052690, Nat.lt_succ_self _,
    (uniformMeta_parent_sum lp64 1052690 1052689 (Nat.le_succ _)).trans (by norm_num),
    (uniformMeta_parentOffset lp64 1052690 1052689 (Nat.le_succ _)).trans
      (congrArg some ((toInt32_of_ge _ (by norm_num) (by norm_num)).trans (by norm_num)))⟩

/-- C17 (amended): for every schema with supported column types, `GetParentIndexFieldOffset`
returns -1 when `ParentIndexField == -1`; otherwise it returns the sum over the columns before
the parent index column of array length times type width, plus 4 exactly when the index is not
embedded, reduced modulo `2^32` and read as a signed 32-bit integer; whenever that total is below
`2^31` the value returned is the total itself. -/
theorem GetParentIndexFieldOffset_eq_specParentOffset (P : Platform) (m : DB2Meta)
    (hwf : wellFormed m) (hs : supportedTypes m) :
    (m.ParentIndexField = -1 → GetParentIndexFieldOffset P m = some (-1)) ∧
    (m.ParentIndexField ≠ -1 → m.ParentIndexField.toNat ≤ m.FieldCount →
      GetParentIndexFieldOffset P m = some (toInt32 (specParentOffset P m)) ∧
      (specParentOffset P m < 2147483648 →
        GetParentIndexFieldOffset P m = some (specParentOffset P m : Int))) := by
  refine ⟨fun h => ?_, fun hp hle => ?_⟩
  · simp [GetParentIndexFieldOffset, h]
  · have h := GetParentIndexFieldOffset_mod P m hwf hs hp hle
    refine ⟨h, fun hlt => ?_⟩
    rw [h, toInt32_of_lt _ hlt]

/-- C17 (example): in the schema int x1, short x2, byte x1 with the index embedded, a parent
index at column 2 has offset 4 + 2 x 2 = 8, and without a parent index the result is -1. -/
theorem GetParentIndexFieldOffset_eq_specParentOffset_witness :
    wellFormed (withParentIndexField exampleMeta 2) ∧
    supportedTypes (withParentIndexField exampleMeta 2) ∧
    GetParentIndexFieldOffset lp64 (withParentIndexField exampleMeta 2) = some 8 ∧
    GetParentIndexFieldOffset lp64 exampleMeta = some (-1) :=
  ⟨by decide, by decide,
    ((GetParentIndexFieldOffset_eq_specParentOffset lp64 (withParentIndexField exampleMeta 2)
      (by decide) (by decide)).2 (by decide) (by decide)).2 (by decide),
    (GetParentIndexFieldOffset_eq_specParentOffset lp64 exampleMeta (by decide) (by decide)).1
      (by decide)⟩

theorem specWidth_pos (P : Platform) (hP : P.positive) (t : DBCFormer)
    (h : isSupported t = true) : 1 ≤ specWidth P t := by
  cases t <;> simp_all [specWidth, isSupported, Platform.positive] <;> omega

theorem fieldBytes_pos (P : Platform) (hP : P.positive) (m : DB2Meta) (hwf : wellFormed m)
    (hs : supportedTypes m) (k : Nat) (hk : k < m.FieldCount) (ha : 1 ≤ arrayLength m k) :
    1 ≤ fieldBytes P m k := by
  have hj : k < m.Types.length := by rw [hwf.1]; exact hk
  have ht : m.Types.getD k FT_BYTE = m.Types[k] := by
    simp [List.getD, List.getElem?_eq_getElem hj]
  have hw := specWidth_pos P hP _ (hs _ (List.getElem_mem hj))
  unfold fieldBytes
  rw [ht]
  exact Nat.mul_pos ha hw

theorem bytesBefore_lt_total (P : Platform) (hP : P.positive) (m : DB2Meta) (hwf : wellFormed m)
    (hs : supportedTypes m) (k : Nat) (hk : k < m.FieldCount) (ha : 1 ≤ arrayLength m k) :
    bytesBefore P m k < bytesBefore P m m.FieldCount := by
  have h1 := fieldBytes_pos P hP m hwf hs k hk ha
  have h2 := bytesBefore_succ P m k
  have h3 : bytesBefore P m (k + 1) ≤ bytesBefore P m m.FieldCount := bytesBefore_mono P m hk
  omega

theorem GetRecordSize_embedded (P : Platform) (m : DB2Meta) (hwf : wellFormed m)
    (hs : supportedTypes m) (hi : m.IndexField ≠ -1)
    (hfit : bytesBefore P m m.FieldCount < 4294967296) :
    GetRecordSize P m = some (bytesBefore P m m.FieldCount) := by
  rw [GetRecordSize_mod P m hwf hs]
  unfold specRecordSize
  rw [if_neg hi, Nat.add_zero]
  exact congrArg some (Nat.mod_eq_of_lt hfit)

/-- C20 (as stated, refuted): on `wideMeta` with the index embedded at column 2105376 (array
length 255) the index offset 4294967040 is not below the record size 1784; and on `halfWideMeta`
with a parent index at column 1052689 the parent offset is negative. -/
theorem offsets_outside_record_on_wideMeta :
    wellFormed wideMeta ∧ supportedTypes wideMeta ∧ 2105376 < wideMeta.FieldCount ∧
    arrayLength wideMeta 2105376 = 255 ∧
    GetIndexFieldOffset lp64 (withIndexField wideMeta 2105376) = some 4294967040 ∧
    GetRecordSize lp64 (withIndexField wideMeta 2105376) = some 1784 ∧
    1052689 < halfWideMeta.FieldCount ∧ arrayLength halfWideMeta 1052689 = 255 ∧
    GetParentIndexFieldOffset lp64 (withParentIndexField halfWideMeta 1052689) =
      some (-2147481736) :=
  ⟨uniformMeta_wellFormed 2105377, uniformMeta_supported 2105377, Nat.lt_succ_self _,
    uniformMeta_arrayLength 2105377 2105376 (Nat.lt_succ_self _),
    (uniformMeta_GetIndexFieldOffset lp64 2105377 2105376 (by norm_num)).trans (by norm_num),
    (uniformMeta_withIndex_recordSize lp64 2105377 2105376).trans (by norm_num),
    Nat.lt_succ_self _,
    uniformMeta_arrayLength 1052690 1052689 (Nat.lt_succ_self _),
    (uniformMeta_parentOffset lp64 1052690 1052689 (Nat.le_succ _)).trans
      (congrArg some ((toInt32_of_ge _ (by norm_num) (by norm_num)).trans (by norm_num)))⟩

/-- C20 (amended): for every schema with supported column types whose exact record size is
below `2^32`, with the index embedded at a position `k < FieldCount` of array length at least 1,
`GetIndexFieldOffset` is strictly less than `GetRecordSize`; and for every parent index position
`p < FieldCount` of array length at least 1 whose preceding columns take less than `2^31` bytes,
`GetParentIndexFieldOffset` is non-negative and strictly less than `GetRecordSize`. -/
theorem offsets_inside_record (P : Platform) (hP : P.positive) (m : DB2Meta)
    (hwf : wellFormed m) (hs : supportedTypes m) (k : Nat) (hk : k < m.FieldCount)
    (hak : 1 ≤ arrayLength m k) (hfit : bytesBefore P m m.FieldCount < 4294967296) :
    (∃ off size, GetIndexFieldOffset P (withIndexField m k) = some off ∧
      GetRecordSize P (withIndexField m k) = some size ∧ off < size) ∧
    (∀ p : Nat, p < m.FieldCount → 1 ≤ arrayLength m p → bytesBefore P m p < 2147483648 →
      ∃ poff size,
        GetParentIndexFieldOffset P (withParentIndexField (withIndexField m k) p) = some poff ∧
        GetRecordSize P (withParentIndexField (withIndexField m k) p) = some size ∧
        0 ≤ poff ∧ poff < (size : Int)) := by
  have hne : ((k : Int) ≠ -1) := by omega
  refine ⟨?_, ?_⟩
  · have hlt := bytesBefore_lt_total P hP m hwf hs k hk hak
    refine ⟨bytesBefore P m k, bytesBefore P m m.FieldCount, ?_, ?_, hlt⟩
    · rw [GetIndexFieldOffset_mod P m hwf hs k (le_of_lt hk)]
      have hlt2 : bytesBefore P m k < 4294967296 := by omega
      exact congrArg some (Nat.mod_eq_of_lt hlt2)
    · exact GetRecordSize_embedded P (withIndexField m k) hwf hs hne hfit
  · intro p hp hap hhalf
    have hlt := bytesBefore_lt_total P hP m hwf hs p hp hap
    have hwf1 : wellFormed (withParentIndexField (withIndexField m k) p) := hwf
    have hs1 : supportedTypes (withParentIndexField (withIndexField m k) p) := hs
    have hpne : (withParentIndexField (withIndexField m k) p).ParentIndexField ≠ -1 := by
      show (p : Int) ≠ -1
      omega
    have hple : (withParentIndexField (withIndexField m k) p).ParentIndexField.toNat ≤
        (withParentIndexField (withIndexField m k) p).FieldCount := by
      show (p : Int).toNat ≤ m.FieldCount
      simp only [Int.toNat_ofNat]
      omega
    have hsum : specParentOffset P (withParentIndexField (withIndexField m k) p) =
        bytesBefore P m p := by
      show bytesBefore P m (p : Int).toNat + (if (k : Int) = -1 then 4 else 0) =
        bytesBefore P m p
      rw [Int.toNat_ofNat, if_neg hne, Nat.add_zero]
    refine ⟨(bytesBefore P m p : Int), bytesBefore P m m.FieldCount, ?_, ?_, ?_, ?_⟩
    · rw [GetParentIndexFieldOffset_mod P _ hwf1 hs1 hpne hple, hsum, toInt32_of_lt _ hhalf]
    · exact GetRecordSize_embedded P _ hwf1 hs1 hne hfit
    · exact Int.natCast_nonneg _
    · exact_mod_cast hlt

/-- C20 (example): in the schema int x1, short x2, byte x1 (record size 9) an index at column 2
has offset 8 and a parent index at column 1 has offset 4, both inside the record. -/
theorem offsets_inside_record_witness :
    lp64.positive ∧ wellFormed exampleMeta ∧ supportedTypes exampleMeta ∧
    2 < exampleMeta.FieldCount ∧ 1 ≤ arrayLength exampleMeta 2 ∧
    bytesBefore lp64 exampleMeta exampleMeta.FieldCount < 4294967296 ∧
    (∃ off size, GetIndexFieldOffset lp64 (withIndexField exampleMeta 2) = some off ∧
      GetRecordSize lp64 (withIndexField exampleMeta 2) = some size ∧ off < size) ∧
    GetIndexFieldOffset lp64 (withIndexField exampleMeta 2) = some 8 ∧
    GetRecordSize lp64 (withIndexField exampleMeta 2) = some 9 ∧
    GetParentIndexFieldOffset lp64 (withParentIndexField (withIndexField exampleMeta 2) 1) =
      some 4 :=
  ⟨by decide, by decide, by decide, by decide, by decide, by decide,
    (offsets_inside_record lp64 (by decide) exampleMeta (by decide) (by decide) 2 (by decide)
      (by decide) (by decide)).1,
    by decide, by decide, by decide⟩

end DB2

/-! ## ObjectIdAllocator -/

namespace VMapExport

theorem idFind_none_iff (s : UniqueObjectIds) (k : ObjectKey) :
    idFind s k = none ↔ k ∉ s.map Prod.fst := by
  induction s with
  | nil => simp [idFind]
  | cons e t ih =>
    obtain ⟨k1, v⟩ := e
    by_cases h : k = k1
    · simp [idFind, h]
    · simp [idFind, h, ih]

theorem idFind_append_of_some (s t : UniqueObjectIds) (k : ObjectKey) (v : Nat)
    (h : idFind s k = some v) : idFind (s ++ t) k = some v := by
  induction s with
  | nil => simp [idFind] at h
  | cons e s ih =>
    obtain ⟨k1, v1⟩ := e
    by_cases hk : k = k1
    · simpa [idFind, hk] using h
    · simp only [idFind, hk, if_false, List.cons_append] at h ⊢
      exact ih h

theorem idFind_append_new (s : UniqueObjectIds) (k : ObjectKey) (v : Nat)
    (h : idFind s k = none) : idFind (s ++ [(k, v)]) k = some v := by
  induction s with
  | nil => simp [idFind]
  | cons e s ih =>
    obtain ⟨k1, v1⟩ := e
    by_cases hk : k = k1
    · simp [idFind, hk] at h
    · simp only [idFind, hk, if_false, List.cons_append] at h ⊢
      exact ih h

theorem generate_of_some (s : UniqueObjectIds) (k : ObjectKey) (v : Nat)
    (h : idFind s k = some v) : GenerateUniqueObjectId s k.1 k.2 = (s, v) := by
  simp [GenerateUniqueObjectId, h]

theorem generate_of_none (s : UniqueObjectIds) (k : ObjectKey) (h : idFind s k = none) :
    GenerateUniqueObjectId s k.1 k.2 =
      (s ++ [(k, (s.length + 1) % 4294967296)], (s.length + 1) % 4294967296) := by
  simp [GenerateUniqueObjectId, h]

/-- After the call the key is mapped to the returned id. -/
theorem generate_records (s : UniqueObjectIds) (k : ObjectKey) :
    idFind (GenerateUniqueObjectId s k.1 k.2).1 k = some (GenerateUniqueObjectId s k.1 k.2).2 := by
  cases h : idFind s k with
  | none => rw [generate_of_none s k h]; exact idFind_append_new s k _ h
  | some v => rw [generate_of_some s k v h]; exact h

theorem generate_extends (s : UniqueObjectIds) (k : ObjectKey) :
    ∃ t, (GenerateUniqueObjectId s k.1 k.2).1 = s ++ t := by
  cases h : idFind s k with
  | none => rw [generate_of_none s k h]; exact ⟨_, rfl⟩
  | some v => rw [generate_of_some s k v h]; exact ⟨[], by simp⟩

theorem allocAfter_extends (ks : List ObjectKey) :
    ∀ s : UniqueObjectIds, ∃ t, allocAfter s ks = s ++ t := by
  induction ks with
  | nil => intro s; exact ⟨[], by simp [allocAfter]⟩
  | cons k ks ih =>
    intro s
    obtain ⟨t1, h1⟩ := generate_extends s k
    obtain ⟨t2, h2⟩ := ih (GenerateUniqueObjectId s k.1 k.2).1
    exact ⟨t1 ++ t2, by simp only [allocAfter]; rw [h2, h1, List.append_assoc]⟩

theorem allocAfter_append (a b : List ObjectKey) :
    ∀ s : UniqueObjectIds, allocAfter s (a ++ b) = allocAfter (allocAfter s a) b := by
  induction a with
  | nil => intro s; rfl
  | cons k a ih => intro s; simp only [List.cons_append, allocAfter]; exact ih _

theorem generate_keys (s : UniqueObjectIds) (k : ObjectKey) (hn : (s.map Prod.fst).Nodup) :
    ((GenerateUniqueObjectId s k.1 k.2).1.map Prod.fst).Nodup ∧
    ∀ q, q ∈ (GenerateUniqueObjectId s k.1 k.2).1.map Prod.fst ↔ q ∈ s.map Prod.fst ∨ q = k := by
  cases h : idFind s k with
  | none =>
    rw [generate_of_none s k h]
    have hk := (idFind_none_iff s k).mp h
    refine ⟨?_, ?_⟩
    · rw [List.map_append, List.nodup_append]
      refine ⟨hn, by simp, ?_⟩
      intro a ha hb
      simp only [List.map_cons, List.map_nil, List.mem_singleton] at hb
      exact hk (hb ▸ ha)
    · intro q; simp
  | some v =>
    rw [generate_of_some s k v h]
    have hk : k ∈ s.map Prod.fst := by
      by_contra hc
      rw [(idFind_none_iff s k).mpr hc] at h
      exact Option.noConfusion h
    refine ⟨hn, fun q => ⟨Or.inl, ?_⟩⟩
    rintro (hq | hq)
    · exact hq
    · exact hq ▸ hk

theorem allocAfter_keys (ks : List ObjectKey) :
    ∀ s : UniqueObjectIds, (s.map Prod.fst).Nodup →
      ((allocAfter s ks).map Prod.fst).Nodup ∧
      ∀ q, q ∈ (allocAfter s ks).map Prod.fst ↔ q ∈ s.map Prod.fst ∨ q ∈ ks := by
  induction ks with
  | nil => intro s hn; exact ⟨hn, fun q => by simp [allocAfter]⟩
  | cons k ks ih =>
    intro s hn
    obtain ⟨h1, h2⟩ := generate_keys s k hn
    obtain ⟨h3, h4⟩ := ih _ h1
    refine ⟨h3, fun q => ?_⟩
    simp only [allocAfter]
    rw [h4 q, h2 q, List.mem_cons]
    tauto

/-- Starting from the empty allocator, the map holds one entry per distinct key seen. -/
theorem allocAfter_length (pre : List ObjectKey) :
    (allocAfter [] pre).length = distinctKeys pre := by
  obtain ⟨hn, hm⟩ := allocAfter_keys pre [] List.nodup_nil
  have h1 : ((allocAfter [] pre).map Prod.fst).toFinset = pre.toFinset := by
    ext q
    simp only [List.mem_toFinset]
    rw [hm q]
    simp
  have h2 := List.toFinset_card_of_nodup hn
  rw [h1, List.card_toFinset, List.length_map] at h2
  exact h2.symm

theorem idFind_allocAfter_none (pre : List ObjectKey) (k : ObjectKey) (hk : k ∉ pre) :
    idFind (allocAfter [] pre) k = none := by
  rw [idFind_none_iff]
  obtain ⟨_, hm⟩ := allocAfter_keys pre [] List.nodup_nil
  intro hc
  rcases (hm k).mp hc with h | h
  · simp at h
  · exact hk h

/-- A key not seen before gets the number of distinct keys seen so far plus one, as a
`uint32`. -/
theorem idReturned_new (pre : List ObjectKey) (k : ObjectKey) (hk : k ∉ pre) :
    GenerateUniqueObjectId (allocAfter [] pre) k.1 k.2 =
      (allocAfter [] pre ++ [(k, (distinctKeys pre + 1) % 4294967296)],
        (distinctKeys pre + 1) % 4294967296) := by
  rw [generate_of_none _ k (idFind_allocAfter_none pre k hk), allocAfter_length]

/-- A key seen before gets the id of any earlier call with that key, and the allocator stays as
it is. -/
theorem idReturned_seen (p1 p2 : List ObjectKey) (k : ObjectKey) :
    GenerateUniqueObjectId (allocAfter [] (p1 ++ k :: p2)) k.1 k.2 =
      (allocAfter [] (p1 ++ k :: p2), idReturned p1 k) := by
  have h1 : allocAfter [] (p1 ++ k :: p2) =
      allocAfter (GenerateUniqueObjectId (allocAfter [] p1) k.1 k.2).1 p2 := by
    rw [allocAfter_append]; rfl
  obtain ⟨t, ht⟩ := allocAfter_extends p2 (GenerateUniqueObjectId (allocAfter [] p1) k.1 k.2).1
  have h2 : idFind (allocAfter [] (p1 ++ k :: p2)) k = some (idReturned p1 k) := by
    rw [h1, ht]
    exact idFind_append_of_some _ t k _ (generate_records _ k)
  exact generate_of_some _ k _ h2

theorem exists_first_occurrence {α : Type} [DecidableEq α] (l : List α) (a : α) (h : a ∈ l) :
    ∃ p1 p2, l = p1 ++ a :: p2 ∧ a ∉ p1 := by
  induction l with
  | nil => simp at h
  | cons b t ih =>
    by_cases hb : a = b
    · exact ⟨[], t, by simp [hb], by simp⟩
    · have ht : a ∈ t := by
        rcases List.mem_cons.mp h with h1 | h1
        · exact absurd h1 hb
        · exact h1
      obtain ⟨p1, p2, h1, h2⟩ := ih ht
      refine ⟨b :: p1, p2, by simp [h1], ?_⟩
      simp only [List.mem_cons, not_or]
      exact ⟨hb, h2⟩

theorem distinctKeys_snoc_new (pre : List ObjectKey) (k : ObjectKey) (hk : k ∉ pre) :
    distinctKeys (pre ++ [k]) = distinctKeys pre + 1 := by
  unfold distinctKeys
  rw [← List.card_toFinset, ← List.card_toFinset, List.toFinset_append]
  have : [k].toFinset = {k} := by simp
  rw [this, Finset.union_comm, ← Finset.insert_eq, Finset.card_insert_of_not_mem]
  simpa using hk

theorem distinctKeys_snoc_seen (pre : List ObjectKey) (k : ObjectKey) (hk : k ∈ pre) :
    distinctKeys (pre ++ [k]) = distinctKeys pre := by
  unfold distinctKeys
  rw [← List.card_toFinset, ← List.card_toFinset, List.toFinset_append]
  congr 1
  ext q
  simp only [Finset.mem_union, List.mem_toFinset, List.mem_singleton]
  constructor
  · rintro (h | h)
    · exact h
    · exact h ▸ hk
  · exact Or.inl

theorem distinctKeys_first_lt (p1 p2 : List ObjectKey) (k : ObjectKey) (hk : k ∉ p1) :
    distinctKeys p1 + 1 ≤ distinctKeys (p1 ++ k :: p2) := by
  rw [← distinctKeys_snoc_new p1 k hk]
  unfold distinctKeys
  rw [← List.card_toFinset, ← List.card_toFinset]
  apply Finset.card_le_card
  intro q
  simp only [List.mem_toFinset, List.mem_append, List.mem_singleton, List.mem_cons]
  tauto

theorem distinctKeys_firstKeys (n : Nat) : distinctKeys (firstKeys n) = n := by
  have hn : (firstKeys n).Nodup := by
    unfold firstKeys
    refine List.Nodup.map ?_ (List.nodup_range n)
    intro a b h
    exact congrArg Prod.fst h
  unfold distinctKeys
  rw [hn.dedup]
  simp [firstKeys]

theorem not_mem_firstKeys (n : Nat) : ((n, 0) : ObjectKey) ∉ firstKeys n := by
  simp [firstKeys]

theorem idReturned_firstKeys (n : Nat) :
    idReturned (firstKeys n) (n, 0) = (n + 1) % 4294967296 := by
  unfold idReturned
  rw [idReturned_new _ _ (not_mem_firstKeys n), distinctKeys_firstKeys]

theorem firstKeys_in_range (n : Nat) (hn : n ≤ 4294967296) :
    ∀ q ∈ firstKeys n, q.1 < 4294967296 ∧ q.2 < 65536 := by
  intro q hq
  simp only [firstKeys, List.mem_map, List.mem_range] at hq
  obtain ⟨i, hi, rfl⟩ := hq
  exact ⟨by show i < 4294967296; omega, by show 0 < 65536; omega⟩

/-- C2 (as stated, refuted): after the 4294967295 distinct keys `(0,0) .. (4294967294,0)`, each a
valid `(uint32, uint16)` pair, the call with the new key `(4294967295,0)` returns 0, whereas the
number of distinct keys seen so far plus one is 4294967296: the stored `uint32` id wraps. -/
theorem GenerateUniqueObjectId_wraps_after_2_pow_32_keys :
    (∀ q ∈ firstKeys 4294967295, q.1 < 4294967296 ∧ q.2 < 65536) ∧
    ((4294967295, 0) : ObjectKey) ∉ firstKeys 4294967295 ∧
    distinctKeys (firstKeys 4294967295) + 1 = 4294967296 ∧
    idReturned (firstKeys 4294967295) (4294967295, 0) = 0 :=
  ⟨firstKeys_in_range 4294967295 (by norm_num), not_mem_firstKeys 4294967295,
    congrArg (fun n => n + 1) (distinctKeys_firstKeys 4294967295),
    (idReturned_firstKeys 4294967295).trans (by norm_num)⟩

/-- C2 (amended): starting from the empty allocator, for every sequence of calls `pre` followed
by a call with key `k`, as long as fewer than `2^32` distinct keys are involved: a key not seen
before returns the number of distinct keys seen so far plus one and the mapping is recorded; a
key seen before returns the id of the earlier call with that key and leaves the allocator
unchanged; ids of first-seen keys strictly increase in first-seen order; every returned id is at
least 1 and at most the number of distinct keys seen. -/
theorem GenerateUniqueObjectId_first_seen_order (pre : List ObjectKey) (k : ObjectKey)
    (hN : distinctKeys (pre ++ [k]) < 4294967296) :
    (k ∉ pre →
      GenerateUniqueObjectId (allocAfter [] pre) k.1 k.2 =
        (allocAfter [] pre ++ [(k, distinctKeys pre + 1)], distinctKeys pre + 1) ∧
      idFind (GenerateUniqueObjectId (allocAfter [] pre) k.1 k.2).1 k =
        some (distinctKeys pre + 1)) ∧
    (∀ p1 p2, pre = p1 ++ k :: p2 →
      GenerateUniqueObjectId (allocAfter [] pre) k.1 k.2 =
        (allocAfter [] pre, idReturned p1 k)) ∧
    (∀ p1 k1 p2, pre = p1 ++ k1 :: p2 → k1 ∉ p1 → k ∉ pre →
      idReturned p1 k1 = distinctKeys p1 + 1 ∧ idReturned p1 k1 < idReturned pre k) ∧
    1 ≤ idReturned pre k ∧ idReturned pre k ≤ distinctKeys (pre ++ [k]) := by
  have hnew : ∀ (p : List ObjectKey) (q : ObjectKey), q ∉ p → distinctKeys p + 1 < 4294967296 + 1 →
      distinctKeys p + 1 ≤ 4294967295 → idReturned p q = distinctKeys p + 1 := by
    intro p q hq _ hle
    unfold idReturned
    rw [idReturned_new p q hq]
    exact Nat.mod_eq_of_lt (by omega)
  refine ⟨?_, ?_, ?_, ?_⟩
  · intro hk
    have h1 := distinctKeys_snoc_new pre k hk
    have h2 : (distinctKeys pre + 1) % 4294967296 = distinctKeys pre + 1 :=
      Nat.mod_eq_of_lt (by omega)
    have h3 := idReturned_new pre k hk
    rw [h2] at h3
    refine ⟨h3, ?_⟩
    rw [h3]
    exact idFind_append_new _ k _ (idFind_allocAfter_none pre k hk)
  · intro p1 p2 hp
    subst hp
    exact idReturned_seen p1 p2 k
  · intro p1 k1 p2 hp hk1 hk
    have h1 := distinctKeys_snoc_new pre k hk
    have h2 : distinctKeys p1 + 1 ≤ distinctKeys pre := by
      rw [hp]; exact distinctKeys_first_lt p1 p2 k1 hk1
    have h3 := hnew p1 k1 hk1 (by omega) (by omega)
    have h4 := hnew pre k hk (by omega) (by omega)
    exact ⟨h3, by omega⟩
  · by_cases hk : k ∈ pre
    · obtain ⟨p1, p2, hp, hk1⟩ := exists_first_occurrence pre k hk
      have h1 := distinctKeys_snoc_seen pre k hk
      have h2 : distinctKeys p1 + 1 ≤ distinctKeys pre := by
        rw [hp]; exact distinctKeys_first_lt p1 p2 k hk1
      have h3 := hnew p1 k hk1 (by omega) (by omega)
      have h4 : idReturned pre k = idReturned p1 k := by
        have := idReturned_seen p1 p2 k
        rw [← hp] at this
        show (GenerateUniqueObjectId (allocAfter [] pre) k.1 k.2).2 = idReturned p1 k
        rw [this]
      omega
    · have h1 := distinctKeys_snoc_new pre k hk
      have h4 := hnew pre k hk (by omega) (by omega)
      omega

/-- C2 (example): after the calls `(7,1), (3,2), (7,1)` the new key `(9,9)` gets id 3, the
number of distinct keys seen so far plus one. -/
theorem GenerateUniqueObjectId_first_seen_order_witness :
    distinctKeys ([(7, 1), (3, 2), (7, 1)] ++ [(9, 9)]) < 4294967296 ∧
    ((9, 9) : ObjectKey) ∉ [((7, 1) : ObjectKey), (3, 2), (7, 1)] ∧
    GenerateUniqueObjectId (allocAfter [] [(7, 1), (3, 2), (7, 1)]) 9 9 =
      ([((7, 1), 1), ((3, 2), 2), ((9, 9), 3)], 3) :=
  ⟨by decide, by decide,
    ((GenerateUniqueObjectId_first_seen_order [(7, 1), (3, 2), (7, 1)] (9, 9) (by decide)).1
      (by decide)).1.trans (by decide)⟩

/-! ## MapRegistry -/

theorem mapFind_mapSet_self (k : Nat) (v : map_info) (ids : MapIds) :
    mapFind (mapSet k v ids) k = some v := by
  induction ids with
  | nil => simp [mapSet, mapFind]
  | cons e t ih =>
    obtain ⟨k1, v1⟩ := e
    by_cases h1 : k < k1
    · simp [mapSet, mapFind, h1]
    · by_cases h2 : k = k1
      · simp [mapSet, mapFind, h2]
      · simp [mapSet, mapFind, h1, h2, ih]

theorem mapFind_mapSet_other (k : Nat) (v : map_info) (ids : MapIds) (q : Nat) (hq : q ≠ k) :
    mapFind (mapSet k v ids) q = mapFind ids q := by
  induction ids with
  | nil => simp [mapSet, mapFind, hq]
  | cons e t ih =>
    obtain ⟨k1, v1⟩ := e
    by_cases h1 : k < k1
    · simp [mapSet, mapFind, h1, hq]
    · by_cases h2 : k = k1
      · subst h2
        simp [mapSet, mapFind, hq]
      · simp only [mapSet, h1, h2, if_false, mapFind, ih]

theorem mapFind_none_iff (ids : MapIds) (k : Nat) :
    mapFind ids k = none ↔ k ∉ ids.map Prod.fst := by
  induction ids with
  | nil => simp [mapFind]
  | cons e t ih =>
    obtain ⟨k1, v⟩ := e
    by_cases h : k = k1
    · simp [mapFind, h]
    · simp [mapFind, h, ih]

theorem mapSet_keys (k : Nat) (v : map_info) (ids : MapIds) (q : Nat) :
    q ∈ (mapSet k v ids).map Prod.fst ↔ q = k ∨ q ∈ ids.map Prod.fst := by
  by_cases hq : q = k
  · subst hq
    have h := mapFind_mapSet_self q v ids
    have : ¬ (mapFind (mapSet q v ids) q = none) := by rw [h]; simp
    rw [mapFind_none_iff] at this
    simp only [true_or, iff_true]
    exact not_not.mp this
  · have h := mapFind_mapSet_other k v ids q hq
    have h1 := mapFind_none_iff (mapSet k v ids) q
    have h2 := mapFind_none_iff ids q
    rw [h] at h1
    have : q ∈ (mapSet k v ids).map Prod.fst ↔ q ∈ ids.map Prod.fst := by
      rw [← not_iff_not, ← h1, ← h2]
    rw [this]
    simp [hq]

theorem sortedKeys_mapSet (k : Nat) (v : map_info) (ids : MapIds) (hs : sortedKeys ids) :
    sortedKeys (mapSet k v ids) := by
  induction ids with
  | nil => simp [mapSet, sortedKeys]
  | cons e t ih =>
    obtain ⟨k1, v1⟩ := e
    unfold sortedKeys at hs ih ⊢
    simp only [List.map_cons, List.pairwise_cons] at hs
    by_cases h1 : k < k1
    · simp only [mapSet, h1, if_true, List.map_cons, List.pairwise_cons]
      refine ⟨?_, hs.1, hs.2⟩
      intro b hb
      rcases List.mem_cons.mp hb with hb | hb
      · omega
      · have := hs.1 b hb; omega
    · by_cases h2 : k = k1
      · subst h2
        simp only [mapSet, h1, if_false, if_true, List.map_cons, List.pairwise_cons]
        exact hs
      · simp only [mapSet, h1, h2, if_false, List.map_cons, List.pairwise_cons]
        refine ⟨?_, ih hs.2⟩
        intro b hb
        rcases (mapSet_keys k v t b).mp hb with hb | hb
        · omega
        · exact hs.1 b hb

/-- Two `std::map` values with the same lookups are the same list of entries. -/
theorem sortedKeys_ext : ∀ (a b : MapIds), sortedKeys a → sortedKeys b →
    (∀ k, mapFind a k = mapFind b k) → a = b
  | [], [], _, _, _ => rfl
  | [], (k2, v2) :: tb, _, _, h => by
    have := h k2
    simp [mapFind] at this
  | (k1, v1) :: ta, [], _, _, h => by
    have := h k1
    simp [mapFind] at this
  | (k1, v1) :: ta, (k2, v2) :: tb, ha, hb, h => by
    unfold sortedKeys at ha hb
    simp only [List.map_cons, List.pairwise_cons] at ha hb
    have hk : k1 = k2 := by
      by_contra hne
      have h1 := h k1
      have h2 := h k2
      simp only [mapFind, if_true, hne, if_false] at h1
      have hne2 : ¬ (k2 = k1) := fun e => hne e.symm
      simp only [mapFind, if_true, hne2, if_false] at h2
      have m1 : k1 ∈ tb.map Prod.fst := by
        by_contra hc
        rw [(mapFind_none_iff tb k1).mpr hc] at h1
        exact Option.noConfusion h1
      have m2 : k2 ∈ ta.map Prod.fst := by
        by_contra hc
        rw [(mapFind_none_iff ta k2).mpr hc] at h2
        exact Option.noConfusion h2
      have := hb.1 k1 m1
      have := ha.1 k2 m2
      omega
    subst hk
    have hv : v1 = v2 := by
      have h1 := h k1
      simp only [mapFind, if_true] at h1
      exact Option.some.inj h1
    subst hv
    have ht : ∀ k, mapFind ta k = mapFind tb k := by
      intro k
      by_cases hk : k = k1
      · subst hk
        have n1 : k ∉ ta.map Prod.fst := fun hc => absurd (ha.1 k hc) (lt_irrefl _)
        have n2 : k ∉ tb.map Prod.fst := fun hc => absurd (hb.1 k hc) (lt_irrefl _)
        rw [(mapFind_none_iff ta k).mpr n1, (mapFind_none_iff tb k).mpr n2]
      · have := h k
        simpa only [mapFind, hk, if_false] using this
    rw [sortedKeys_ext ta tb ha.2 hb.2 ht]

theorem applyCopy_find (ids : MapIds) (c : DB2RecordCopy) (k : Nat) :
    mapFind (applyCopy ids c) k =
      match mapFind ids c.SourceRowId with
      | some src => if k = c.NewRowId then some src else mapFind ids k
      | none => mapFind ids k := by
  unfold applyCopy
  cases h : mapFind ids c.SourceRowId with
  | none => rfl
  | some src =>
    by_cases hk : k = c.NewRowId
    · subst hk
      simp only [if_true]
      exact mapFind_mapSet_self _ _ _
    · simp only [hk, if_false]
      exact mapFind_mapSet_other _ _ _ _ hk

theorem sortedKeys_applyCopy (ids : MapIds) (c : DB2RecordCopy) (hs : sortedKeys ids) :
    sortedKeys (applyCopy ids c) := by
  unfold applyCopy
  cases mapFind ids c.SourceRowId with
  | none => exact hs
  | some src => exact sortedKeys_mapSet _ _ _ hs

theorem sortedKeys_applyCopies (copies : List DB2RecordCopy) :
    ∀ ids : MapIds, sortedKeys ids → sortedKeys (applyCopies ids copies) := by
  induction copies with
  | nil => intro ids hs; exact hs
  | cons c cs ih => intro ids hs; exact ih _ (sortedKeys_applyCopy ids c hs)

theorem applyCopies_append (a b : List DB2RecordCopy) (ids : MapIds) :
    applyCopies ids (a ++ b) = applyCopies (applyCopies ids a) b := by
  simp [applyCopies, List.foldl_append]

theorem loadRecords_total (rows : List MapRecord) :
    ∀ g : Registry, (∀ r ∈ rows, r.Directory.length < 64) →
      ∃ g1, loadRecords g rows = some g1 := by
  induction rows with
  | nil => intro g _; exact ⟨g, rfl⟩
  | cons r rs ih =>
    intro g h
    have hr : ¬ (64 ≤ r.Directory.length) := by
      have := h r (List.mem_cons_self _ _); omega
    simp only [loadRecords, loadRecord, hr, if_false]
    exact ih _ (fun q hq => h q (List.mem_cons_of_mem _ hq))

theorem loadRecords_sorted (rows : List MapRecord) :
    ∀ g g1 : Registry, sortedKeys g.map_ids → loadRecords g rows = some g1 →
      sortedKeys g1.map_ids := by
  induction rows with
  | nil =>
    intro g g1 hs h
    simp only [loadRecords, Option.some.injEq] at h
    exact h ▸ hs
  | cons r rs ih =>
    intro g g1 hs h
    by_cases hr : 64 ≤ r.Directory.length
    · simp [loadRecords, loadRecord, hr] at h
    · simp only [loadRecords, loadRecord, hr, if_false] at h
      exact ih _ g1 (sortedKeys_mapSet _ _ _ hs) h

/-- C3: when every primary row has a name that fits, the first loop of `main` yields a
registry `g`, and for every copy row `c` of the copy list, applied after the copy rows `pre` that
precede it: if the source id of `c` is present at that moment, the registry then maps the new row
id to an entry with exactly the name and parent id of the source entry and no other id changes;
if the source id is absent the registry is left as it is; `main` ends with the remaining copy
rows applied to that registry. -/
theorem buildRegistry_copy_rows (rows : List MapRecord) (copies : List DB2RecordCopy)
    (hfit : ∀ r ∈ rows, r.Directory.length < 64) :
    ∃ g, loadRecords ⟨[], []⟩ rows = some g ∧
      ∀ pre c post, copies = pre ++ c :: post →
        (∀ src, mapFind (applyCopies g.map_ids pre) c.SourceRowId = some src →
          mapFind (applyCopies g.map_ids (pre ++ [c])) c.NewRowId =
            some ⟨src.name, src.parent_id⟩ ∧
          ∀ k, k ≠ c.NewRowId →
            mapFind (applyCopies g.map_ids (pre ++ [c])) k =
              mapFind (applyCopies g.map_ids pre) k) ∧
        (mapFind (applyCopies g.map_ids pre) c.SourceRowId = none →
          applyCopies g.map_ids (pre ++ [c]) = applyCopies g.map_ids pre) ∧
        buildRegistry rows copies =
          some ⟨applyCopies (applyCopies g.map_ids (pre ++ [c])) post,
            g.maps_that_are_parents⟩ := by
  obtain ⟨g, hg⟩ := loadRecords_total rows ⟨[], []⟩ hfit
  refine ⟨g, hg, ?_⟩
  intro pre c post hc
  have hstep : applyCopies g.map_ids (pre ++ [c]) = applyCopy (applyCopies g.map_ids pre) c := by
    rw [applyCopies_append]; rfl
  refine ⟨?_, ?_, ?_⟩
  · intro src hsrc
    rw [hstep]
    refine ⟨?_, ?_⟩
    · rw [applyCopy_find, hsrc]
      simp
    · intro k hk
      rw [applyCopy_find, hsrc]
      simp [hk]
  · intro hnone
    rw [hstep]
    simp [applyCopy, hnone]
  · unfold buildRegistry
    rw [hg, hc, ← applyCopies_append]
    simp

/-- C3 (example): primary rows (0, "Azeroth", -1) and (1, "Kalimdor", -1) with one copy row
(source 0, new 2) give a registry of size 3 whose entry 2 has name "Azeroth" and parent -1. -/
theorem buildRegistry_copy_rows_witness :
    (∀ r ∈ exampleRows, r.Directory.length < 64) ∧
    (∃ g, buildRegistry exampleRows exampleCopies = some g ∧ g.map_ids.length = 3 ∧
      mapFind g.map_ids 2 = some ⟨"Azeroth", -1⟩) := by
  have hfit : ∀ r ∈ exampleRows, r.Directory.length < 64 := by decide
  obtain ⟨g, hg, h⟩ := buildRegistry_copy_rows exampleRows exampleCopies hfit
  have hg1 : loadRecords ⟨[], []⟩ exampleRows =
      some ⟨[(0, ⟨"Azeroth", -1⟩), (1, ⟨"Kalimdor", -1⟩)], []⟩ := by decide
  rw [hg1] at hg
  cases hg
  obtain ⟨h1, _, h3⟩ := h [] ⟨2, 0⟩ [] rfl
  refine ⟨hfit, _, h3, by decide, ?_⟩
  exact (h1 ⟨"Azeroth", -1⟩ (by decide)).1

/-- A copy list none of whose rows writes to `k` leaves the entry of `k` as it is. -/
theorem applyCopies_find_untouched (cs : List DB2RecordCopy) :
    ∀ (ids : MapIds) (k : Nat), (∀ d ∈ cs, d.NewRowId ≠ k) →
      mapFind (applyCopies ids cs) k = mapFind ids k := by
  induction cs with
  | nil => intro ids k _; rfl
  | cons c cs ih =>
    intro ids k h
    have hc : k ≠ c.NewRowId := fun e => h c (List.mem_cons_self _ _) e.symm
    have h1 : applyCopies ids (c :: cs) = applyCopies (applyCopy ids c) cs := rfl
    rw [h1, ih _ k (fun d hd => h d (List.mem_cons_of_mem _ hd)), applyCopy_find]
    cases mapFind ids c.SourceRowId <;> simp [hc]

theorem applyCopy_find_source (ids : MapIds) (c : DB2RecordCopy) :
    mapFind (applyCopy ids c) c.SourceRowId = mapFind ids c.SourceRowId := by
  rw [applyCopy_find]
  cases h : mapFind ids c.SourceRowId with
  | none => simp [h]
  | some src =>
    by_cases hk : c.SourceRowId = c.NewRowId
    · simp [hk]
    · simp [hk, h]

/-- Replaying an ordered copy list on a registry that agrees with the result of the first pass
outside a set `S` of ids and with the start of the pass on `S` gives the result of the first
pass. -/
theorem applyCopies_replay (cs : List DB2RecordCopy) :
    ∀ (R1 R2 : MapIds) (S : Nat → Prop), copiesOrdered cs →
      (∀ k, (S k → mapFind R2 k = mapFind R1 k) ∧
        (¬ S k → mapFind R2 k = mapFind (applyCopies R1 cs) k)) →
      ∀ k, mapFind (applyCopies R2 cs) k = mapFind (applyCopies R1 cs) k := by
  induction cs with
  | nil =>
    intro R1 R2 S _ h k
    by_cases hs : S k
    · exact (h k).1 hs
    · exact (h k).2 hs
  | cons d rest ih =>
    intro R1 R2 S hord h k
    obtain ⟨hd, hrest⟩ := List.pairwise_cons.mp hord
    have hrest : copiesOrdered rest := hrest
    have hf : applyCopies R1 (d :: rest) = applyCopies (applyCopy R1 d) rest := rfl
    have hf2 : applyCopies R2 (d :: rest) = applyCopies (applyCopy R2 d) rest := rfl
    have hsrc : mapFind R2 d.SourceRowId = mapFind R1 d.SourceRowId := by
      by_cases hs : S d.SourceRowId
      · exact (h _).1 hs
      · rw [(h _).2 hs, hf, applyCopies_find_untouched rest _ _ hd, applyCopy_find_source]
    rw [hf, hf2]
    cases hm : mapFind R1 d.SourceRowId with
    | none =>
      refine ih (applyCopy R1 d) (applyCopy R2 d) S hrest ?_ k
      intro q
      have e1 : mapFind (applyCopy R1 d) q = mapFind R1 q := by
        rw [applyCopy_find, hm]
      have e2 : mapFind (applyCopy R2 d) q = mapFind R2 q := by
        rw [applyCopy_find, hsrc, hm]
      rw [e1, e2]
      refine ⟨(h q).1, fun hq => ?_⟩
      rw [(h q).2 hq, hf]
    | some src =>
      refine ih (applyCopy R1 d) (applyCopy R2 d) (fun q => S q ∨ q = d.NewRowId) hrest ?_ k
      intro q
      have e1 : mapFind (applyCopy R1 d) q =
          if q = d.NewRowId then some src else mapFind R1 q := by
        rw [applyCopy_find, hm]
      have e2 : mapFind (applyCopy R2 d) q =
          if q = d.NewRowId then some src else mapFind R2 q := by
        rw [applyCopy_find, hsrc, hm]
      rw [e1, e2]
      by_cases hq : q = d.NewRowId
      · simp [hq]
      · simp only [hq, if_false, or_false]
        refine ⟨(h q).1, fun hs => ?_⟩
        rw [(h q).2 hs, hf]

theorem applyCopies_twice (ids : MapIds) (cs : List DB2RecordCopy) (hs : sortedKeys ids)
    (hord : copiesOrdered cs) :
    applyCopies (applyCopies ids cs) cs = applyCopies ids cs := by
  apply sortedKeys_ext
  · exact sortedKeys_applyCopies cs _ (sortedKeys_applyCopies cs _ hs)
  · exact sortedKeys_applyCopies cs _ hs
  · exact applyCopies_replay cs ids (applyCopies ids cs) (fun _ => False) hord
      (fun k => ⟨fun hf => hf.elim, fun _ => rfl⟩)

/-- C9 (as stated, refuted): from the primary rows 0 "A" and 1 "B", the copy list
[(source 1, new 2), (source 0, new 1)] gives entry 2 the name "B" on the first application and
the name "A" on the second, so applying the list twice does not give the registry of applying
it once. -/
theorem applyCopies_twice_differs_on_chain :
    loadRecords ⟨[], []⟩ chainRows = some ⟨[(0, ⟨"A", -1⟩), (1, ⟨"B", -1⟩)], []⟩ ∧
    applyCopies [(0, ⟨"A", -1⟩), (1, ⟨"B", -1⟩)] chainCopies =
      [(0, ⟨"A", -1⟩), (1, ⟨"A", -1⟩), (2, ⟨"B", -1⟩)] ∧
    applyCopies (applyCopies [(0, ⟨"A", -1⟩), (1, ⟨"B", -1⟩)] chainCopies) chainCopies =
      [(0, ⟨"A", -1⟩), (1, ⟨"A", -1⟩), (2, ⟨"A", -1⟩)] ∧
    applyCopies (applyCopies [(0, ⟨"A", -1⟩), (1, ⟨"B", -1⟩)] chainCopies) chainCopies ≠
      applyCopies [(0, ⟨"A", -1⟩), (1, ⟨"B", -1⟩)] chainCopies := by
  decide

/-- C9 (amended): for every registry built from a list of primary rows and every copy list in
which no copy row writes to an id that an earlier copy row of the list read from, applying the
copy list a second time to the result of the first application gives the same registry. -/
theorem applyCopies_idempotent_of_ordered (rows : List MapRecord) (g : Registry)
    (copies : List DB2RecordCopy) (hg : loadRecords ⟨[], []⟩ rows = some g)
    (hord : copiesOrdered copies) :
    applyCopies (applyCopies g.map_ids copies) copies = applyCopies g.map_ids copies := by
  have hs : sortedKeys g.map_ids :=
    loadRecords_sorted rows ⟨[], []⟩ g (by simp [sortedKeys]) hg
  exact applyCopies_twice g.map_ids copies hs hord

/-- C9 (example): the copy list of the end-to-end example, applied twice to the registry of its
two primary rows, gives the three entries of a single application. -/
theorem applyCopies_idempotent_of_ordered_witness :
    loadRecords ⟨[], []⟩ exampleRows =
      some ⟨[(0, ⟨"Azeroth", -1⟩), (1, ⟨"Kalimdor", -1⟩)], []⟩ ∧
    copiesOrdered exampleCopies ∧
    applyCopies (applyCopies [(0, ⟨"Azeroth", -1⟩), (1, ⟨"Kalimdor", -1⟩)] exampleCopies)
      exampleCopies =
      applyCopies [(0, ⟨"Azeroth", -1⟩), (1, ⟨"Kalimdor", -1⟩)] exampleCopies :=
  ⟨by decide, by decide,
    applyCopies_idempotent_of_ordered exampleRows
      ⟨[(0, ⟨"Azeroth", -1⟩), (1, ⟨"Kalimdor", -1⟩)], []⟩ exampleCopies (by decide) (by decide)⟩

/-! ## BuildingExtractor: the name rule -/

theorem strrchr_none (s : List Char) (c : Char) (h : c ∉ s) : strrchr s c = none := by
  induction s with
  | nil => rfl
  | cons a t ih =>
    simp only [List.mem_cons, not_or] at h
    have ha : ¬ (a = c) := fun e => h.1 e.symm
    simp [strrchr, ih h.2, ha]

theorem strrchr_last (pre seg : List Char) (c : Char) (h : c ∉ seg) :
    strrchr (pre ++ c :: seg) c = some (c :: seg) := by
  induction pre with
  | nil => simp [strrchr, strrchr_none seg c h]
  | cons a t ih => simp [strrchr, ih]

theorem takeWhile_stop {α : Type} (p : α → Bool) (l r : List α) (a : α)
    (hl : ∀ x ∈ l, p x = true) (ha : p a = false) : (l ++ a :: r).takeWhile p = l := by
  induction l with
  | nil => simp [List.takeWhile, ha]
  | cons b t ih =>
    have hb := hl b (List.mem_cons_self _ _)
    simp only [List.cons_append, List.takeWhile_cons, hb, if_true]
    rw [ih (fun x hx => hl x (List.mem_cons_of_mem _ hx))]

theorem lastSegment_last (pre seg : List Char) (h : Char.ofNat 95 ∉ seg) :
    lastSegment (pre ++ Char.ofNat 95 :: seg) = seg := by
  unfold lastSegment
  rw [List.reverse_append, List.reverse_cons, List.append_assoc, List.singleton_append,
    takeWhile_stop _ seg.reverse pre.reverse (Char.ofNat 95) ?_ (by simp), List.reverse_reverse]
  intro x hx
  have hx1 : x ∈ seg := List.mem_reverse.mp hx
  have : x ≠ Char.ofNat 95 := fun e => h (e ▸ hx1)
  simpa using this

theorem exists_last_occurrence (s : List Char) (c : Char) (h : c ∈ s) :
    ∃ pre seg, s = pre ++ c :: seg ∧ c ∉ seg := by
  obtain ⟨p1, p2, h1, h2⟩ := exists_first_occurrence s.reverse c (List.mem_reverse.mpr h)
  refine ⟨p2.reverse, p1.reverse, ?_, fun hc => h2 (List.mem_reverse.mp hc)⟩
  have := congrArg List.reverse h1
  simpa using this

theorem countP_take3_eq_three (seg beyond : List Char) :
    ((seg ++ Char.ofNat 0 :: beyond).take 3).countP isdigit = 3 ↔
      3 ≤ seg.length ∧ (seg.take 3).all isdigit = true := by
  have h0 : isdigit (Char.ofNat 0) = false := by decide
  rcases seg with _ | ⟨a, _ | ⟨b, _ | ⟨c, rest⟩⟩⟩
  · rcases beyond with _ | ⟨x, _ | ⟨y, l⟩⟩ <;>
      simp only [List.nil_append, List.take_succ_cons, List.take_zero, List.take_nil,
        List.countP_cons, List.countP_nil, h0, List.length_nil] <;>
      (try cases isdigit x) <;> (try cases isdigit y) <;> simp
  · rcases beyond with _ | ⟨x, l⟩ <;>
      simp only [List.cons_append, List.nil_append, List.take_succ_cons, List.take_zero,
        List.take_nil, List.countP_cons, List.countP_nil, h0, List.length_cons,
        List.length_nil] <;>
      cases isdigit a <;> (try cases isdigit x) <;> simp
  · simp only [List.cons_append, List.nil_append, List.take_succ_cons, List.take_zero,
      List.countP_cons, List.countP_nil, h0, List.length_cons, List.length_nil]
    cases isdigit a <;> cases isdigit b <;> simp
  · simp only [List.cons_append, List.take_succ_cons, List.take_zero,
      List.countP_cons, List.countP_nil, List.length_cons, List.all_cons, List.all_nil]
    cases isdigit a <;> cases isdigit b <;> cases isdigit c <;> simp

/-- The digit count `p` is 3 exactly when three digits follow the last underscore, whatever
bytes follow the name in memory. -/
theorem fragmentDigits_eq_three_iff (name beyond : List Char) :
    fragmentDigits name beyond = 3 ↔ threeDigitsFollow name := by
  unfold fragmentDigits threeDigitsFollow
  by_cases h : Char.ofNat 95 ∈ name
  · obtain ⟨pre, seg, hs, hseg⟩ := exists_last_occurrence name _ h
    have hu : isdigit (Char.ofNat 95) = false := by decide
    rw [hs, strrchr_last pre seg _ hseg, lastSegment_last pre seg hseg]
    simp only [List.cons_append, List.take_succ_cons, List.countP_cons, hu]
    rw [← hs]
    simp only [h, true_and]
    have := countP_take3_eq_three seg beyond
    simpa using this
  · rw [strrchr_none name _ h]
    simp [h]

/-- C10 (as stated, refuted): with no output file present, the name "x_0012" is skipped at the
digit test although the 4 characters "0012" of its last segment hold 4 digits, and the name
"x_12a3" is not skipped (the call goes on to open the root) although the 4 characters "12a3"
hold exactly 3 digits. -/
theorem ExtractSingleWmo_skip_differs_from_spec :
    (ExtractSingleWmo bareEnv ⟨[], []⟩ "x_0012").exitPoint = WmoReturn.threeDigits ∧
    ¬ specSkipRule "x_0012".data ∧
    (ExtractSingleWmo bareEnv ⟨[], []⟩ "x_12a3").exitPoint = WmoReturn.rootNotOpened ∧
    specSkipRule "x_12a3".data := by
  decide

/-- C10 (amended): when no output file of the plain name exists yet, `ExtractSingleWmo` returns
at the digit test (success, before the root is opened, globals and output directory unchanged)
if and only if the plain name contains an underscore and the three characters that follow its
last underscore exist and are all digits, the underscore itself being the first of the 4
characters examined. -/
theorem ExtractSingleWmo_skips_iff_threeDigitsFollow (env : ExtractEnv) (st : ExtractState)
    (fname : String) (hnew : FileExists st.files (env.plainName fname) = false) :
    ((ExtractSingleWmo env st fname).exitPoint = WmoReturn.threeDigits ↔
      threeDigitsFollow (env.plainName fname).data) ∧
    (threeDigitsFollow (env.plainName fname).data →
      ExtractSingleWmo env st fname = ⟨true, WmoReturn.threeDigits, st⟩) := by
  have key := fragmentDigits_eq_three_iff (env.plainName fname).data env.beyond
  by_cases h3 : fragmentDigits (env.plainName fname).data env.beyond = 3
  · have hrule := key.mp h3
    have hres : ExtractSingleWmo env st fname = ⟨true, WmoReturn.threeDigits, st⟩ := by
      simp [ExtractSingleWmo, hnew, h3]
    exact ⟨⟨fun _ => hrule, fun _ => by rw [hres]⟩, fun _ => hres⟩
  · have hrule : ¬ threeDigitsFollow (env.plainName fname).data := fun hc => h3 (key.mpr hc)
    refine ⟨⟨fun hex => ?_, fun hc => absurd hc hrule⟩, fun hc => absurd hc hrule⟩
    exfalso
    unfold ExtractSingleWmo at hex
    simp only [hnew, h3, if_false, Bool.false_eq_true] at hex
    cases hroot : env.openRoot fname with
    | none => rw [hroot] at hex; simp at hex
    | some froot =>
      rw [hroot] at hex
      by_cases hw : env.canWrite (env.plainName fname) = true
      · simp [hw] at hex
      · simp [hw] at hex

/-- C10 (example): with no output file present, "x_0012" is skipped and "x_12a3" is not. -/
theorem ExtractSingleWmo_skips_iff_threeDigitsFollow_witness :
    FileExists (ExtractState.mk [] []).files (bareEnv.plainName "x_0012") = false ∧
    threeDigitsFollow (bareEnv.plainName "x_0012").data ∧
    ExtractSingleWmo bareEnv ⟨[], []⟩ "x_0012" = ⟨true, WmoReturn.threeDigits, ⟨[], []⟩⟩ ∧
    ¬ threeDigitsFollow (bareEnv.plainName "x_12a3").data :=
  ⟨by decide, by decide,
    (ExtractSingleWmo_skips_iff_threeDigitsFollow bareEnv ⟨[], []⟩ "x_0012" (by decide)).2
      (by decide),
    by decide⟩

/-! ## StorageNegotiator -/

/-- C7 (code at the failing input): with the single locale enUS installed, its storage opening
and reporting build number 0, no candidate locale yields a usable storage, yet the locale loop
leaves `FirstLocale = 0`, so `main` does not return 1 but goes on to the extraction with the
empty storage handle. -/
theorem probeLocales_build_zero_not_fatal :
    noUsableLocale buildZeroEnv ∧
    probeLocales buildZeroEnv = some (StartupResult.extraction 0 none) ∧
    probeLocales buildZeroEnv ≠ some (StartupResult.exit 1) := by
  decide

/-! ## BuildingExtractor: doodad references -/

theorem mem_setInsert (a b : Nat) (s : List Nat) : b ∈ setInsert a s ↔ b = a ∨ b ∈ s := by
  unfold setInsert
  by_cases h : a ∈ s
  · simp only [h, if_true]
    constructor
    · exact Or.inr
    · rintro (hb | hb)
      · exact hb ▸ h
      · exact hb
  · simp [h]

theorem addReferences_spec (valid : List Nat) (refs : List Nat) :
    ∀ doodads : WMODoodadData,
      (addReferences valid refs doodads).Spawns = doodads.Spawns ∧
      ∀ r, r ∈ (addReferences valid refs doodads).References ↔
        r ∈ doodads.References ∨
          (r ∈ refs ∧ r < doodads.Spawns.length ∧
            ∃ nameIndex, doodads.Spawns[r]? = some nameIndex ∧ nameIndex ∈ valid) := by
  induction refs with
  | nil => intro doodads; simp [addReferences]
  | cons g rest ih =>
    intro doodads
    by_cases hlen : doodads.Spawns.length ≤ g
    · simp only [addReferences, hlen, if_true]
      refine ⟨(ih doodads).1, fun r => ?_⟩
      rw [(ih doodads).2 r]
      constructor
      · rintro (h | ⟨h1, h2, h3⟩)
        · exact Or.inl h
        · exact Or.inr ⟨List.mem_cons_of_mem _ h1, h2, h3⟩
      · rintro (h | ⟨h1, h2, h3⟩)
        · exact Or.inl h
        · rcases List.mem_cons.mp h1 with h1 | h1
          · omega
          · exact Or.inr ⟨h1, h2, h3⟩
    · have hlt : g < doodads.Spawns.length := by omega
      have hget : doodads.Spawns[g]? = some doodads.Spawns[g] := List.getElem?_eq_getElem hlt
      by_cases hv : doodads.Spawns[g] ∈ valid
      · simp only [addReferences, hlen, if_false, hget, hv, if_true]
        obtain ⟨h1, h2⟩ := ih ⟨doodads.Spawns, setInsert g doodads.References⟩
        refine ⟨h1, fun r => ?_⟩
        rw [h2 r, mem_setInsert]
        constructor
        · rintro ((h | h) | ⟨h3, h4, h5⟩)
          · subst h
            exact Or.inr ⟨List.mem_cons_self _ _, hlt, _, hget, hv⟩
          · exact Or.inl h
          · exact Or.inr ⟨List.mem_cons_of_mem _ h3, h4, h5⟩
        · rintro (h | ⟨h3, h4, h5⟩)
          · exact Or.inl (Or.inr h)
          · rcases List.mem_cons.mp h3 with h3 | h3
            · exact Or.inl (Or.inl h3)
            · exact Or.inr ⟨h3, h4, h5⟩
      · simp only [addReferences, hlen, if_false, hget, hv]
        refine ⟨(ih doodads).1, fun r => ?_⟩
        rw [(ih doodads).2 r]
        constructor
        · rintro (h | ⟨h1, h2, h3⟩)
          · exact Or.inl h
          · exact Or.inr ⟨List.mem_cons_of_mem _ h1, h2, h3⟩
        · rintro (h | ⟨h1, h2, h3⟩)
          · exact Or.inl h
          · rcases List.mem_cons.mp h1 with h1 | h1
            · subst h1
              obtain ⟨ni, hni, hmem⟩ := h3
              rw [hget] at hni
              exact absurd (Option.some.inj hni ▸ hmem) hv
            · exact Or.inr ⟨h1, h2, h3⟩

theorem groupLoop_spec (valid : List Nat) (groups : List (Option WMOGroup)) :
    ∀ s : GroupLoopState, (∀ g ∈ groups, g ≠ none) →
      (groupLoop valid groups s).file_ok = s.file_ok ∧
      (groupLoop valid groups s).doodads.Spawns = s.doodads.Spawns ∧
      ∀ r, r ∈ (groupLoop valid groups s).doodads.References ↔
        r ∈ s.doodads.References ∨
          (r ∈ allGroupReferences groups ∧ r < s.doodads.Spawns.length ∧
            ∃ nameIndex, s.doodads.Spawns[r]? = some nameIndex ∧ nameIndex ∈ valid) := by
  induction groups with
  | nil => intro s _; simp [groupLoop, allGroupReferences]
  | cons g rest ih =>
    intro s hall
    cases g with
    | none => exact absurd rfl (hall none (List.mem_cons_self _ _))
    | some fgroup =>
      obtain ⟨a1, a2⟩ := addReferences_spec valid fgroup.DoodadReferences s.doodads
      obtain ⟨h1, h2, h3⟩ := ih
        ⟨s.output ++ fgroup.written, s.Wmo_nVertices + fgroup.nVertices,
          addReferences valid fgroup.DoodadReferences s.doodads, s.file_ok⟩
        (fun q hq => hall q (List.mem_cons_of_mem _ hq))
      have hcons : allGroupReferences (some fgroup :: rest) =
          fgroup.DoodadReferences ++ allGroupReferences rest := by
        simp [allGroupReferences]
      simp only [groupLoop]
      refine ⟨h1, h2.trans a1, fun r => ?_⟩
      have h3r := h3 r
      simp only [a1] at h3r
      rw [h3r, a2 r, hcons, List.mem_append]
      constructor
      · rintro ((h | ⟨h4, h5⟩) | ⟨h4, h5⟩)
        · exact Or.inl h
        · exact Or.inr ⟨Or.inl h4, h5⟩
        · exact Or.inr ⟨Or.inr h4, h5⟩
      · rintro (h | ⟨h4 | h4, h5⟩)
        · exact Or.inl (Or.inl h)
        · exact Or.inl (Or.inr ⟨h4, h5⟩)
        · exact Or.inr ⟨h4, h5⟩

theorem tableFind_tableSet_self {α : Type} (name : String) (v : α) (tbl : List (String × α)) :
    tableFind (tableSet name v tbl) name = some v := by
  induction tbl with
  | nil => simp [tableSet, tableFind]
  | cons e t ih =>
    obtain ⟨n1, v1⟩ := e
    by_cases h : n1 = name
    · simp [tableSet, tableFind, h]
    · simp [tableSet, tableFind, h, ih]

/-- C8: when no output file of the plain name exists, the name is not skipped, the root opens
with an empty reference set, the output can be written and every group opens, the doodad data
stored under the plain name keeps the spawns of the root and its reference set holds exactly
the group doodad references `r`, over all groups, that are smaller than the number of spawns and
whose spawn has a name index in the valid doodad names of the root. -/
theorem ExtractSingleWmo_references (env : ExtractEnv) (st : ExtractState) (fname : String)
    (froot : WMORoot) (hnew : FileExists st.files (env.plainName fname) = false)
    (hname : fragmentDigits (env.plainName fname).data env.beyond ≠ 3)
    (hroot : env.openRoot fname = some froot)
    (hwrite : env.canWrite (env.plainName fname) = true)
    (hgroups : ∀ g ∈ froot.groups, g ≠ none)
    (hfresh : froot.DoodadData.References = []) :
    ∃ doodads,
      tableFind (ExtractSingleWmo env st fname).state.WmoDoodads (env.plainName fname) =
        some doodads ∧
      doodads.Spawns = froot.DoodadData.Spawns ∧
      ∀ r, r ∈ doodads.References ↔
        (r ∈ allGroupReferences froot.groups ∧ acceptedReference froot r) := by
  obtain ⟨_, h2, h3⟩ := groupLoop_spec froot.ValidDoodadNames froot.groups
    ⟨froot.header, 0, froot.DoodadData, true⟩ hgroups
  refine ⟨(groupLoop froot.ValidDoodadNames froot.groups
    ⟨froot.header, 0, froot.DoodadData, true⟩).doodads, ?_, h2, fun r => ?_⟩
  · simp only [ExtractSingleWmo, hnew, hname, hroot, hwrite, if_false, Bool.false_eq_true,
      Bool.not_true]
    exact tableFind_tableSet_self _ _ _
  · rw [h3 r]
    simp only [hfresh, List.not_mem_nil, false_or]
    rfl

/-- C8 (example): for a root with spawns of name indices 10, 20, 30, valid names 10 and 30, and
groups referring to spawns 0, 1, 5 and 2, 0, the stored reference set holds 0 and 2 but neither
1 (invalid name) nor 5 (outside the spawn list). -/
theorem ExtractSingleWmo_references_witness :
    ∃ doodads,
      tableFind (ExtractSingleWmo sampleEnv ⟨[], []⟩ "a.wmo").state.WmoDoodads "a.wmo" =
        some doodads ∧
      0 ∈ doodads.References ∧ 2 ∈ doodads.References ∧
      1 ∉ doodads.References ∧ 5 ∉ doodads.References := by
  obtain ⟨doodads, h1, _, h3⟩ := ExtractSingleWmo_references sampleEnv ⟨[], []⟩ "a.wmo"
    sampleRoot (by decide) (by decide) rfl rfl (by decide) rfl
  refine ⟨doodads, h1, (h3 0).mpr ?_, (h3 2).mpr ?_, fun h => ?_, fun h => ?_⟩
  · exact ⟨by decide, by decide, 10, by decide, by decide⟩
  · exact ⟨by decide, by decide, 30, by decide, by decide⟩
  · obtain ⟨_, _, ni, hni, hmem⟩ := (h3 1).mp h
    have : ni = 20 := by
      have h20 : sampleRoot.DoodadData.Spawns[1]? = some 20 := by decide
      rw [h20] at hni
      exact (Option.some.inj hni).symm
    subst this
    exact absurd hmem (by decide)
  · obtain ⟨_, hlt, _⟩ := (h3 5).mp h
    exact absurd hlt (by decide)

/-! ## TileExtractor -/

theorem getWDT_cached (env : TileEnv) (st : ParsState) (m : Nat) (h : m ∈ st.wdts) :
    getWDT env st m = (st, true) := by
  simp [getWDT, h]

theorem getWDT_tiles (env : TileEnv) (st : ParsState) (m : Nat) :
    (getWDT env st m).1.tiles = st.tiles := by
  unfold getWDT
  split_ifs <;> rfl

theorem getWDT_wdts (env : TileEnv) (st : ParsState) (m : Nat) :
    (getWDT env st m).1.wdts =
      if m ∈ st.wdts then st.wdts else if env.wdtInit m = true then m :: st.wdts else st.wdts := by
  unfold getWDT
  split_ifs <;> rfl

theorem getWDT_inits (env : TileEnv) (st : ParsState) (m : Nat) :
    (getWDT env st m).1.inits =
      if m ∈ st.wdts then st.inits else st.inits ++ [(m, env.wdtInit m)] := by
  unfold getWDT
  split_ifs with h1 h2
  · rfl
  · simp [h2]
  · simp [h2]

theorem getWDT_handle (env : TileEnv) (st : ParsState) (m : Nat) :
    (getWDT env st m).2 = (decide (m ∈ st.wdts) || env.wdtInit m) := by
  unfold getWDT
  split_ifs with h1 h2
  · simp [h1]
  · simp [h2]
  · simp [h1, h2]

theorem getWDT_map_ids (env : TileEnv) (st : ParsState) (m : Nat) :
    (getWDT env st m).1.map_ids = st.map_ids ∨
      (mapFind st.map_ids m = none ∧
        (getWDT env st m).1.map_ids = mapSet m ⟨"", 0⟩ st.map_ids) := by
  unfold getWDT
  cases hm : mapFind st.map_ids m with
  | none => split_ifs <;> simp
  | some v => split_ifs <;> simp

theorem getWDT_map_ids_present (env : TileEnv) (st : ParsState) (m : Nat) (v : map_info)
    (hm : mapFind st.map_ids m = some v) : (getWDT env st m).1.map_ids = st.map_ids := by
  rcases getWDT_map_ids env st m with h | ⟨h, _⟩
  · exact h
  · rw [hm] at h; exact Option.noConfusion h

theorem getWDT_result (env : TileEnv) (st : ParsState) (m : Nat) (hc : cacheSound env st) :
    (getWDT env st m).2 = env.wdtInit m := by
  rw [getWDT_handle]
  by_cases h : m ∈ st.wdts
  · simp [h, hc m h]
  · simp [h]

theorem getWDT_cacheSound (env : TileEnv) (st : ParsState) (m : Nat) (hc : cacheSound env st) :
    cacheSound env (getWDT env st m).1 := by
  intro w hw
  rw [getWDT_wdts] at hw
  split_ifs at hw with h1 h2
  · exact hc w hw
  · rcases List.mem_cons.mp hw with h | h
    · exact h ▸ h2
    · exact hc w h
  · exact hc w hw

/-- How one iteration may change `map_ids`: not at all, or by the value-initialised entry of the
parent id when that id is absent. -/
theorem processMap_map_ids (env : TileEnv) (st : ParsState) (k : Nat) (info v : map_info)
    (hk : mapFind st.map_ids k = some v) :
    (processMap env st k info).map_ids = st.map_ids ∨
      (0 ≤ info.parent_id ∧ mapFind st.map_ids info.parent_id.toNat = none ∧
        (processMap env st k info).map_ids = mapSet info.parent_id.toNat ⟨"", 0⟩ st.map_ids) := by
  have h1 := getWDT_map_ids_present env st k v hk
  unfold processMap
  by_cases hw : (getWDT env st k).2 = true
  · by_cases hp : 0 ≤ info.parent_id
    · simp only [hw, hp, if_true]
      rcases getWDT_map_ids env (getWDT env st k).1 info.parent_id.toNat with h | ⟨h2, h3⟩
      · left; rw [h, h1]
      · right
        rw [h1] at h2 h3
        exact ⟨trivial, h2, h3⟩
    · simp only [hw, hp, if_true, if_false]
      exact Or.inl h1
  · simp only [hw, if_false, Bool.false_eq_true]
    exact Or.inl h1

theorem processMap_cacheSound (env : TileEnv) (st : ParsState) (k : Nat) (info : map_info)
    (hc : cacheSound env st) : cacheSound env (processMap env st k info) := by
  have c1 := getWDT_cacheSound env st k hc
  have c2 := getWDT_cacheSound env (getWDT env st k).1 info.parent_id.toNat c1
  unfold processMap
  split_ifs
  · exact c2
  · exact c1
  · exact c1

theorem processMap_tiles (env : TileEnv) (st : ParsState) (k : Nat) (info : map_info)
    (hc : cacheSound env st) :
    (processMap env st k info).tiles = st.tiles ++ mapTiles env k info := by
  have c1 := getWDT_cacheSound env st k hc
  have r1 := getWDT_result env st k hc
  have r2 := getWDT_result env (getWDT env st k).1 info.parent_id.toNat c1
  unfold processMap mapTiles
  rw [r1]
  by_cases hw : env.wdtInit k = true
  · by_cases hp : 0 ≤ info.parent_id
    · simp only [hw, hp, if_true, getWDT_tiles, r2]
    · simp only [hw, hp, if_true, if_false, getWDT_tiles]
  · simp only [hw, if_false, Bool.false_eq_true, getWDT_tiles, List.append_nil]

theorem tileStep_cur (env : TileEnv) (c p : Nat) (b : Bool) (x y : Nat) :
    ∀ e ∈ tileStep env c p b x y, e.cur = c := by
  intro e he
  unfold tileStep at he
  simp only [List.mem_append, List.mem_singleton, List.mem_ite_nil_right,
    List.mem_cons, List.not_mem_nil, or_false] at he
  rcases he with (h | h) | h
  · rw [h]; rfl
  · rw [h.2]; rfl
  · rcases h.2 with h | h
    · rw [h]; rfl
    · rw [h.2]; rfl

theorem mem_tileGrid (env : TileEnv) (c p : Nat) (b : Bool) (e : TileEvent) :
    e ∈ tileGrid env c p b ↔ ∃ x, x < 64 ∧ ∃ y, y < 64 ∧ e ∈ tileStep env c p b x y := by
  simp [tileGrid, List.mem_flatMap, List.mem_range]

theorem tileGrid_cur (env : TileEnv) (c p : Nat) (b : Bool) :
    ∀ e ∈ tileGrid env c p b, e.cur = c := by
  intro e he
  obtain ⟨x, _, y, _, h⟩ := (mem_tileGrid env c p b e).mp he
  exact tileStep_cur env c p b x y e h

theorem mapTiles_cur (env : TileEnv) (k : Nat) (info : map_info) :
    ∀ e ∈ mapTiles env k info, e.cur = k := by
  intro e he
  unfold mapTiles at he
  split_ifs at he
  · exact tileGrid_cur _ _ _ _ e he
  · exact tileGrid_cur _ _ _ _ e he
  · simp at he

theorem eventsOf_append (k : Nat) (a b : List TileEvent) :
    eventsOf k (a ++ b) = eventsOf k a ++ eventsOf k b := by
  simp [eventsOf]

theorem eventsOf_mapTiles_self (env : TileEnv) (k : Nat) (info : map_info) :
    eventsOf k (mapTiles env k info) = mapTiles env k info := by
  unfold eventsOf
  rw [List.filter_eq_self]
  intro e he
  simp [mapTiles_cur env k info e he]

theorem eventsOf_mapTiles_other (env : TileEnv) (k q : Nat) (info : map_info) (h : q ≠ k) :
    eventsOf q (mapTiles env k info) = [] := by
  unfold eventsOf
  rw [List.filter_eq_nil_iff]
  intro e he
  simp [mapTiles_cur env k info e he, h.symm]

theorem weightFrom_cons (lo : Nat) (e : Nat × map_info) (t : MapIds) :
    weightFrom lo (e :: t) = (if lo ≤ e.1 then entryWeight e else 0) + weightFrom lo t := by
  unfold weightFrom
  by_cases h : lo ≤ e.1
  · simp [List.filter_cons, h]
  · simp [List.filter_cons, h]

theorem entryWeight_pos (e : Nat × map_info) : 1 ≤ entryWeight e := by
  unfold entryWeight
  split_ifs <;> omega

theorem weightFrom_mono (ids : MapIds) (lo1 lo2 : Nat) (h : lo1 ≤ lo2) :
    weightFrom lo2 ids ≤ weightFrom lo1 ids := by
  induction ids with
  | nil => simp [weightFrom]
  | cons e t ih =>
    rw [weightFrom_cons, weightFrom_cons]
    by_cases h2 : lo2 ≤ e.1
    · have h1 : lo1 ≤ e.1 := le_trans h h2
      simp only [h1, h2, if_true]
      omega
    · simp only [h2, if_false]
      omega

theorem weightFrom_present (ids : MapIds) (lo k : Nat) (v : map_info)
    (hk : mapFind ids k = some v) (hlo : lo ≤ k) : 1 ≤ weightFrom lo ids := by
  induction ids with
  | nil => simp [mapFind] at hk
  | cons e t ih =>
    obtain ⟨k1, v1⟩ := e
    rw [weightFrom_cons]
    by_cases h : k = k1
    · subst h
      have := entryWeight_pos (k, v1)
      simp only [hlo, if_true]
      omega
    · simp only [mapFind, h, if_false] at hk
      have := ih hk
      omega

theorem weightFrom_find (ids : MapIds) (lo k0 : Nat) (info0 : map_info)
    (h : ids.find? (fun e => decide (lo ≤ e.1)) = some (k0, info0)) :
    weightFrom (k0 + 1) ids + entryWeight (k0, info0) ≤ weightFrom lo ids := by
  induction ids with
  | nil => simp at h
  | cons e t ih =>
    obtain ⟨k1, v1⟩ := e
    rw [weightFrom_cons, weightFrom_cons]
    by_cases h1 : lo ≤ k1
    · simp only [List.find?_cons, h1, decide_True, Option.some.injEq, Prod.mk.injEq] at h
      obtain ⟨rfl, rfl⟩ := h
      have hn : ¬ (k1 + 1 ≤ k1) := by omega
      have := weightFrom_mono t lo (k1 + 1) (by omega)
      simp only [hn, if_false, h1, if_true]
      omega
    · simp only [List.find?_cons, h1, decide_False] at h
      have hk0 : lo ≤ k0 := by
        have := List.find?_some h
        simpa using this
      have hn : ¬ (k0 + 1 ≤ k1) := by omega
      have := ih h
      simp only [hn, h1, if_false]
      omega

theorem weightFrom_mapSet (ids : MapIds) (lo p : Nat) (d : map_info)
    (hp : mapFind ids p = none) :
    weightFrom lo (mapSet p d ids) =
      weightFrom lo ids + (if lo ≤ p then entryWeight (p, d) else 0) := by
  induction ids with
  | nil =>
    have h0 : weightFrom lo [] = 0 := by simp [weightFrom]
    simp only [mapSet, weightFrom_cons, h0]
    omega
  | cons e t ih =>
    obtain ⟨k1, v1⟩ := e
    by_cases h : p = k1
    · simp [mapFind, h] at hp
    · simp only [mapFind, h, if_false] at hp
      by_cases h1 : p < k1
      · simp only [mapSet, h1, if_true, weightFrom_cons]
        omega
      · simp only [mapSet, h1, h, if_false, weightFrom_cons, ih hp]
        omega

theorem weightFrom_le_length (ids : MapIds) (lo : Nat) : weightFrom lo ids ≤ 2 * ids.length := by
  induction ids with
  | nil => simp [weightFrom]
  | cons e t ih =>
    rw [weightFrom_cons, List.length_cons]
    have : entryWeight e ≤ 2 := by unfold entryWeight; split_ifs <;> omega
    split_ifs <;> omega

/-- The entry the iterator points to: the first one with key at least `lo` is the entry of the
least such key. -/
theorem find_first (ids : MapIds) (hs : sortedKeys ids) (lo k0 : Nat) (info0 : map_info)
    (h : ids.find? (fun e => decide (lo ≤ e.1)) = some (k0, info0)) :
    lo ≤ k0 ∧ mapFind ids k0 = some info0 ∧
      ∀ k v, mapFind ids k = some v → lo ≤ k → k0 ≤ k := by
  induction ids with
  | nil => simp at h
  | cons e t ih =>
    obtain ⟨k1, v1⟩ := e
    unfold sortedKeys at hs ih
    simp only [List.map_cons, List.pairwise_cons] at hs
    by_cases h1 : lo ≤ k1
    · simp only [List.find?_cons, h1, decide_True, Option.some.injEq, Prod.mk.injEq] at h
      obtain ⟨rfl, rfl⟩ := h
      refine ⟨h1, by simp [mapFind], ?_⟩
      intro k v hk _
      by_cases hkk : k = k1
      · omega
      · simp only [mapFind, hkk, if_false] at hk
        have hm : k ∈ t.map Prod.fst := by
          by_contra hc
          rw [(mapFind_none_iff t k).mpr hc] at hk
          exact Option.noConfusion hk
        have := hs.1 k hm
        omega
    · simp only [List.find?_cons, h1, decide_False] at h
      obtain ⟨i1, i2, i3⟩ := ih hs.2 h
      have hne : ¬ (k0 = k1) := by omega
      refine ⟨i1, by simp only [mapFind, hne, if_false]; exact i2, ?_⟩
      intro k v hk hlo
      have hkk : ¬ (k = k1) := by omega
      simp only [mapFind, hkk, if_false] at hk
      exact i3 k v hk hlo

theorem find_none (ids : MapIds) (lo : Nat)
    (h : ids.find? (fun e => decide (lo ≤ e.1)) = none) :
    ∀ k v, mapFind ids k = some v → k < lo := by
  induction ids with
  | nil => intro k v hk; simp [mapFind] at hk
  | cons e t ih =>
    obtain ⟨k1, v1⟩ := e
    intro k v hk
    by_cases h1 : lo ≤ k1
    · simp [List.find?_cons, h1] at h
    · simp only [List.find?_cons, h1, decide_False] at h
      by_cases hkk : k = k1
      · omega
      · simp only [mapFind, hkk, if_false] at hk
        exact ih h k v hk

/-- One iteration keeps `map_ids` sorted, keeps every entry present, and lowers the weight of
what is left to visit. -/
theorem processMap_step (env : TileEnv) (st : ParsState) (lo k0 : Nat) (info0 : map_info)
    (hs : sortedKeys st.map_ids)
    (h : st.map_ids.find? (fun e => decide (lo ≤ e.1)) = some (k0, info0)) :
    sortedKeys (processMap env st k0 info0).map_ids ∧
    (∀ q v, mapFind st.map_ids q = some v →
      mapFind (processMap env st k0 info0).map_ids q = some v) ∧
    weightFrom (k0 + 1) (processMap env st k0 info0).map_ids + 1 ≤ weightFrom lo st.map_ids := by
  obtain ⟨_, hk0, _⟩ := find_first st.map_ids hs lo k0 info0 h
  have hw := weightFrom_find st.map_ids lo k0 info0 h
  have hpos := entryWeight_pos (k0, info0)
  rcases processMap_map_ids env st k0 info0 info0 hk0 with he | ⟨hp, habs, he⟩
  · rw [he]
    exact ⟨hs, fun q v hq => hq, by omega⟩
  · rw [he]
    refine ⟨sortedKeys_mapSet _ _ _ hs, ?_, ?_⟩
    · intro q v hq
      have hne : q ≠ info0.parent_id.toNat := by
        intro e
        rw [e, habs] at hq
        exact Option.noConfusion hq
      rw [mapFind_mapSet_other _ _ _ _ hne]
      exact hq
    · rw [weightFrom_mapSet _ _ _ _ habs]
      by_cases hlt : k0 + 1 ≤ info0.parent_id.toNat
      · have h2 : entryWeight (k0, info0) = 2 := by
          unfold entryWeight
          have : 0 < info0.parent_id := by omega
          simp [this]
        have h1 : entryWeight (info0.parent_id.toNat, (⟨"", 0⟩ : map_info)) = 1 := by
          simp [entryWeight]
        simp only [hlt, if_true, h1]
        omega
      · simp only [hlt, if_false]
        omega

/-- With fuel at least the weight of what is left to visit, the loop ends because no entry is
left, so more fuel gives the same result. -/
theorem parsLoop_fuel (env : TileEnv) :
    ∀ (fuel extra lo : Nat) (st : ParsState), sortedKeys st.map_ids →
      weightFrom lo st.map_ids ≤ fuel →
      parsLoop env (fuel + extra) lo st = parsLoop env fuel lo st := by
  intro fuel
  induction fuel with
  | zero =>
    intro extra lo st _ hw
    have hnone : st.map_ids.find? (fun e => decide (lo ≤ e.1)) = none := by
      cases hf : st.map_ids.find? (fun e => decide (lo ≤ e.1)) with
      | none => rfl
      | some e =>
        obtain ⟨k0, info0⟩ := e
        have := weightFrom_find st.map_ids lo k0 info0 hf
        have := entryWeight_pos (k0, info0)
        omega
    cases extra with
    | zero => rfl
    | succ n =>
      simp only [Nat.zero_add, parsLoop, hnone]
  | succ fuel ih =>
    intro extra lo st hs hw
    have e1 : fuel + 1 + extra = (fuel + extra) + 1 := by omega
    rw [e1]
    simp only [parsLoop]
    cases hf : st.map_ids.find? (fun e => decide (lo ≤ e.1)) with
    | none => rfl
    | some e =>
      obtain ⟨k0, info0⟩ := e
      obtain ⟨s1, _, s3⟩ := processMap_step env st lo k0 info0 hs hf
      exact ih extra (k0 + 1) _ s1 (by omega)

/-- The tile calls of a run of the loop, map by map: nothing is added for a map behind the
iterator, and each entry ahead of it contributes exactly the calls of its own iteration. -/
theorem parsLoop_events (env : TileEnv) :
    ∀ (fuel lo : Nat) (st : ParsState), sortedKeys st.map_ids → cacheSound env st →
      weightFrom lo st.map_ids ≤ fuel →
      ∀ k, (k < lo → eventsOf k (parsLoop env fuel lo st).tiles = eventsOf k st.tiles) ∧
        (∀ info, lo ≤ k → mapFind st.map_ids k = some info →
          eventsOf k (parsLoop env fuel lo st).tiles =
            eventsOf k st.tiles ++ mapTiles env k info) := by
  intro fuel
  induction fuel with
  | zero =>
    intro lo st _ _ hw k
    refine ⟨fun _ => rfl, fun info hlo hk => ?_⟩
    have := weightFrom_present st.map_ids lo k info hk hlo
    omega
  | succ fuel ih =>
    intro lo st hs hc hw k
    simp only [parsLoop]
    cases hf : st.map_ids.find? (fun e => decide (lo ≤ e.1)) with
    | none =>
      refine ⟨fun _ => rfl, fun info hlo hk => ?_⟩
      have := find_none st.map_ids lo hf k info hk
      omega
    | some e =>
      obtain ⟨k0, info0⟩ := e
      obtain ⟨s1, s2, s3⟩ := processMap_step env st lo k0 info0 hs hf
      obtain ⟨f1, f2, f3⟩ := find_first st.map_ids hs lo k0 info0 hf
      have hc1 := processMap_cacheSound env st k0 info0 hc
      have ht := processMap_tiles env st k0 info0 hc
      obtain ⟨i1, i2⟩ := ih (k0 + 1) (processMap env st k0 info0) s1 hc1 (by omega) k
      simp only
      refine ⟨fun hlt => ?_, fun info hlo hk => ?_⟩
      · rw [i1 (by omega), ht, eventsOf_append,
          eventsOf_mapTiles_other env k0 k info0 (by omega), List.append_nil]
      · by_cases hkk : k = k0
        · subst hkk
          rw [f2] at hk
          have hinfo : info0 = info := Option.some.inj hk
          subst hinfo
          rw [i1 (by omega), ht, eventsOf_append, eventsOf_mapTiles_self]
        · have hge : k0 ≤ k := f3 k info hk hlo
          rw [i2 info (by omega) (s2 k info hk), ht, eventsOf_append,
            eventsOf_mapTiles_other env k0 k info0 hkk, List.append_nil]

/-- The tile calls of `ParsMapFiles` for a map of the registry are those of its iteration. -/
theorem ParsMapFiles_events (env : TileEnv) (ids : MapIds) (hs : sortedKeys ids) (k : Nat)
    (info : map_info) (hk : mapFind ids k = some info) :
    eventsOf k (ParsMapFiles env ids).tiles = mapTiles env k info := by
  have h := (parsLoop_events env (2 * ids.length + 1) 0 ⟨ids, [], [], []⟩ hs
    (fun w hw => by simp at hw)
    (by have := weightFrom_le_length ids 0; simp only; omega) k).2 info (Nat.zero_le _) hk
  unfold ParsMapFiles
  rw [h]
  simp [eventsOf]

theorem mem_eventsOf (k : Nat) (tr : List TileEvent) (e : TileEvent) :
    e ∈ eventsOf k tr ↔ e ∈ tr ∧ e.cur = k := by
  simp [eventsOf, List.mem_filter]

theorem init_mem_tileStep (env : TileEnv) (c p : Nat) (b : Bool) (x y x1 y1 mn orig : Nat)
    (ok : Bool) :
    TileEvent.init c true x y mn orig ok ∈ tileStep env c p b x1 y1 ↔
      x1 = x ∧ y1 = y ∧ (env.hasADT c x y && env.adtInit c x y c c) = false ∧ b = true ∧
        env.hasADT p x y = true ∧ mn = c ∧ orig = p ∧ ok = env.adtInit p x y c p := by
  unfold tileStep
  simp only [List.mem_append, List.mem_singleton, List.mem_ite_nil_right, reduceCtorEq,
    TileEvent.init.injEq, false_or, and_false, Bool.true_eq_false, false_and, true_and,
    Bool.and_eq_true, Bool.not_eq_true']
  constructor
  · rintro ⟨⟨h1, h2⟩, h3, rfl, rfl, rfl, rfl, rfl⟩
    exact ⟨rfl, rfl, h1, h2, h3, rfl, rfl, rfl⟩
  · rintro ⟨rfl, rfl, h1, h2, h3, rfl, rfl, rfl⟩
    exact ⟨⟨h1, h2⟩, h3, rfl, rfl, rfl, rfl, rfl⟩

theorem getMap_mem_tileStep (env : TileEnv) (c p : Nat) (b : Bool) (x y x1 y1 : Nat)
    (found : Bool) :
    TileEvent.GetMap c true x y found ∈ tileStep env c p b x1 y1 →
      (env.hasADT c x y && env.adtInit c x y c c) = false := by
  unfold tileStep
  simp only [List.mem_append, List.mem_singleton, List.mem_ite_nil_right, reduceCtorEq,
    TileEvent.GetMap.injEq, false_or, and_false, Bool.true_eq_false, false_and, true_and,
    Bool.and_eq_true, Bool.not_eq_true', or_false]
  rintro ⟨⟨h1, _⟩, rfl, rfl, _⟩
  exact h1
/-- C5: in `ParsMapFiles`, for every map `k` of the registry whose own world definition loads
and whose parent world definition loads, and for every tile coordinate `(x, y)` of the 64 x 64
grid: if the own tile is absent or its conversion fails and the parent handle has the tile, the
parent tile is converted with the current map `k` as `map_num` (the owner of the output); every
conversion of a parent tile for `k` carries `k` as owner and the parent id as original map; and
when the own tile converts successfully no call is made on the parent handle for that
coordinate. -/
theorem ParsMapFiles_parent_fallback (env : TileEnv) (ids : MapIds) (hs : sortedKeys ids)
    (k : Nat) (info : map_info) (hk : mapFind ids k = some info)
    (hown : env.wdtInit k = true) (hpar : 0 ≤ info.parent_id)
    (hpw : env.wdtInit info.parent_id.toNat = true) (x y : Nat) (hx : x < 64) (hy : y < 64) :
    ((env.hasADT k x y && env.adtInit k x y k k) = false →
      env.hasADT info.parent_id.toNat x y = true →
      TileEvent.init k true x y k info.parent_id.toNat
        (env.adtInit info.parent_id.toNat x y k info.parent_id.toNat) ∈
          (ParsMapFiles env ids).tiles) ∧
    (∀ mn orig ok, TileEvent.init k true x y mn orig ok ∈ (ParsMapFiles env ids).tiles →
      mn = k ∧ orig = info.parent_id.toNat) ∧
    ((env.hasADT k x y && env.adtInit k x y k k) = true →
      (∀ found, TileEvent.GetMap k true x y found ∉ (ParsMapFiles env ids).tiles) ∧
      ∀ mn orig ok, TileEvent.init k true x y mn orig ok ∉ (ParsMapFiles env ids).tiles) := by
  have hev := ParsMapFiles_events env ids hs k info hk
  have hgrid : mapTiles env k info = tileGrid env k info.parent_id.toNat true := by
    simp [mapTiles, hown, hpar, hpw]
  rw [hgrid] at hev
  have hmem : ∀ e : TileEvent, e.cur = k →
      (e ∈ (ParsMapFiles env ids).tiles ↔
        ∃ x1, x1 < 64 ∧ ∃ y1, y1 < 64 ∧ e ∈ tileStep env k info.parent_id.toNat true x1 y1) := by
    intro e he
    rw [← mem_tileGrid, ← hev, mem_eventsOf]
    simp [he]
  refine ⟨?_, ?_, ?_⟩
  · intro hfail hpt
    rw [hmem (TileEvent.init k true x y _ _ _) rfl]
    exact ⟨x, hx, y, hy, (init_mem_tileStep env k _ true x y x y _ _ _).mpr
      ⟨rfl, rfl, hfail, rfl, hpt, rfl, rfl, rfl⟩⟩
  · intro mn orig ok h
    obtain ⟨x1, _, y1, _, h1⟩ := (hmem (TileEvent.init k true x y mn orig ok) rfl).mp h
    obtain ⟨_, _, _, _, _, h6, h7, _⟩ := (init_mem_tileStep env k _ true x y x1 y1 _ _ _).mp h1
    exact ⟨h6, h7⟩
  · intro hok
    refine ⟨fun found h => ?_, fun mn orig ok h => ?_⟩
    · obtain ⟨x1, _, y1, _, h1⟩ := (hmem (TileEvent.GetMap k true x y found) rfl).mp h
      have := getMap_mem_tileStep env k _ true x y x1 y1 found h1
      rw [hok] at this
      exact Bool.noConfusion this
    · obtain ⟨x1, _, y1, _, h1⟩ := (hmem (TileEvent.init k true x y mn orig ok) rfl).mp h
      obtain ⟨_, _, h3, _⟩ := (init_mem_tileStep env k _ true x y x1 y1 _ _ _).mp h1
      rw [hok] at h3
      exact Bool.noConfusion h3

/-- C5 (example): child map 1 has no tile (5,5), its parent map 0 has it; the run converts the
parent tile with map 1 as owner and original map 0. -/
theorem ParsMapFiles_parent_fallback_witness :
    sortedKeys childMaps ∧ mapFind childMaps 1 = some ⟨"child", 0⟩ ∧
    fallbackEnv.hasADT 1 5 5 = false ∧ fallbackEnv.hasADT 0 5 5 = true ∧
    TileEvent.init 1 true 5 5 1 0 true ∈ (ParsMapFiles fallbackEnv childMaps).tiles ∧
    (∀ mn orig ok, TileEvent.init 1 true 5 5 mn orig ok ∈
      (ParsMapFiles fallbackEnv childMaps).tiles → mn = 1 ∧ orig = 0) :=
  have h := ParsMapFiles_parent_fallback fallbackEnv childMaps (by decide) 1 ⟨"child", 0⟩
    (by decide) (by decide) (by decide) (by decide) 5 5 (by decide) (by decide)
  ⟨by decide, by decide, by decide, by decide, h.1 (by decide) (by decide), h.2.1⟩

theorem getWDT_initsMatch (env : TileEnv) (st : ParsState) (m : Nat)
    (h : initsMatch st.wdts st.inits) :
    initsMatch (getWDT env st m).1.wdts (getWDT env st m).1.inits := by
  rw [getWDT_wdts, getWDT_inits]
  unfold initsMatch at h ⊢
  by_cases h1 : m ∈ st.wdts
  · simp only [h1, if_true]
    exact h
  · by_cases h2 : env.wdtInit m = true
    · rw [if_neg h1, if_neg h1, if_pos h2, h2]
      refine ⟨?_, List.nodup_cons.mpr ⟨h1, h.2⟩⟩
      rw [List.filter_append, List.map_append, h.1]
      simp
    · have h3 : env.wdtInit m = false := by simpa using h2
      rw [if_neg h1, if_neg h1, if_neg h2, h3]
      refine ⟨?_, h.2⟩
      rw [List.filter_append, List.map_append, h.1]
      simp

theorem processMap_initsMatch (env : TileEnv) (st : ParsState) (k : Nat) (info : map_info)
    (h : initsMatch st.wdts st.inits) :
    initsMatch (processMap env st k info).wdts (processMap env st k info).inits := by
  have c1 := getWDT_initsMatch env st k h
  have c2 := getWDT_initsMatch env (getWDT env st k).1 info.parent_id.toNat c1
  unfold processMap
  split_ifs
  · exact c2
  · exact c1
  · exact c1

theorem parsLoop_initsMatch (env : TileEnv) :
    ∀ (fuel lo : Nat) (st : ParsState), initsMatch st.wdts st.inits →
      initsMatch (parsLoop env fuel lo st).wdts (parsLoop env fuel lo st).inits := by
  intro fuel
  induction fuel with
  | zero => intro lo st h; exact h
  | succ fuel ih =>
    intro lo st h
    simp only [parsLoop]
    cases st.map_ids.find? (fun e => decide (lo ≤ e.1)) with
    | none => exact h
    | some e => exact ih _ _ (processMap_initsMatch env st e.1 e.2 h)

theorem count_success (m : Nat) (inits : List (Nat × Bool)) :
    List.count (m, true) inits = List.count m ((inits.filter (fun e => e.2)).map Prod.fst) := by
  induction inits with
  | nil => rfl
  | cons e t ih =>
    obtain ⟨a, b⟩ := e
    cases b with
    | false =>
      have hf : List.filter (fun e : Nat × Bool => e.2) ((a, false) :: t) =
          List.filter (fun e => e.2) t := by simp
      have hne : ((a, false) == (m, true)) = false := by simp
      rw [hf, List.count_cons, ih, hne]
      simp
    | true =>
      have hf : List.filter (fun e : Nat × Bool => e.2) ((a, true) :: t) =
          (a, true) :: List.filter (fun e => e.2) t := by simp
      rw [hf, List.map_cons, List.count_cons, List.count_cons, ih]
      by_cases ha : a = m
      · simp [ha]
      · simp [ha]

theorem ParsMapFiles_success_once (env : TileEnv) (ids : MapIds) (m : Nat) :
    List.count (m, true) (ParsMapFiles env ids).inits ≤ 1 := by
  have h := parsLoop_initsMatch env (2 * ids.length + 1) 0 ⟨ids, [], [], []⟩
    ⟨by simp, List.nodup_nil⟩
  unfold ParsMapFiles
  rw [count_success, h.1, List.count_reverse]
  exact List.nodup_iff_count_le_one.mp h.2 m

theorem getWDTs_cons (env : TileEnv) (st : ParsState) (m : Nat) (l : List Nat) :
    getWDTs env st (m :: l) = getWDTs env (getWDT env st m).1 l := rfl

theorem getWDTs_wdts_mono (env : TileEnv) (l : List Nat) :
    ∀ (st : ParsState) (w : Nat), w ∈ st.wdts → w ∈ (getWDTs env st l).wdts := by
  induction l with
  | nil => intro st w h; exact h
  | cons m l ih =>
    intro st w h
    rw [getWDTs_cons]
    apply ih
    rw [getWDT_wdts]
    split_ifs
    · exact h
    · exact List.mem_cons_of_mem _ h
    · exact h

theorem getWDTs_wdts_sound (env : TileEnv) (l : List Nat) :
    ∀ (st : ParsState) (w : Nat), w ∈ (getWDTs env st l).wdts →
      w ∈ st.wdts ∨ env.wdtInit w = true := by
  induction l with
  | nil => intro st w h; exact Or.inl h
  | cons m l ih =>
    intro st w h
    rw [getWDTs_cons] at h
    rcases ih _ w h with h1 | h1
    · rw [getWDT_wdts] at h1
      split_ifs at h1 with h2 h3
      · exact Or.inl h1
      · rcases List.mem_cons.mp h1 with h4 | h4
        · exact Or.inr (h4 ▸ h3)
        · exact Or.inl h4
      · exact Or.inl h1
    · exact Or.inr h1

/-- C6 (as stated, refuted): with maps 0, 1, 2, where 1 and 2 have parent 0 and the world
definition of map 0 does not load, `init` is called for map 0 three times in one run: the failed
load is attempted again at every later `getWDT(0)`. -/
theorem ParsMapFiles_retries_failed_load :
    sortedKeys threeMaps ∧ parentMissingEnv.wdtInit 0 = false ∧
    (ParsMapFiles parentMissingEnv threeMaps).inits =
      [(0, false), (1, true), (0, false), (2, true), (0, false)] ∧
    List.count (0, false) (ParsMapFiles parentMissingEnv threeMaps).inits = 3 := by
  decide

/-- C6 (amended): `getWDT` caches success only. Once a load for a map id has succeeded, every
later `getWDT` call for that id returns the handle without calling `init` again, so that in a
run of `ParsMapFiles` every map id is loaded successfully at most once; when a load attempt
fails the cache entry is erased, and every later `getWDT` call for the same id calls `init`
again and fails again. -/
theorem getWDT_caches_success_only (env : TileEnv) (st : ParsState) (mapId : Nat)
    (later : List Nat) :
    (env.wdtInit mapId = true →
      getWDT env (getWDTs env (getWDT env st mapId).1 later) mapId =
        (getWDTs env (getWDT env st mapId).1 later, true)) ∧
    (mapId ∉ st.wdts → env.wdtInit mapId = false →
      (getWDT env st mapId).2 = false ∧
      (getWDT env (getWDTs env (getWDT env st mapId).1 later) mapId).2 = false ∧
      (getWDT env (getWDTs env (getWDT env st mapId).1 later) mapId).1.inits =
        (getWDTs env (getWDT env st mapId).1 later).inits ++ [(mapId, false)]) ∧
    (∀ ids, List.count (mapId, true) (ParsMapFiles env ids).inits ≤ 1) := by
  refine ⟨fun hok => ?_, fun hnot hfail => ?_, fun ids => ParsMapFiles_success_once env ids mapId⟩
  · have h1 : mapId ∈ (getWDT env st mapId).1.wdts := by
      rw [getWDT_wdts]
      split_ifs with h2
      · exact h2
      · exact List.mem_cons_self _ _
    have h2 := getWDTs_wdts_mono env later _ mapId h1
    exact getWDT_cached env _ mapId h2
  · have h1 : mapId ∉ (getWDT env st mapId).1.wdts := by
      rw [getWDT_wdts]
      simp [hnot, hfail]
    have h2 : mapId ∉ (getWDTs env (getWDT env st mapId).1 later).wdts := by
      intro hc
      rcases getWDTs_wdts_sound env later _ mapId hc with h3 | h3
      · exact h1 h3
      · rw [hfail] at h3; exact Bool.noConfusion h3
    refine ⟨?_, ?_, ?_⟩
    · rw [getWDT_handle]; simp [hnot, hfail]
    · rw [getWDT_handle]; simp [h2, hfail]
    · rw [getWDT_inits]; simp [h2, hfail]

/-- C6 (example): with map 0 failing to load and maps 1 and 2 loading, a later `getWDT(0)`
after `getWDT(0)`, `getWDT(1)`, `getWDT(2)` calls `init` for map 0 again, whereas a later
`getWDT(1)` calls nothing. -/
theorem getWDT_caches_success_only_witness :
    0 ∉ (ParsState.mk threeMaps [] [] []).wdts ∧ parentMissingEnv.wdtInit 0 = false ∧
    (getWDT parentMissingEnv
      (getWDTs parentMissingEnv (getWDT parentMissingEnv ⟨threeMaps, [], [], []⟩ 0).1 [1, 2])
      0).1.inits =
      (getWDTs parentMissingEnv (getWDT parentMissingEnv ⟨threeMaps, [], [], []⟩ 0).1
        [1, 2]).inits ++ [(0, false)] ∧
    (getWDTs parentMissingEnv (getWDT parentMissingEnv ⟨threeMaps, [], [], []⟩ 0).1
        [1, 2]).inits = [(0, false), (1, true), (2, true)] :=
  ⟨by decide, by decide,
    ((getWDT_caches_success_only parentMissingEnv ⟨threeMaps, [], [], []⟩ 0 [1, 2]).2.1
      (by decide) (by decide)).2.2,
    by decide⟩

/-! ## MapRegistry: parent ids -/

theorem toInt16_eq_signed16 (v : Nat) (h : v < 65536) : toInt16 v = signed16 v := by
  unfold toInt16 signed16
  rw [Nat.mod_eq_of_lt h]

theorem recordParent_eq_specParent (r : MapRecord) (h : uint16Fields r) :
    recordParent r = specParent r := by
  unfold recordParent specParent
  rw [toInt16_eq_signed16 _ h.1, toInt16_eq_signed16 _ h.2]
  by_cases hn : signed16 r.ParentMapID < 0
  · have : ¬ (0 ≤ signed16 r.ParentMapID) := by omega
    rw [if_pos hn, if_neg this]
  · have : 0 ≤ signed16 r.ParentMapID := by omega
    rw [if_neg hn, if_pos this]

theorem loadRecord_fits (g : Registry) (r : MapRecord) (h : r.Directory.length < 64) :
    loadRecord g r =
      some ⟨mapSet r.Id ⟨r.Directory, recordParent r⟩ g.map_ids,
        if 0 ≤ recordParent r then setInsert (recordParent r).toNat g.maps_that_are_parents
        else g.maps_that_are_parents⟩ := by
  have : ¬ (64 ≤ r.Directory.length) := by omega
  simp [loadRecord, this]

theorem loadRecords_cons (g : Registry) (r : MapRecord) (rs : List MapRecord)
    (h : r.Directory.length < 64) :
    loadRecords g (r :: rs) =
      loadRecords ⟨mapSet r.Id ⟨r.Directory, recordParent r⟩ g.map_ids,
        if 0 ≤ recordParent r then setInsert (recordParent r).toNat g.maps_that_are_parents
        else g.maps_that_are_parents⟩ rs := by
  simp only [loadRecords, loadRecord_fits g r h]

theorem loadRecords_append (a b : List MapRecord) :
    ∀ g g1 : Registry, loadRecords g a = some g1 → loadRecords g (a ++ b) = loadRecords g1 b := by
  induction a with
  | nil =>
    intro g g1 h
    simp only [loadRecords, Option.some.injEq] at h
    rw [← h]; rfl
  | cons r rs ih =>
    intro g g1 h
    by_cases hr : 64 ≤ r.Directory.length
    · simp [loadRecords, loadRecord, hr] at h
    · have hf : r.Directory.length < 64 := by omega
      rw [loadRecords_cons g r rs hf] at h
      rw [List.cons_append, loadRecords_cons g r _ hf]
      exact ih _ g1 h

theorem loadRecords_find_untouched (rows : List MapRecord) :
    ∀ (g g1 : Registry) (k : Nat), loadRecords g rows = some g1 → (∀ q ∈ rows, q.Id ≠ k) →
      mapFind g1.map_ids k = mapFind g.map_ids k := by
  induction rows with
  | nil =>
    intro g g1 k h _
    simp only [loadRecords, Option.some.injEq] at h
    rw [← h]
  | cons r rs ih =>
    intro g g1 k h hk
    by_cases hr : 64 ≤ r.Directory.length
    · simp [loadRecords, loadRecord, hr] at h
    · have hf : r.Directory.length < 64 := by omega
      rw [loadRecords_cons g r rs hf] at h
      rw [ih _ g1 k h (fun q hq => hk q (List.mem_cons_of_mem _ hq))]
      exact mapFind_mapSet_other _ _ _ _ (fun e => hk r (List.mem_cons_self _ _) e.symm)

/-- C16: for every primary Map row `r` of the table (names fitting `char name[64]`), once the row
is decoded the registry entry of its id has as parent id the primary parent field read as signed
16-bit when that is non-negative and otherwise the cosmetic parent field read likewise; a primary
parent of 0 is kept as 0; and the entry still has that parent after all primary rows when no
later row has the same id. -/
theorem loadRecords_parent_id (rows pre post : List MapRecord) (r : MapRecord)
    (hfit : ∀ q ∈ rows, q.Directory.length < 64) (hrows : rows = pre ++ r :: post)
    (hu : uint16Fields r) :
    (∃ g1, loadRecords ⟨[], []⟩ (pre ++ [r]) = some g1 ∧
      mapFind g1.map_ids r.Id = some ⟨r.Directory, specParent r⟩) ∧
    (r.ParentMapID = 0 → specParent r = 0) ∧
    ((∀ q ∈ post, q.Id ≠ r.Id) →
      ∃ g, loadRecords ⟨[], []⟩ rows = some g ∧
        mapFind g.map_ids r.Id = some ⟨r.Directory, specParent r⟩) := by
  have hpre : ∀ q ∈ pre, q.Directory.length < 64 := fun q hq =>
    hfit q (by rw [hrows]; exact List.mem_append_left _ hq)
  have hr : r.Directory.length < 64 := hfit r (by rw [hrows]; simp)
  obtain ⟨g0, hg0⟩ := loadRecords_total pre ⟨[], []⟩ hpre
  have hstep : loadRecords ⟨[], []⟩ (pre ++ [r]) =
      some ⟨mapSet r.Id ⟨r.Directory, recordParent r⟩ g0.map_ids,
        if 0 ≤ recordParent r then setInsert (recordParent r).toNat g0.maps_that_are_parents
        else g0.maps_that_are_parents⟩ := by
    rw [loadRecords_append pre [r] _ g0 hg0, loadRecords_cons g0 r [] hr]
    rfl
  have hpar := recordParent_eq_specParent r hu
  refine ⟨⟨_, hstep, ?_⟩, ?_, ?_⟩
  · rw [mapFind_mapSet_self, hpar]
  · intro h0
    simp [specParent, signed16, h0]
  · intro hpost
    obtain ⟨g, hg⟩ := loadRecords_total rows ⟨[], []⟩ hfit
    refine ⟨g, hg, ?_⟩
    have hsplit : rows = (pre ++ [r]) ++ post := by rw [hrows]; simp
    rw [hsplit, loadRecords_append (pre ++ [r]) post _ _ hstep] at hg
    rw [loadRecords_find_untouched post _ g r.Id hg hpost]
    simp only
    rw [mapFind_mapSet_self, hpar]

/-- C16 (example): of the rows (10, parent 3), (11, parent absent, cosmetic parent 4) and
(12, parent 0, cosmetic parent 9), the entries get the parents 3, 4 and 0. -/
theorem loadRecords_parent_id_witness :
    (∀ q ∈ parentRows, q.Directory.length < 64) ∧
    uint16Fields ⟨11, "b", 65535, 4⟩ ∧
    (∃ g, loadRecords ⟨[], []⟩ parentRows = some g ∧
      mapFind g.map_ids 11 = some ⟨"b", specParent ⟨11, "b", 65535, 4⟩⟩) ∧
    specParent ⟨11, "b", 65535, 4⟩ = 4 ∧ specParent ⟨12, "c", 0, 9⟩ = 0 :=
  ⟨by decide, by decide,
    (loadRecords_parent_id parentRows [⟨10, "a", 3, 65535⟩] [⟨12, "c", 0, 9⟩] ⟨11, "b", 65535, 4⟩
      (by decide) (by decide) (by decide)).2.2 (by decide),
    by decide, by decide⟩

theorem loadRecords_parentsCover (rows : List MapRecord) :
    ∀ g g1 : Registry, parentsCover g.map_ids g.maps_that_are_parents →
      loadRecords g rows = some g1 → parentsCover g1.map_ids g1.maps_that_are_parents := by
  induction rows with
  | nil =>
    intro g g1 hc h
    simp only [loadRecords, Option.some.injEq] at h
    rw [← h]; exact hc
  | cons r rs ih =>
    intro g g1 hc h
    by_cases hr : 64 ≤ r.Directory.length
    · simp [loadRecords, loadRecord, hr] at h
    · have hf : r.Directory.length < 64 := by omega
      rw [loadRecords_cons g r rs hf] at h
      refine ih _ g1 ?_ h
      intro k info hk hp
      simp only at hk ⊢
      by_cases hkk : k = r.Id
      · subst hkk
        rw [mapFind_mapSet_self] at hk
        have hinfo := Option.some.inj hk
        subst hinfo
        simp only at hp
        rw [if_pos hp, mem_setInsert]
        exact Or.inl rfl
      · rw [mapFind_mapSet_other _ _ _ _ hkk] at hk
        have hmem := hc k info hk hp
        split_ifs
        · rw [mem_setInsert]; exact Or.inr hmem
        · exact hmem

theorem applyCopies_parentsCover (copies : List DB2RecordCopy) (parents : List Nat) :
    ∀ ids : MapIds, parentsCover ids parents → parentsCover (applyCopies ids copies) parents := by
  induction copies with
  | nil => intro ids h; exact h
  | cons c cs ih =>
    intro ids h
    have hf : applyCopies ids (c :: cs) = applyCopies (applyCopy ids c) cs := rfl
    rw [hf]
    refine ih _ ?_
    intro k info hk hp
    rw [applyCopy_find] at hk
    cases hsrc : mapFind ids c.SourceRowId with
    | none =>
      rw [hsrc] at hk
      exact h k info hk hp
    | some src =>
      rw [hsrc] at hk
      by_cases hkk : k = c.NewRowId
      · simp only [hkk, if_true, Option.some.injEq] at hk
        subst hk
        exact h _ _ hsrc hp
      · simp only [hkk, if_false] at hk
        exact h k info hk hp

theorem loadRecords_parents_origin (rows : List MapRecord) :
    ∀ g g1 : Registry, loadRecords g rows = some g1 →
      ∀ p ∈ g1.maps_that_are_parents,
        p ∈ g.maps_that_are_parents ∨
          ∃ r ∈ rows, 0 ≤ recordParent r ∧ (recordParent r).toNat = p := by
  induction rows with
  | nil =>
    intro g g1 h p hp
    simp only [loadRecords, Option.some.injEq] at h
    rw [← h] at hp
    exact Or.inl hp
  | cons r rs ih =>
    intro g g1 h p hp
    by_cases hr : 64 ≤ r.Directory.length
    · simp [loadRecords, loadRecord, hr] at h
    · have hf : r.Directory.length < 64 := by omega
      rw [loadRecords_cons g r rs hf] at h
      rcases ih _ g1 h p hp with h1 | ⟨q, hq, h2⟩
      · simp only at h1
        split_ifs at h1 with hpos
        · rcases (mem_setInsert _ _ _).mp h1 with h3 | h3
          · exact Or.inr ⟨r, List.mem_cons_self _ _, hpos, h3.symm⟩
          · exact Or.inl h3
        · exact Or.inl h1
      · exact Or.inr ⟨q, List.mem_cons_of_mem _ hq, h2⟩

theorem loadRecords_entries (rows : List MapRecord) :
    ∀ g g1 : Registry, loadRecords g rows = some g1 → (rows.map (fun r => r.Id)).Nodup →
      ∀ r ∈ rows, mapFind g1.map_ids r.Id = some ⟨r.Directory, recordParent r⟩ := by
  induction rows with
  | nil => intro g g1 _ _ r hr; simp at hr
  | cons q rs ih =>
    intro g g1 h hn r hr
    simp only [List.map_cons, List.nodup_cons] at hn
    by_cases hq : 64 ≤ q.Directory.length
    · simp [loadRecords, loadRecord, hq] at h
    · have hf : q.Directory.length < 64 := by omega
      rw [loadRecords_cons g q rs hf] at h
      rcases List.mem_cons.mp hr with h1 | h1
      · subst h1
        have hun : ∀ x ∈ rs, x.Id ≠ r.Id := by
          intro x hx e
          exact hn.1 (List.mem_map.mpr ⟨x, hx, e⟩)
        rw [loadRecords_find_untouched rs _ g1 r.Id h hun]
        exact mapFind_mapSet_self _ _ _
      · exact ih _ g1 h hn.2 r h1

/-- C14 (as stated, refuted): from the primary rows 0 "A" with parent 5 and 1 "B" without
parent, and the copy row (source 1, new 0), `main` builds a registry whose two entries both have
parent -1 while `maps_that_are_parents` holds 5: an id of the set is no entry's parent id. -/
theorem maps_that_are_parents_keeps_overwritten_parent :
    buildRegistry overwrittenRows overwritingCopies =
      some ⟨[(0, ⟨"B", -1⟩), (1, ⟨"B", -1⟩)], [5]⟩ ∧
    ¬ isParentOfEntry [(0, ⟨"B", -1⟩), (1, ⟨"B", -1⟩)] 5 := by
  refine ⟨by decide, ?_⟩
  rintro ⟨k, info, hk, hp, _⟩
  by_cases h0 : k = 0
  · subst h0
    have : info = ⟨"B", -1⟩ := by
      have h : mapFind [(0, ⟨"B", -1⟩), (1, ⟨"B", -1⟩)] 0 = some ⟨"B", -1⟩ := by decide
      rw [h] at hk
      exact (Option.some.inj hk).symm
    subst this
    exact absurd hp (by decide)
  · by_cases h1 : k = 1
    · subst h1
      have : info = ⟨"B", -1⟩ := by
        have h : mapFind [(0, ⟨"B", -1⟩), (1, ⟨"B", -1⟩)] 1 = some ⟨"B", -1⟩ := by decide
        rw [h] at hk
        exact (Option.some.inj hk).symm
      subst this
      exact absurd hp (by decide)
    · simp [mapFind, h0, h1] at hk

/-- C14 (amended): after `main` has built the registry (primary rows, then copy rows), every
non-negative parent id of a registry entry is in `maps_that_are_parents`, and every id of the
set is the non-negative parent id computed for some primary row; when no entry is overwritten
(primary row ids pairwise distinct, no copy row with the id of a primary row as new id) every
id of the set is the parent id of some registry entry, so the set is exactly the set of
non-negative parent ids of the entries. -/
theorem maps_that_are_parents_spec (rows : List MapRecord) (copies : List DB2RecordCopy)
    (hfit : ∀ r ∈ rows, r.Directory.length < 64) :
    ∃ g, buildRegistry rows copies = some g ∧
      parentsCover g.map_ids g.maps_that_are_parents ∧
      (∀ p ∈ g.maps_that_are_parents,
        ∃ r ∈ rows, 0 ≤ recordParent r ∧ (recordParent r).toNat = p) ∧
      (noOverwrite rows copies →
        ∀ p, p ∈ g.maps_that_are_parents ↔ isParentOfEntry g.map_ids p) := by
  obtain ⟨g0, hg0⟩ := loadRecords_total rows ⟨[], []⟩ hfit
  have hb : buildRegistry rows copies =
      some ⟨applyCopies g0.map_ids copies, g0.maps_that_are_parents⟩ := by
    simp [buildRegistry, hg0]
  have hcover0 : parentsCover g0.map_ids g0.maps_that_are_parents :=
    loadRecords_parentsCover rows ⟨[], []⟩ g0 (fun k info hk _ => by simp [mapFind] at hk) hg0
  have hcover := applyCopies_parentsCover copies g0.maps_that_are_parents g0.map_ids hcover0
  have horigin : ∀ p ∈ g0.maps_that_are_parents,
      ∃ r ∈ rows, 0 ≤ recordParent r ∧ (recordParent r).toNat = p := by
    intro p hp
    rcases loadRecords_parents_origin rows ⟨[], []⟩ g0 hg0 p hp with h | h
    · simp at h
    · exact h
  refine ⟨_, hb, hcover, horigin, ?_⟩
  intro hno p
  constructor
  · intro hp
    obtain ⟨r, hr, hpos, hval⟩ := horigin p hp
    refine ⟨r.Id, ⟨r.Directory, recordParent r⟩, ?_, hpos, hval⟩
    simp only
    rw [applyCopies_find_untouched copies g0.map_ids r.Id (fun c hc => hno.2 c hc r hr)]
    exact loadRecords_entries rows ⟨[], []⟩ g0 hg0 hno.1 r hr
  · rintro ⟨k, info, hk, hpos, hval⟩
    rw [← hval]
    exact hcover k info hk hpos

/-- C14 (example): for the rows (10, parent 3), (11, cosmetic parent 4), (12, parent 0) and no
copy rows the set of parents is exactly the set of parent ids 3, 4, 0 of the entries. -/
theorem maps_that_are_parents_spec_witness :
    (∀ r ∈ parentRows, r.Directory.length < 64) ∧ noOverwrite parentRows [] ∧
    (∃ g, buildRegistry parentRows [] = some g ∧
      parentsCover g.map_ids g.maps_that_are_parents ∧
      (∀ p, p ∈ g.maps_that_are_parents ↔ isParentOfEntry g.map_ids p)) ∧
    buildRegistry parentRows [] =
      some ⟨[(10, ⟨"a", 3⟩), (11, ⟨"b", 4⟩), (12, ⟨"c", 0⟩)], [0, 4, 3]⟩ := by
  obtain ⟨g, h1, h2, _, h4⟩ := maps_that_are_parents_spec parentRows [] (by decide)
  exact ⟨by decide, by decide, ⟨g, h1, h2, h4 (by decide)⟩, by decide⟩

/-! ## TileExtractor: the registry during the traversal -/

/-- C15 (code at the failing input): `main` builds from the single row (1, "m1", parent 7) the
registry with the one key 1; in `ParsMapFiles` the call `getWDT(7)` for the parent evaluates
`map_ids[7]`, which adds a value-initialised entry, so after the traversal the registry has the
keys 1 and 7. -/
theorem ParsMapFiles_adds_entry_for_absent_parent :
    buildRegistry orphanRows [] = some ⟨orphanMaps, [7]⟩ ∧
    mapFind orphanMaps 7 = none ∧
    (ParsMapFiles onlyMapOneEnv orphanMaps).map_ids = [(1, ⟨"m1", 7⟩), (7, ⟨"", 0⟩)] ∧
    (ParsMapFiles onlyMapOneEnv orphanMaps).map_ids ≠ orphanMaps := by
  decide

theorem getWDT_no_handle (env : TileEnv) (st : ParsState) (k : Nat)
    (h : (getWDT env st k).2 = false) : k ∉ st.wdts ∧ env.wdtInit k = false := by
  rw [getWDT_handle] at h
  simp only [Bool.or_eq_false_iff, decide_eq_false_iff_not] at h
  exact h

/-- C19: in `ParsMapFiles`, a map `k` of the registry whose own world definition fails to load
gets no tile call at all in the whole run, whatever its parent is; and in its iteration, once
`getWDT(k)` has returned no handle, nothing else happens: the only `init` call recorded is the
failed one for `k` itself, so the parent handle is neither resolved nor consulted. -/
theorem ParsMapFiles_failed_load_no_tiles (env : TileEnv) (ids : MapIds) (hs : sortedKeys ids)
    (k : Nat) (info : map_info) (hk : mapFind ids k = some info)
    (hfail : env.wdtInit k = false) :
    (∀ e ∈ (ParsMapFiles env ids).tiles, e.cur ≠ k) ∧
    (∀ st : ParsState, (getWDT env st k).2 = false →
      processMap env st k info = (getWDT env st k).1 ∧
      (processMap env st k info).tiles = st.tiles ∧
      (processMap env st k info).inits = st.inits ++ [(k, false)] ∧
      (processMap env st k info).wdts = st.wdts) := by
  refine ⟨?_, ?_⟩
  · intro e he hcur
    have hev := ParsMapFiles_events env ids hs k info hk
    have hnil : mapTiles env k info = [] := by simp [mapTiles, hfail]
    have hmem : e ∈ eventsOf k (ParsMapFiles env ids).tiles :=
      (mem_eventsOf k _ e).mpr ⟨he, hcur⟩
    rw [hev, hnil] at hmem
    exact absurd hmem (List.not_mem_nil _)
  · intro st hno
    obtain ⟨h1, h2⟩ := getWDT_no_handle env st k hno
    have hp : processMap env st k info = (getWDT env st k).1 := by
      unfold processMap
      rw [hno]
      simp
    refine ⟨hp, ?_, ?_, ?_⟩
    · rw [hp, getWDT_tiles]
    · rw [hp, getWDT_inits, if_neg h1, h2]
    · rw [hp, getWDT_wdts, if_neg h1, h2]
      simp

/-- C19 (example): child map 1 fails to load while its parent map 0 loads and has every tile;
no tile call is made for map 1. -/
theorem ParsMapFiles_failed_load_no_tiles_witness :
    sortedKeys childMaps ∧ mapFind childMaps 1 = some ⟨"child", 0⟩ ∧
    childFailsEnv.wdtInit 1 = false ∧ childFailsEnv.wdtInit 0 = true ∧
    childFailsEnv.hasADT 0 5 5 = true ∧
    (∀ e ∈ (ParsMapFiles childFailsEnv childMaps).tiles, e.cur ≠ 1) :=
  ⟨by decide, by decide, by decide, by decide, by decide,
    (ParsMapFiles_failed_load_no_tiles childFailsEnv childMaps (by decide) 1 ⟨"child", 0⟩
      (by decide) (by decide)).1⟩

/-! ## BuildingExtractor: the output file -/

theorem FileExists_tableSet_self (name : String) (v : List Nat)
    (files : List (String × List Nat)) : FileExists (tableSet name v files) name = true := by
  induction files with
  | nil => simp [tableSet, FileExists]
  | cons e t ih =>
    obtain ⟨n1, v1⟩ := e
    by_cases h : n1 = name
    · simp [tableSet, FileExists, h]
    · unfold FileExists at ih
      simp [tableSet, FileExists, h, ih]

theorem FileExists_filter_ne (name : String) (files : List (String × List Nat)) :
    FileExists (files.filter (fun f => f.1 != name)) name = false := by
  induction files with
  | nil => simp [FileExists]
  | cons e t ih =>
    obtain ⟨n1, v1⟩ := e
    unfold FileExists at ih ⊢
    by_cases h : n1 = name
    · simp only [List.filter_cons, h, bne_self_eq_false, Bool.false_eq_true, if_false]
      exact ih
    · have hb : (n1 != name) = true := by simpa using h
      have hb2 : (n1 == name) = false := by simpa using h
      simp only [List.filter_cons, hb, if_true, List.any_cons, hb2, Bool.false_or]
      exact ih

theorem filter_ne_of_absent (name : String) (files : List (String × List Nat))
    (h : FileExists files name = false) : files.filter (fun f => f.1 != name) = files := by
  rw [List.filter_eq_self]
  intro f hf
  unfold FileExists at h
  rw [List.any_eq_false] at h
  have := h f hf
  simpa using this

theorem tableSet_idem {α : Type} (name : String) (v : α) (tbl : List (String × α)) :
    tableSet name v (tableSet name v tbl) = tableSet name v tbl := by
  induction tbl with
  | nil => simp [tableSet]
  | cons e t ih =>
    obtain ⟨n1, v1⟩ := e
    by_cases h : n1 = name
    · simp [tableSet, h]
    · simp [tableSet, h, ih]

theorem tableSet_names {α : Type} (name : String) (v : α) (tbl : List (String × α))
    (q : String) : q ∈ (tableSet name v tbl).map Prod.fst ↔ q = name ∨ q ∈ tbl.map Prod.fst := by
  induction tbl with
  | nil => simp [tableSet]
  | cons e t ih =>
    obtain ⟨n1, v1⟩ := e
    by_cases h : n1 = name
    · subst h
      simp [tableSet]
    · simp only [tableSet, h, if_false, List.map_cons, List.mem_cons, ih]
      tauto

theorem tableSet_nodup {α : Type} (name : String) (v : α) (tbl : List (String × α))
    (hn : (tbl.map Prod.fst).Nodup) : ((tableSet name v tbl).map Prod.fst).Nodup := by
  induction tbl with
  | nil => simp [tableSet]
  | cons e t ih =>
    obtain ⟨n1, v1⟩ := e
    simp only [List.map_cons, List.nodup_cons] at hn
    by_cases h : n1 = name
    · subst h
      simp only [tableSet, if_true, List.map_cons, List.nodup_cons]
      exact hn
    · simp only [tableSet, h, if_false, List.map_cons, List.nodup_cons]
      refine ⟨?_, ih hn.2⟩
      rw [tableSet_names]
      rintro (h1 | h1)
      · exact h h1
      · exact hn.1 h1

theorem fileCount_of_nodup (files : List (String × List Nat)) (name : String)
    (hn : (files.map Prod.fst).Nodup) (he : FileExists files name = true) :
    fileCount files name = 1 := by
  induction files with
  | nil => simp [FileExists] at he
  | cons e t ih =>
    obtain ⟨n1, v1⟩ := e
    simp only [List.map_cons, List.nodup_cons] at hn
    unfold fileCount FileExists at *
    by_cases h : n1 = name
    · subst h
      have hnone : List.filter (fun f : String × List Nat => f.1 == n1) t = [] := by
        rw [List.filter_eq_nil_iff]
        intro f hf hc
        have : f.1 = n1 := by simpa using hc
        exact hn.1 (List.mem_map.mpr ⟨f, hf, this⟩)
      simp [List.filter_cons, hnone]
    · have hb : (n1 == name) = false := by simpa using h
      simp only [List.any_cons, hb, Bool.false_or] at he
      simp only [List.filter_cons, hb, Bool.false_eq_true, if_false]
      exact ih hn.2 he

theorem ExtractSingleWmo_exists (env : ExtractEnv) (st : ExtractState) (fname : String)
    (h : FileExists st.files (env.plainName fname) = true) :
    ExtractSingleWmo env st fname = ⟨true, WmoReturn.fileExists, st⟩ := by
  simp [ExtractSingleWmo, h]

theorem ExtractSingleWmo_done (env : ExtractEnv) (st : ExtractState) (fname : String)
    (froot : WMORoot) (hnew : FileExists st.files (env.plainName fname) = false)
    (hname : fragmentDigits (env.plainName fname).data env.beyond ≠ 3)
    (hroot : env.openRoot fname = some froot)
    (hwrite : env.canWrite (env.plainName fname) = true) :
    ExtractSingleWmo env st fname =
      ⟨true, WmoReturn.done,
        ⟨if (groupLoop froot.ValidDoodadNames froot.groups (groupLoopStart froot)).file_ok then
            tableSet (env.plainName fname)
              (writeAt (groupLoop froot.ValidDoodadNames froot.groups
                  (groupLoopStart froot)).output 8
                (intBytes (groupLoop froot.ValidDoodadNames froot.groups
                  (groupLoopStart froot)).Wmo_nVertices)) st.files
          else st.files.filter (fun f => f.1 != env.plainName fname),
          tableSet (env.plainName fname)
            (groupLoop froot.ValidDoodadNames froot.groups (groupLoopStart froot)).doodads
            st.WmoDoodads⟩⟩ := by
  simp only [ExtractSingleWmo, hnew, hname, hroot, hwrite, if_false, Bool.false_eq_true,
    Bool.not_true, groupLoopStart]

/-- A second call on the state the first call left gives that state again. -/
theorem ExtractSingleWmo_twice_state (env : ExtractEnv) (st : ExtractState) (fname : String) :
    (ExtractSingleWmo env (ExtractSingleWmo env st fname).state fname).state =
      (ExtractSingleWmo env st fname).state := by
  by_cases hnew : FileExists st.files (env.plainName fname) = true
  · rw [ExtractSingleWmo_exists env st fname hnew]
    simp only
    rw [ExtractSingleWmo_exists env st fname hnew]
  · have hnew : FileExists st.files (env.plainName fname) = false := by simpa using hnew
    by_cases hname : fragmentDigits (env.plainName fname).data env.beyond = 3
    · have h1 : ExtractSingleWmo env st fname = ⟨true, WmoReturn.threeDigits, st⟩ := by
        simp [ExtractSingleWmo, hnew, hname]
      rw [h1]; simp only; rw [h1]
    · cases hroot : env.openRoot fname with
      | none =>
        have h1 : ExtractSingleWmo env st fname = ⟨true, WmoReturn.rootNotOpened, st⟩ := by
          simp [ExtractSingleWmo, hnew, hname, hroot]
        rw [h1]; simp only; rw [h1]
      | some froot =>
        by_cases hwrite : env.canWrite (env.plainName fname) = true
        · have h1 := ExtractSingleWmo_done env st fname froot hnew hname hroot hwrite
          rw [h1]
          simp only
          by_cases hok : (groupLoop froot.ValidDoodadNames froot.groups
              (groupLoopStart froot)).file_ok = true
          · simp only [hok, if_true]
            rw [ExtractSingleWmo_exists env _ fname (FileExists_tableSet_self _ _ _)]
          · simp only [hok, if_false, Bool.false_eq_true]
            rw [ExtractSingleWmo_done env _ fname froot (FileExists_filter_ne _ _) hname hroot
              hwrite]
            simp only [hok, if_false, Bool.false_eq_true, tableSet_idem, List.filter_filter,
              Bool.and_self]
        · have hw : env.canWrite (env.plainName fname) = false := by simpa using hwrite
          have h1 : ExtractSingleWmo env st fname =
              ⟨false, WmoReturn.outputNotOpened, st⟩ := by
            simp [ExtractSingleWmo, hnew, hname, hroot, hw]
          rw [h1]; simp only; rw [h1]

theorem ExtractSingleWmo_names_nodup (env : ExtractEnv) (st : ExtractState) (fname : String)
    (hdir : (st.files.map Prod.fst).Nodup) :
    ((ExtractSingleWmo env st fname).state.files.map Prod.fst).Nodup := by
  by_cases hnew : FileExists st.files (env.plainName fname) = true
  · rw [ExtractSingleWmo_exists env st fname hnew]
    exact hdir
  · have hnew : FileExists st.files (env.plainName fname) = false := by simpa using hnew
    by_cases hname : fragmentDigits (env.plainName fname).data env.beyond = 3
    · have h1 : ExtractSingleWmo env st fname = ⟨true, WmoReturn.threeDigits, st⟩ := by
        simp [ExtractSingleWmo, hnew, hname]
      rw [h1]; exact hdir
    · cases hroot : env.openRoot fname with
      | none =>
        have h1 : ExtractSingleWmo env st fname = ⟨true, WmoReturn.rootNotOpened, st⟩ := by
          simp [ExtractSingleWmo, hnew, hname, hroot]
        rw [h1]; exact hdir
      | some froot =>
        by_cases hwrite : env.canWrite (env.plainName fname) = true
        · rw [ExtractSingleWmo_done env st fname froot hnew hname hroot hwrite]
          simp only
          split_ifs
          · exact tableSet_nodup _ _ _ hdir
          · exact ((List.filter_sublist _).map Prod.fst).nodup hdir
        · have hw : env.canWrite (env.plainName fname) = false := by simpa using hwrite
          have h1 : ExtractSingleWmo env st fname =
              ⟨false, WmoReturn.outputNotOpened, st⟩ := by
            simp [ExtractSingleWmo, hnew, hname, hroot, hw]
          rw [h1]; exact hdir

theorem decodeInt32_quad (b0 b1 b2 b3 : Nat) :
    decodeInt32 [b0, b1, b2, b3] =
      if b0 + 256 * b1 + 65536 * b2 + 16777216 * b3 < 2147483648 then
        ((b0 + 256 * b1 + 65536 * b2 + 16777216 * b3 : Nat) : Int)
      else ((b0 + 256 * b1 + 65536 * b2 + 16777216 * b3 : Nat) : Int) - 4294967296 := rfl

theorem decodeInt32_intBytes (n : Int) (h1 : -2147483648 ≤ n) (h2 : n < 2147483648) :
    decodeInt32 (intBytes n) = n := by
  unfold intBytes
  rw [decodeInt32_quad]
  generalize hu : (n % 4294967296).toNat = u
  have hu1 : (u : Int) = n % 4294967296 := by
    rw [← hu]
    exact Int.toNat_of_nonneg (Int.emod_nonneg _ (by decide))
  have hu2 : u < 4294967296 := by omega
  have hsum : u % 256 + 256 * (u / 256 % 256) + 65536 * (u / 65536 % 256) +
      16777216 * (u / 16777216 % 256) = u := by omega
  rw [hsum]
  split_ifs with hlt
  · omega
  · omega

theorem writeAt_inside (content bytes : List Nat) (hb : bytes.length = 4)
    (hc : 12 ≤ content.length) :
    writeAt content 8 bytes = content.take 8 ++ bytes ++ content.drop 12 := by
  unfold writeAt
  have h0 : 8 - content.length = 0 := by omega
  rw [h0, hb]
  simp

theorem writeAt_inside_props (content bytes : List Nat) (hb : bytes.length = 4)
    (hc : 12 ≤ content.length) :
    (writeAt content 8 bytes).length = content.length ∧
    ((writeAt content 8 bytes).drop 8).take 4 = bytes ∧
    ∀ i, i < 8 ∨ 12 ≤ i → (writeAt content 8 bytes)[i]? = content[i]? := by
  rw [writeAt_inside content bytes hb hc]
  have ht : (content.take 8).length = 8 := by simp; omega
  refine ⟨?_, ?_, ?_⟩
  · simp only [List.length_append, ht, hb, List.length_drop]
    omega
  · rw [List.append_assoc, List.drop_left' ht, List.take_left' hb]
  · intro i hi
    rcases hi with hi | hi
    · rw [List.append_assoc, List.getElem?_append_left (by omega), List.getElem?_take]
      simp [hi]
    · rw [List.getElem?_append_right (by simp only [List.length_append, ht, hb]; omega)]
      simp only [List.length_append, ht, hb]
      rw [List.getElem?_drop]
      congr 1
      omega
/-- C11: if a file with the plain name already exists in the output directory, the call
returns success and leaves the output directory and the doodad store as they are; a second call
on what the first call left always leaves it unchanged; and when the first call left an output
file of that name, the second call returns success at the existence test, the directory (each
name at most once) holds exactly one file of that name, and its content is that after the first
call. -/
theorem ExtractSingleWmo_collision_idempotent (env : ExtractEnv) (st : ExtractState)
    (fname : String) (hdir : (st.files.map Prod.fst).Nodup) :
    (FileExists st.files (env.plainName fname) = true →
      ExtractSingleWmo env st fname = ⟨true, WmoReturn.fileExists, st⟩) ∧
    (ExtractSingleWmo env (ExtractSingleWmo env st fname).state fname).state =
      (ExtractSingleWmo env st fname).state ∧
    (FileExists (ExtractSingleWmo env st fname).state.files (env.plainName fname) = true →
      ExtractSingleWmo env (ExtractSingleWmo env st fname).state fname =
        ⟨true, WmoReturn.fileExists, (ExtractSingleWmo env st fname).state⟩ ∧
      fileCount (ExtractSingleWmo env (ExtractSingleWmo env st fname).state fname).state.files
        (env.plainName fname) = 1 ∧
      tableFind (ExtractSingleWmo env (ExtractSingleWmo env st fname).state fname).state.files
          (env.plainName fname) =
        tableFind (ExtractSingleWmo env st fname).state.files (env.plainName fname)) := by
  have htwice := ExtractSingleWmo_twice_state env st fname
  refine ⟨ExtractSingleWmo_exists env st fname, htwice, fun hex => ?_⟩
  refine ⟨ExtractSingleWmo_exists env _ fname hex, ?_, ?_⟩
  · rw [htwice]
    exact fileCount_of_nodup _ _ (ExtractSingleWmo_names_nodup env st fname hdir) hex
  · rw [htwice]

/-- C11 (example): extracting "a.wmo" (root `sampleRoot`) into an empty directory and then
again: the second call returns at the existence test and the directory holds the one file. -/
theorem ExtractSingleWmo_collision_idempotent_witness :
    ((ExtractState.mk [] []).files.map Prod.fst).Nodup ∧
    FileExists (ExtractSingleWmo sampleEnv ⟨[], []⟩ "a.wmo").state.files
      (sampleEnv.plainName "a.wmo") = true ∧
    (ExtractSingleWmo sampleEnv (ExtractSingleWmo sampleEnv ⟨[], []⟩ "a.wmo").state
      "a.wmo").exitPoint = WmoReturn.fileExists ∧
    fileCount (ExtractSingleWmo sampleEnv (ExtractSingleWmo sampleEnv ⟨[], []⟩ "a.wmo").state
      "a.wmo").state.files (sampleEnv.plainName "a.wmo") = 1 :=
  have h := (ExtractSingleWmo_collision_idempotent sampleEnv ⟨[], []⟩ "a.wmo"
    (by decide)).2.2 (by decide)
  ⟨by decide, by decide, by rw [h.1], h.2.1⟩

theorem groupLoop_stop (valid : List Nat) (pre post : List (Option WMOGroup)) :
    ∀ s : GroupLoopState, (∀ g ∈ pre, g ≠ none) →
      groupLoop valid (pre ++ none :: post) s =
        ⟨(groupLoop valid pre s).output, (groupLoop valid pre s).Wmo_nVertices,
          (groupLoop valid pre s).doodads, false⟩ := by
  induction pre with
  | nil => intro s _; rfl
  | cons g rest ih =>
    intro s hall
    cases g with
    | none => exact absurd rfl (hall none (List.mem_cons_self _ _))
    | some fgroup =>
      simp only [List.cons_append, groupLoop]
      exact ih _ (fun q hq => hall q (List.mem_cons_of_mem _ hq))

/-- C12: when no output file of the plain name exists, the name is not skipped, the root opens
and the output can be written, and some group fails to open (the groups before it all open):
the group loop ends with the state reached after the groups before the failing one, whatever
groups follow it; the call returns true; no file of the plain name exists in the output
directory afterwards, which is as it was before the call; and the doodad data stored under the
plain name is that reached before the failing group. -/
theorem ExtractSingleWmo_group_failure (env : ExtractEnv) (st : ExtractState) (fname : String)
    (froot : WMORoot) (pre post : List (Option WMOGroup))
    (hnew : FileExists st.files (env.plainName fname) = false)
    (hname : fragmentDigits (env.plainName fname).data env.beyond ≠ 3)
    (hroot : env.openRoot fname = some froot)
    (hwrite : env.canWrite (env.plainName fname) = true)
    (hgroups : froot.groups = pre ++ none :: post) (hpre : ∀ g ∈ pre, g ≠ none) :
    groupLoop froot.ValidDoodadNames froot.groups (groupLoopStart froot) =
      ⟨(groupLoop froot.ValidDoodadNames pre (groupLoopStart froot)).output,
        (groupLoop froot.ValidDoodadNames pre (groupLoopStart froot)).Wmo_nVertices,
        (groupLoop froot.ValidDoodadNames pre (groupLoopStart froot)).doodads, false⟩ ∧
    (ExtractSingleWmo env st fname).value = true ∧
    (ExtractSingleWmo env st fname).exitPoint = WmoReturn.done ∧
    FileExists (ExtractSingleWmo env st fname).state.files (env.plainName fname) = false ∧
    (ExtractSingleWmo env st fname).state.files = st.files ∧
    tableFind (ExtractSingleWmo env st fname).state.WmoDoodads (env.plainName fname) =
      some (groupLoop froot.ValidDoodadNames pre (groupLoopStart froot)).doodads := by
  have hloop := groupLoop_stop froot.ValidDoodadNames pre post (groupLoopStart froot) hpre
  rw [← hgroups] at hloop
  have hdone := ExtractSingleWmo_done env st fname froot hnew hname hroot hwrite
  rw [hloop] at hdone
  simp only [Bool.false_eq_true, if_false] at hdone
  rw [hdone]
  refine ⟨hloop, rfl, rfl, ?_, ?_, ?_⟩
  · exact FileExists_filter_ne _ _
  · exact filter_ne_of_absent _ _ hnew
  · exact tableFind_tableSet_self _ _ _

/-- C12 (example): the second of the three groups of `brokenRoot` does not open; the call
returns true, no file "b.wmo" exists afterwards, and the stored references are those of the
first group only (spawn 0). -/
theorem ExtractSingleWmo_group_failure_witness :
    (ExtractSingleWmo brokenEnv ⟨[], []⟩ "b.wmo").value = true ∧
    FileExists (ExtractSingleWmo brokenEnv ⟨[], []⟩ "b.wmo").state.files
      (brokenEnv.plainName "b.wmo") = false ∧
    tableFind (ExtractSingleWmo brokenEnv ⟨[], []⟩ "b.wmo").state.WmoDoodads
      (brokenEnv.plainName "b.wmo") = some ⟨[10, 20, 30], [0]⟩ :=
  have h := ExtractSingleWmo_group_failure brokenEnv ⟨[], []⟩ "b.wmo" brokenRoot
    [some ⟨4, [1, 2], [0, 1, 5]⟩] [some ⟨3, [3], [2, 0]⟩] (by decide) (by decide) rfl rfl rfl
    (by decide)
  ⟨h.2.1, h.2.2.2.1, h.2.2.2.2.2.trans (by decide)⟩

theorem groupLoop_all_open (valid : List Nat) (groups : List (Option WMOGroup)) :
    ∀ s : GroupLoopState, (∀ g ∈ groups, g ≠ none) →
      (groupLoop valid groups s).output = s.output ++ allGroupWritten groups ∧
      (groupLoop valid groups s).Wmo_nVertices = s.Wmo_nVertices + totalVertices groups ∧
      (groupLoop valid groups s).file_ok = s.file_ok := by
  induction groups with
  | nil => intro s _; simp [groupLoop, allGroupWritten, totalVertices]
  | cons g rest ih =>
    intro s hall
    cases g with
    | none => exact absurd rfl (hall none (List.mem_cons_self _ _))
    | some fgroup =>
      obtain ⟨h1, h2, h3⟩ := ih
        ⟨s.output ++ fgroup.written, s.Wmo_nVertices + fgroup.nVertices,
          addReferences valid fgroup.DoodadReferences s.doodads, s.file_ok⟩
        (fun q hq => hall q (List.mem_cons_of_mem _ hq))
      have hw : allGroupWritten (some fgroup :: rest) =
          fgroup.written ++ allGroupWritten rest := by
        simp [allGroupWritten]
      have hv : totalVertices (some fgroup :: rest) =
          fgroup.nVertices + totalVertices rest := by
        simp [totalVertices]
      simp only [groupLoop]
      refine ⟨?_, ?_, h3⟩
      · rw [h1, hw, List.append_assoc]
      · rw [h2, hv, Int.add_assoc]

/-- C18: when no output file of the plain name exists, the name is not skipped, the root opens
with a header of at least 12 bytes, the output can be written and every group opens, the output
file has the length of the root header followed by the group blocks, its 4 bytes at offset 8 are
the little-endian bytes of the sum of the vertex counts returned by the group conversions (which
decode to that sum when it fits a 32-bit `int`), and every other byte is the byte the root
header and the group conversions wrote there. -/
theorem ExtractSingleWmo_vertex_count_field (env : ExtractEnv) (st : ExtractState)
    (fname : String) (froot : WMORoot)
    (hnew : FileExists st.files (env.plainName fname) = false)
    (hname : fragmentDigits (env.plainName fname).data env.beyond ≠ 3)
    (hroot : env.openRoot fname = some froot)
    (hwrite : env.canWrite (env.plainName fname) = true)
    (hgroups : ∀ g ∈ froot.groups, g ≠ none) (hheader : 12 ≤ froot.header.length) :
    ∃ content,
      tableFind (ExtractSingleWmo env st fname).state.files (env.plainName fname) =
        some content ∧
      content.length = (froot.header ++ allGroupWritten froot.groups).length ∧
      (content.drop 8).take 4 = intBytes (totalVertices froot.groups) ∧
      (∀ i, i < 8 ∨ 12 ≤ i →
        content[i]? = (froot.header ++ allGroupWritten froot.groups)[i]?) ∧
      (-2147483648 ≤ totalVertices froot.groups → totalVertices froot.groups < 2147483648 →
        decodeInt32 ((content.drop 8).take 4) = totalVertices froot.groups) := by
  obtain ⟨h1, h2, h3⟩ := groupLoop_all_open froot.ValidDoodadNames froot.groups
    (groupLoopStart froot) hgroups
  have h1a : (groupLoop froot.ValidDoodadNames froot.groups (groupLoopStart froot)).output =
      froot.header ++ allGroupWritten froot.groups := h1
  have h2a : (groupLoop froot.ValidDoodadNames froot.groups
      (groupLoopStart froot)).Wmo_nVertices = totalVertices froot.groups := by
    rw [h2]
    show (0 : Int) + totalVertices froot.groups = totalVertices froot.groups
    omega
  have h3a : (groupLoop froot.ValidDoodadNames froot.groups (groupLoopStart froot)).file_ok =
      true := h3
  have hdone := ExtractSingleWmo_done env st fname froot hnew hname hroot hwrite
  rw [h1a, h2a, h3a] at hdone
  simp only [if_true] at hdone
  have hlen : 12 ≤ (froot.header ++ allGroupWritten froot.groups).length := by
    rw [List.length_append]; omega
  obtain ⟨p1, p2, p3⟩ := writeAt_inside_props (froot.header ++ allGroupWritten froot.groups)
    (intBytes (totalVertices froot.groups)) rfl hlen
  refine ⟨_, ?_, p1, p2, p3, fun hlo hhi => ?_⟩
  · rw [hdone]
    exact tableFind_tableSet_self _ _ _
  · rw [p2]
    exact decodeInt32_intBytes _ hlo hhi

/-- C18 (example): for `sampleRoot` (12 header bytes, groups with 4 and 3 vertices writing the
bytes 1, 2 and 3) the output file is the header with 7, 0, 0, 0 at offset 8, followed by
1, 2, 3. -/
theorem ExtractSingleWmo_vertex_count_field_witness :
    tableFind (ExtractSingleWmo sampleEnv ⟨[], []⟩ "a.wmo").state.files
      (sampleEnv.plainName "a.wmo") =
      some [86, 77, 65, 80, 0, 0, 0, 0, 7, 0, 0, 0, 1, 2, 3] ∧
    (∃ content,
      tableFind (ExtractSingleWmo sampleEnv ⟨[], []⟩ "a.wmo").state.files
        (sampleEnv.plainName "a.wmo") = some content ∧
      decodeInt32 ((content.drop 8).take 4) = 7) := by
  obtain ⟨content, h1, _, _, _, h5⟩ := ExtractSingleWmo_vertex_count_field sampleEnv ⟨[], []⟩
    "a.wmo" sampleRoot (by decide) (by decide) rfl rfl (by decide) (by decide)
  exact ⟨by decide, content, h1, h5 (by decide) (by decide)⟩

/-! ## `main`: the output directory cannot be created -/

/-- C13 (code at the failing input): when `mkdir` of the building-output directory fails with
an error other than `EEXIST` and a locale is usable, `main` still calls
`ExtractGameobjectModels()`, skips the Map.db2 block, prints the "Work NOT complete" message
followed by "Work complete. No errors." and returns 0. -/
theorem main_mkdir_failure_exit_status_zero :
    mkdirSuccess mkdirFailsEnv = false ∧
    main mkdirFailsEnv =
      some ⟨[MainStep.ExtractGameobjectModels, MainStep.reportNotComplete,
        MainStep.reportComplete], 0⟩ := by
  decide

end VMapExport
